import Mathlib

/-!
# Consensus arithmetic of `Currency.cpp`

A shallow embedding of the pure functions of `src/CryptoNoteCore/Currency.cpp`
(block subsidy, block reward, transaction fee, fusion transactions, miner
transaction, amount formatting and parsing, LWMA-3 difficulty) followed by
theorems about them.

Conventions of the embedding

* `uint64_t` and `size_t` values are natural numbers; every arithmetic
  operation of the source that can wrap is written with `add64`, `sub64` or
  `mul64`, which reduce modulo `2 ^ 64`.
* A function whose C++ body can run into undefined behaviour (an index
  outside a vector, a division by zero) returns `Option`; `none` is the
  undefined case.
* A C++ `bool` function with output references returns an inner `Option`:
  `none` for `false`, `some outputs` for `true`.
* `assert` is compiled out in a release build; asserted conditions are not
  part of the computed value and appear as hypotheses where a theorem relies
  on them.
* A `std::string` is a list of characters, a `std::vector` a list.
* Constants of `CryptoNoteConfig.h` and the members of `Currency` set by the
  builder are fields of the structure `Currency`; theorems hold for every
  value of them, under the stated hypotheses.
-/

namespace CryptoNote

/-! ## 64-bit machine arithmetic -/

/-- Wrapping `uint64_t` addition. -/
def add64 (a b : Nat) : Nat := (a + b) % 2 ^ 64

/-- Wrapping `uint64_t` subtraction. -/
def sub64 (a b : Nat) : Nat := (a % 2 ^ 64 + 2 ^ 64 - b % 2 ^ 64) % 2 ^ 64

/-- Wrapping `uint64_t` multiplication. -/
def mul64 (a b : Nat) : Nat := (a * b) % 2 ^ 64

/-- Reinterpretation of a `uint64_t` bit pattern as `int64_t` (two's complement). -/
def toInt64 (x : Nat) : Int :=
  if x % 2 ^ 64 < 2 ^ 63 then ((x % 2 ^ 64 : Nat) : Int) else ((x % 2 ^ 64 : Nat) : Int) - 2 ^ 64

/-! ## Configuration -/

/-- The values `Currency.cpp` reads from `CryptoNoteConfig.h` and from the
members of `Currency`.  All of them are `uint64_t` or `size_t` in the source. -/
structure Currency where
  /-- Member `m_moneySupply`. -/
  m_moneySupply : Nat
  /-- Member `m_blockGrantedFullRewardZone`. -/
  m_blockGrantedFullRewardZone : Nat
  /-- Constant `FOUNDATION_TRUST`. -/
  FOUNDATION_TRUST : Nat
  /-- Constant `REWARD_INCREASE_INTERVAL`. -/
  REWARD_INCREASE_INTERVAL : Nat
  /-- Constant `BLOCK_REWARD`. -/
  BLOCK_REWARD : Nat
  /-- Constant `STATIC_BLOCK_REWARD`. -/
  STATIC_BLOCK_REWARD : Nat
  /-- Constant `parameters::MINIMUM_FEE`. -/
  MINIMUM_FEE : Nat
  /-- Member `m_defaultDustThreshold`, also read through `defaultDustThreshold()`. -/
  m_defaultDustThreshold : Nat
  /-- Value of the accessor `fusionTxMaxSize()`. -/
  fusionTxMaxSize : Nat
  /-- Value of the accessor `fusionTxMinInputCount()`. -/
  fusionTxMinInputCount : Nat
  /-- Value of the accessor `fusionTxMinInOutCountRatio()`. -/
  fusionTxMinInOutCountRatio : Nat
  /-- Member `m_numberOfDecimalPlaces`. -/
  m_numberOfDecimalPlaces : Nat
  /-- Member `m_minedMoneyUnlockWindow`. -/
  m_minedMoneyUnlockWindow : Nat
  /-- Constant `TRANSACTION_VERSION_1`. -/
  TRANSACTION_VERSION_1 : Nat
deriving Repr, DecidableEq

/-- The table `Currency::REWARD_INCREASING_FACTOR` (line 57). -/
def REWARD_INCREASING_FACTOR : List Nat :=
  [0, 25000, 50000, 75000, 100000, 125000, 150000, 175000, 200000]

/-- Parameter values used to evaluate the functions on concrete inputs; the
dust threshold is 100 and amounts are shown with 2 decimal places. -/
def sampleCurrency : Currency :=
  Currency.mk 200000000000000 100000 1200000000000 21900 500000 600000 1000
    100 30000 12 4 2 10 1

/-- A size-penalty function used to evaluate `getBlockReward` on concrete
inputs: no penalty up to the median, the quadratic penalty above it. -/
def samplePenalty (amount medianSize currentBlockSize : Nat) : Nat :=
  if currentBlockSize ≤ medianSize then amount
  else amount * (currentBlockSize * (2 * medianSize - currentBlockSize)) / medianSize / medianSize

/-! ## Block subsidy -/

/-- Embedding of `Currency::baseRewardFunction` (lines 122-134).  The vector access of line
128 is unchecked in the source (the `assert` above it is commented out), so an
index outside the table gives `none`, as does a zero divisor. -/
def baseRewardFunction (c : Currency) (alreadyGeneratedCoins height : Nat) : Option Nat :=
  if height = 1 then some c.FOUNDATION_TRUST
  else if c.REWARD_INCREASE_INTERVAL = 0 then none
  else
    let incrIntervals := height / c.REWARD_INCREASE_INTERVAL
    match REWARD_INCREASING_FACTOR[incrIntervals]? with
    | none => none
    | some factor =>
      let base_reward := add64 c.BLOCK_REWARD factor
      let base_reward := min base_reward c.STATIC_BLOCK_REWARD
      let base_reward := min base_reward (sub64 c.m_moneySupply alreadyGeneratedCoins)
      some base_reward

/-- Embedding of `Currency::getBlockReward` (lines 150-171).  `getPenalizedAmount` is the
size-penalty function of `CryptoNoteBasicImpl`, external to this file, taken
as a parameter.  The outputs are `(reward, emissionChange)`.  The `assert` of
line 154 (`alreadyGeneratedCoins <= m_moneySupply`) does not enter the result. -/
def getBlockReward (c : Currency) (getPenalizedAmount : Nat → Nat → Nat → Nat)
    (medianSize currentBlockSize alreadyGeneratedCoins fee height : Nat) :
    Option (Option (Nat × Int)) :=
  match baseRewardFunction c alreadyGeneratedCoins height with
  | none => none
  | some baseReward =>
    let medianSize := max medianSize c.m_blockGrantedFullRewardZone
    if currentBlockSize > mul64 2 medianSize then some none
    else
      let penalizedBaseReward := getPenalizedAmount baseReward medianSize currentBlockSize
      let penalizedFee := getPenalizedAmount fee medianSize currentBlockSize
      let emissionChange := toInt64 (sub64 penalizedBaseReward (sub64 fee penalizedFee))
      let reward := add64 penalizedBaseReward penalizedFee
      some (some (reward, emissionChange))

/-! ## Transaction fee -/

/-- The variant `TransactionInput` of `CryptoNote.h`, restricted to the fields
`Currency.cpp` reads: `BaseInput`, `KeyInput` with its `amount`, and
`MultisignatureInput` with its `amount` and `term`. -/
inductive TransactionInput where
  | BaseInput : TransactionInput
  | KeyInput (amount : Nat) : TransactionInput
  | MultisignatureInput (amount term : Nat) : TransactionInput
deriving Repr, DecidableEq

/-- The type `TransactionOutput`; only `amount` is read by the functions embedded here. -/
structure TransactionOutput where
  amount : Nat
deriving Repr, DecidableEq

/-- The fields `inputs` and `outputs` of a `Transaction`. -/
structure Transaction where
  inputs : List TransactionInput
  outputs : List TransactionOutput
deriving Repr, DecidableEq

/-- Embedding of `Currency::getTransactionInputAmount` (lines 220-247).  `calculateInterest`
(lines 175-196) is computed in single-precision floating point; it enters as a
function parameter giving the `uint64_t` it returns.  The final `else` branch
(`assert(false)`) has no variant left to reach it. -/
def getTransactionInputAmount (calculateInterest : Nat → Nat → Nat)
    (inp : TransactionInput) (_height : Nat) : Nat :=
  match inp with
  | TransactionInput.KeyInput amount => amount
  | TransactionInput.MultisignatureInput amount term =>
    if term = 0 then amount
    else add64 amount (calculateInterest amount term)
  | TransactionInput.BaseInput => 0

/-- Embedding of `Currency::getTransactionAllInputsAmount` (lines 251-260). -/
def getTransactionAllInputsAmount (calculateInterest : Nat → Nat → Nat)
    (tx : Transaction) (height : Nat) : Nat :=
  tx.inputs.foldl
    (fun amount inp => add64 amount (getTransactionInputAmount calculateInterest inp height)) 0

/-- Embedding of `Currency::getTransactionFee(tx, fee, height)` (lines 264-301): `none` is
the `false` return, `some fee` the `true` return with the fee written. -/
def getTransactionFee (c : Currency) (calculateInterest : Nat → Nat → Nat)
    (tx : Transaction) (height : Nat) : Option Nat :=
  let amount_in := tx.inputs.foldl
    (fun acc inp => add64 acc (getTransactionInputAmount calculateInterest inp height)) 0
  let amount_out := tx.outputs.foldl (fun acc o => add64 acc o.amount) 0
  if amount_out > amount_in then
    if tx.inputs.length > 0 ∧ tx.outputs.length > 0 ∧
        amount_out > add64 amount_in c.MINIMUM_FEE then
      some c.MINIMUM_FEE
    else
      none
  else
    some (sub64 amount_in amount_out)

/-- Embedding of the overload `Currency::getTransactionFee(tx, height)` (lines
305-314): `r` starts at 0, the checking variant writes it only when it
succeeds, and a failure resets it to 0. -/
def getTransactionFeeOrZero (c : Currency) (calculateInterest : Nat → Nat → Nat)
    (tx : Transaction) (height : Nat) : Nat :=
  match getTransactionFee c calculateInterest tx height with
  | none => 0
  | some fee => fee

/-- The amount of one input as the specification words it: a coinbase input
counts 0, a key input its amount, a deposit input its amount plus the interest
when its term is not 0.  Unbounded arithmetic. -/
def specInputAmount (calculateInterest : Nat → Nat → Nat) : TransactionInput → Nat
  | TransactionInput.BaseInput => 0
  | TransactionInput.KeyInput amount => amount
  | TransactionInput.MultisignatureInput amount term =>
    amount + (if term = 0 then 0 else calculateInterest amount term)

/-- The quantity `inAmt` of the specification: the sum of the input amounts, in 64 bits. -/
def specInAmt (calculateInterest : Nat → Nat → Nat) (tx : Transaction) : Nat :=
  (tx.inputs.map (specInputAmount calculateInterest)).sum % 2 ^ 64

/-- The quantity `outAmt` of the specification: the sum of the output amounts, in 64 bits. -/
def specOutAmt (tx : Transaction) : Nat :=
  (tx.outputs.map (fun o => o.amount)).sum % 2 ^ 64

/-- An interest function used to evaluate the fee functions on concrete
inputs: one thousandth of the amount per 21900 blocks of term. -/
def sampleInterest (amount term : Nat) : Nat :=
  amount * (term / 21900) / 1000

/-- A withdrawal of a deposit of 5 000 000 with term 43800 plus a key input,
paying two outputs. -/
def sampleTransaction : Transaction :=
  Transaction.mk
    [TransactionInput.MultisignatureInput 5000000 43800, TransactionInput.KeyInput 70000]
    [TransactionOutput.mk 5000000, TransactionOutput.mk 79000]

/-- A transaction whose outputs exceed its inputs by more than
`inAmt + MINIMUM_FEE`: one key input of 10, one output of 5000. -/
def inflatingTransaction : Transaction :=
  Transaction.mk [TransactionInput.KeyInput 10] [TransactionOutput.mk 5000]

/-- A transaction whose outputs exceed its inputs by 1: one key input of 100,
one output of 101. -/
def slightlyInflatingTransaction : Transaction :=
  Transaction.mk [TransactionInput.KeyInput 100] [TransactionOutput.mk 101]

/-! ## Fusion transactions -/

/-- The table `Currency::PRETTY_AMOUNTS` (lines 35-55). -/
def PRETTY_AMOUNTS : List Nat :=
  [
    1, 2, 3, 4, 5, 6, 7, 8, 9,
    10, 20, 30, 40, 50, 60, 70, 80, 90,
    100, 200, 300, 400, 500, 600, 700, 800, 900,
    1000, 2000, 3000, 4000, 5000, 6000, 7000, 8000, 9000,
    10000, 20000, 30000, 40000, 50000, 60000, 70000, 80000, 90000,
    100000, 200000, 300000, 400000, 500000, 600000, 700000, 800000, 900000,
    1000000, 2000000, 3000000, 4000000, 5000000, 6000000, 7000000, 8000000, 9000000,
    10000000, 20000000, 30000000, 40000000, 50000000, 60000000, 70000000, 80000000, 90000000,
    100000000, 200000000, 300000000, 400000000, 500000000, 600000000, 700000000, 800000000, 900000000,
    1000000000, 2000000000, 3000000000, 4000000000, 5000000000, 6000000000, 7000000000, 8000000000, 9000000000,
    10000000000, 20000000000, 30000000000, 40000000000, 50000000000, 60000000000, 70000000000, 80000000000, 90000000000,
    100000000000, 200000000000, 300000000000, 400000000000, 500000000000, 600000000000, 700000000000, 800000000000, 900000000000,
    1000000000000, 2000000000000, 3000000000000, 4000000000000, 5000000000000, 6000000000000, 7000000000000, 8000000000000, 9000000000000,
    10000000000000, 20000000000000, 30000000000000, 40000000000000, 50000000000000, 60000000000000, 70000000000000, 80000000000000, 90000000000000,
    100000000000000, 200000000000000, 300000000000000, 400000000000000, 500000000000000, 600000000000000, 700000000000000, 800000000000000, 900000000000000,
    1000000000000000, 2000000000000000, 3000000000000000, 4000000000000000, 5000000000000000, 6000000000000000, 7000000000000000, 8000000000000000, 9000000000000000,
    10000000000000000, 20000000000000000, 30000000000000000, 40000000000000000, 50000000000000000, 60000000000000000, 70000000000000000, 80000000000000000, 90000000000000000,
    100000000000000000, 200000000000000000, 300000000000000000, 400000000000000000, 500000000000000000, 600000000000000000, 700000000000000000, 800000000000000000, 900000000000000000,
    1000000000000000000, 2000000000000000000, 3000000000000000000, 4000000000000000000, 5000000000000000000, 6000000000000000000, 7000000000000000000, 8000000000000000000, 9000000000000000000,
    10000000000000000000]

/-- Modelled from the spec: the loop of the canonical decomposer, whose source
(`decomposeAmount`, `decompose_amount_into_digits`) is outside `Currency.cpp`.
From the most significant decimal position down, while what remains is at
least the dust threshold the largest round piece `d * 10 ^ k` is split off;
what remains at the end is emitted as one dust chunk. -/
def specDecomposeLoop : Nat → Nat → Nat → List Nat
  | 0, remaining, _ => if remaining = 0 then [] else [remaining]
  | k + 1, remaining, dustThreshold =>
    let piece := remaining / 10 ^ k * 10 ^ k
    if dustThreshold ≤ remaining ∧ piece ≠ 0 then
      piece :: specDecomposeLoop k (remaining - piece) dustThreshold
    else
      specDecomposeLoop k remaining dustThreshold

/-- Modelled from the spec: `decompose(amount, dustThreshold)` for a 64-bit
amount (at most 20 decimal positions), chunks from the most significant to the
least significant and the dust chunk last. -/
def specDecomposeAmount (amount dustThreshold : Nat) : List Nat :=
  specDecomposeLoop 20 amount dustThreshold

/-- The loop of lines 447-456: `none` when an amount is below the dust
threshold, otherwise the 64-bit sum of the amounts added to `inputAmount`. -/
def fusionInputAmount (dustThreshold : Nat) : List Nat → Nat → Option Nat
  | [], inputAmount => some inputAmount
  | amount :: rest, inputAmount =>
    if amount < dustThreshold then none
    else fusionInputAmount dustThreshold rest (add64 inputAmount amount)

/-- Embedding of `Currency::isFusionTransaction(inputsAmounts, outputsAmounts,
size)` (lines 430-464).  `decomposeAmount` is defined outside `Currency.cpp` and
enters as a parameter; `std::sort` is the ascending sort. -/
def isFusionTransaction (c : Currency) (decomposeAmount : Nat → Nat → List Nat)
    (inputsAmounts outputsAmounts : List Nat) (size : Nat) : Bool :=
  if size > c.fusionTxMaxSize then false
  else if inputsAmounts.length < c.fusionTxMinInputCount then false
  else if inputsAmounts.length < mul64 outputsAmounts.length c.fusionTxMinInOutCountRatio then
    false
  else
    match fusionInputAmount c.m_defaultDustThreshold inputsAmounts 0 with
    | none => false
    | some inputAmount =>
      let expectedOutputsAmounts := decomposeAmount inputAmount c.m_defaultDustThreshold
      let expectedOutputsAmounts := List.insertionSort (fun a b => a ≤ b) expectedOutputsAmounts
      decide (expectedOutputsAmounts = outputsAmounts)

/-- The position `std::lower_bound` returns in a sorted vector: the index of
the first element that is not less than `value`, the length if there is none. -/
def lower_bound (v : List Nat) (value : Nat) : Nat :=
  v.findIdx (fun e => decide (value ≤ e))

/-- Embedding of `Currency::isAmountApplicableInFusionTransactionInput(amount,
threshold, amountPowerOfTen, height)` (lines 497-517): `none` is the `false`
return, `some p` the `true` return with `amountPowerOfTen = p` written. -/
def isAmountApplicableInFusionTransactionInput (c : Currency) (amount threshold _height : Nat) :
    Option Nat :=
  if amount ≥ threshold then none
  else if amount < c.m_defaultDustThreshold then none
  else
    let it := lower_bound PRETTY_AMOUNTS amount
    match PRETTY_AMOUNTS[it]? with
    | none => none
    | some found =>
      if amount ≠ found then none
      else some (it / 9 % 2 ^ 8)

/-- Twelve inputs of 100 each, 1200 in total. -/
def twelveInputs : List Nat :=
  [100, 100, 100, 100, 100, 100, 100, 100, 100, 100, 100, 100]

/-! ## Miner transaction -/

/-- A key pair as `generateKeyPair` returns it; keys are opaque values here. -/
structure KeyPair where
  publicKey : Nat
  secretKey : Nat
deriving Repr, DecidableEq

/-- The two public keys of `AccountPublicAddress`. -/
structure AccountPublicAddress where
  spendPublicKey : Nat
  viewPublicKey : Nat
deriving Repr, DecidableEq

/-- An output as `constructMinerTx` builds it: the amount and the key of its
`KeyOutput` target. -/
structure MinerTxOutput where
  amount : Nat
  key : Nat
deriving Repr, DecidableEq

/-- The fields of the `Transaction` that `constructMinerTx` writes; `inputs`
lists the `blockIndex` of each `BaseInput`. -/
structure MinerTx where
  version : Nat
  unlockTime : Nat
  inputs : List Nat
  outputs : List MinerTxOutput
  extra : List Nat
deriving Repr, DecidableEq

/-- The functions `constructMinerTx` calls that are defined outside
`Currency.cpp`: key generation and derivation, the two writers of the extra
field, the decomposer (the sequence of chunks its two callbacks receive, in
call order) and the size penalty.  A `bool` result `false` is `none`. -/
structure MinerTxCollaborators where
  generateKeyPair : KeyPair
  addTransactionPublicKeyToExtra : List Nat → Nat → List Nat
  addExtraNonceToTransactionExtra : List Nat → List Nat → Option (List Nat)
  generate_key_derivation : Nat → Nat → Option Nat
  derive_public_key : Nat → Nat → Nat → Option Nat
  decompose_amount_into_digits : Nat → Nat → List Nat
  getPenalizedAmount : Nat → Nat → Nat → Nat

/-- The body of the loop of lines 371-375: `outAmounts[size - 2] +=
outAmounts.back()` followed by `resize(size - 1)`.  The loop runs it only on
vectors of at least two entries. -/
def mergeLastTwo (outAmounts : List Nat) : List Nat :=
  let size := outAmounts.length
  (outAmounts.set (size - 2)
    (add64 (outAmounts.getD (size - 2) 0) (outAmounts.getD (size - 1) 0))).take (size - 1)

/-- The `while` loop of lines 371-375, at most `fuel` iterations. -/
def mergeTail (maxOuts : Nat) : Nat → List Nat → List Nat
  | 0, outAmounts => outAmounts
  | fuel + 1, outAmounts =>
    if maxOuts < outAmounts.length then mergeTail maxOuts fuel (mergeLastTwo outAmounts)
    else outAmounts

/-- The `for` loop of lines 378-413 over the amounts still to place, `no` being
the index of the next output: `none` when a key derivation fails, otherwise the
outputs built and `summaryAmounts`. -/
def minerOutputs (env : MinerTxCollaborators) (minerAddress : AccountPublicAddress)
    (txkey : KeyPair) : List Nat → Nat → List MinerTxOutput × Nat →
    Option (List MinerTxOutput × Nat)
  | [], _, acc => some acc
  | amount :: rest, no, (outputs, summaryAmounts) =>
    match env.generate_key_derivation minerAddress.viewPublicKey txkey.secretKey with
    | none => none
    | some derivation =>
      match env.derive_public_key derivation no minerAddress.spendPublicKey with
      | none => none
      | some outEphemeralPubKey =>
        minerOutputs env minerAddress txkey rest (no + 1)
          (outputs ++ [MinerTxOutput.mk amount outEphemeralPubKey],
            add64 summaryAmounts amount)

/-- Embedding of `Currency::constructMinerTx` (lines 330-426).  The outer
`none` is an undefined block reward, `some none` the `false` return and
`some (some tx)` the `true` return with the transaction written. -/
def constructMinerTx (c : Currency) (env : MinerTxCollaborators)
    (height medianSize alreadyGeneratedCoins currentBlockSize fee : Nat)
    (minerAddress : AccountPublicAddress) (extraNonce : List Nat) (maxOuts : Nat) :
    Option (Option MinerTx) :=
  let txkey := env.generateKeyPair
  let extra := env.addTransactionPublicKeyToExtra [] txkey.publicKey
  match (if extraNonce.isEmpty then some extra
      else env.addExtraNonceToTransactionExtra extra extraNonce) with
  | none => some none
  | some extra =>
    match getBlockReward c env.getPenalizedAmount medianSize currentBlockSize
        alreadyGeneratedCoins fee height with
    | none => none
    | some none => some none
    | some (some (blockReward, _)) =>
      let outAmounts := env.decompose_amount_into_digits blockReward c.m_defaultDustThreshold
      if ¬ (1 ≤ maxOuts) then some none
      else
        let outAmounts := mergeTail maxOuts outAmounts.length outAmounts
        match minerOutputs env minerAddress txkey outAmounts 0 ([], 0) with
        | none => some none
        | some (outputs, summaryAmounts) =>
          if ¬ (summaryAmounts = blockReward) then some none
          else
            some (some (MinerTx.mk c.TRANSACTION_VERSION_1
              (add64 height c.m_minedMoneyUnlockWindow) [height] outputs extra))

/-- Collaborators used to evaluate `constructMinerTx` on concrete inputs: the
decomposer modelled from the spec, the sample size penalty, and key functions
that always succeed. -/
def sampleCollaborators : MinerTxCollaborators :=
  MinerTxCollaborators.mk (KeyPair.mk 11 12) (fun extra key => extra ++ [1, key])
    (fun extra nonce => some (extra ++ 2 :: nonce))
    (fun view secret => some (view + secret))
    (fun derivation no spend => some (derivation + no + spend))
    specDecomposeAmount samplePenalty

/-- Collaborators as in `sampleCollaborators`, except for the decomposer, which
puts two chunks of `2 ^ 63` before the amount: three `uint64_t` chunks whose
64-bit sum is the amount. -/
def wrappingCollaborators : MinerTxCollaborators :=
  MinerTxCollaborators.mk (KeyPair.mk 11 12) (fun extra key => extra ++ [1, key])
    (fun extra nonce => some (extra ++ 2 :: nonce))
    (fun view secret => some (view + secret))
    (fun derivation no spend => some (derivation + no + spend))
    (fun amount _ => [2 ^ 63, 2 ^ 63, amount]) samplePenalty

/-! ## Amount formatting and parsing -/

/-- The test `::isdigit` of the C locale: the characters `'0'` to `'9'`. -/
def isdigit (ch : Char) : Bool :=
  decide (48 ≤ ch.toNat ∧ ch.toNat ≤ 57)

/-- The characters `boost::algorithm::trim` removes (`std::isspace` in the
classic locale): space, tab, line feed, vertical tab, form feed, carriage return. -/
def isspace (ch : Char) : Bool :=
  decide (ch.toNat = 32 ∨ (9 ≤ ch.toNat ∧ ch.toNat ≤ 13))

/-- The effect of `boost::algorithm::trim`: leading and trailing whitespace removed. -/
def trim (s : List Char) : List Char :=
  ((s.dropWhile isspace).reverse.dropWhile isspace).reverse

/-- The result of `std::to_string` on an unsigned integer: its decimal digits,
most significant first, `"0"` for 0. -/
def to_string (n : Nat) : List Char :=
  Nat.toDigits 10 n

/-- The number a string of decimal digits denotes. -/
def digitsValue (s : List Char) : Nat :=
  s.foldl (fun acc ch => acc * 10 + (ch.toNat - 48)) 0

/-- Modelled from the spec: `Common::fromString` for `uint64_t`, whose source
is outside `Currency.cpp`, on the strings `parseAmount` passes to it (non-empty,
decimal digits only): "parse as an unsigned integer", failing when the number
does not fit 64 bits. -/
def fromString (text : List Char) : Option Nat :=
  if digitsValue text < 2 ^ 64 then some (digitsValue text) else none

/-- Embedding of `Currency::formatAmount(uint64_t)` (lines 554-564);
`s.insert(pos, ".")` puts the point before position `pos`.  String sizes and
the number of decimal places are natural numbers: of the `size_t` expressions
only `m_numberOfDecimalPlaces + 1` could wrap, and only for `2 ^ 64 - 1`
decimal places, more characters than a string holds. -/
def formatAmount (c : Currency) (amount : Nat) : List Char :=
  let s := to_string amount
  let s :=
    if s.length < c.m_numberOfDecimalPlaces + 1 then
      List.replicate (c.m_numberOfDecimalPlaces + 1 - s.length) '0' ++ s
    else s
  s.take (s.length - c.m_numberOfDecimalPlaces) ++
    '.' :: s.drop (s.length - c.m_numberOfDecimalPlaces)

/-- The result of `find_first_of`: the index of the first occurrence of `ch`,
`none` for `npos`. -/
def find_first_of (s : List Char) (ch : Char) : Option Nat :=
  if s.findIdx (fun x => decide (x = ch)) < s.length then
    some (s.findIdx (fun x => decide (x = ch)))
  else none

/-- The `while` loop of lines 593-597, by recursion on `fractionSize`: trailing
`'0'` characters are erased as long as `fractionSize` exceeds the number of
decimal places.  The result is the string and `fractionSize` after the loop. -/
def stripLoop (numberOfDecimalPlaces : Nat) : Nat → List Char → List Char × Nat
  | 0, strAmount => (strAmount, 0)
  | fractionSize + 1, strAmount =>
    if numberOfDecimalPlaces < fractionSize + 1 ∧ strAmount.getLast? = some '0' then
      stripLoop numberOfDecimalPlaces fractionSize strAmount.dropLast
    else (strAmount, fractionSize + 1)

/-- Lines 611-626 of `parseAmount`, common to both branches: the checks for an
empty string and for non-digits, the padding with zeros and the conversion. -/
def parseAmountTail (c : Currency) (strAmount : List Char) (fractionSize : Nat) : Option Nat :=
  if strAmount.isEmpty then none
  else if ¬ (strAmount.all isdigit = true) then none
  else
    let strAmount :=
      if fractionSize < c.m_numberOfDecimalPlaces then
        strAmount ++ List.replicate (c.m_numberOfDecimalPlaces - fractionSize) '0'
      else strAmount
    fromString strAmount

/-- Embedding of `Currency::parseAmount` (lines 582-627): `none` is the `false`
return, `some amount` the `true` return with the amount written. -/
def parseAmount (c : Currency) (str : List Char) : Option Nat :=
  let strAmount := trim str
  match find_first_of strAmount '.' with
  | some pointIndex =>
    let fractionSize := strAmount.length - pointIndex - 1
    let stripped := stripLoop c.m_numberOfDecimalPlaces fractionSize strAmount
    if c.m_numberOfDecimalPlaces < stripped.2 then none
    else parseAmountTail c (stripped.1.eraseIdx pointIndex) stripped.2
  | none => parseAmountTail c strAmount 0

/-- The fractional characters with the trailing zeros beyond the first
`numberOfDecimalPlaces` characters dropped. -/
def dropExcessZeros (numberOfDecimalPlaces : Nat) (fraction : List Char) : List Char :=
  fraction.take numberOfDecimalPlaces ++
    ((fraction.drop numberOfDecimalPlaces).reverse.dropWhile (fun ch => decide (ch = '0'))).reverse

/-- The outcome of parsing as the specification words it, with the digit
requirement read after the excess zeros are dropped: the trimmed string
`I.F` (or `I` without a point) must consist of decimal digits with at most one
point, `I` followed by the fraction `Fkept` left after dropping the excess zeros
must contain a digit, `Fkept` must have at most `numberOfDecimalPlaces`
characters, and the value of `I` followed by `Fkept` times
`10 ^ (numberOfDecimalPlaces - |Fkept|)` must fit 64 bits; that number is the result. -/
def specParseAmount (numberOfDecimalPlaces : Nat) (s : List Char) : Option Nat :=
  let t := trim s
  let I := t.takeWhile (fun ch => decide (ch ≠ '.'))
  let F := (t.dropWhile (fun ch => decide (ch ≠ '.'))).drop 1
  let Fkept := dropExcessZeros numberOfDecimalPlaces F
  let result := digitsValue (I ++ Fkept) * 10 ^ (numberOfDecimalPlaces - Fkept.length)
  if (∀ ch ∈ t, isdigit ch = true ∨ ch = '.') ∧ t.count '.' ≤ 1 ∧
      (∃ ch ∈ I ++ Fkept, isdigit ch = true) ∧ Fkept.length ≤ numberOfDecimalPlaces ∧
      result < 2 ^ 64 then
    some result
  else none

/-- The outcome of parsing as claimed, the digit requirement read on the
trimmed string itself. -/
def claimedParseAmount (numberOfDecimalPlaces : Nat) (s : List Char) : Option Nat :=
  let t := trim s
  let I := t.takeWhile (fun ch => decide (ch ≠ '.'))
  let F := (t.dropWhile (fun ch => decide (ch ≠ '.'))).drop 1
  let Fkept := dropExcessZeros numberOfDecimalPlaces F
  let result := digitsValue (I ++ Fkept) * 10 ^ (numberOfDecimalPlaces - Fkept.length)
  if (∀ ch ∈ t, isdigit ch = true ∨ ch = '.') ∧ t.count '.' ≤ 1 ∧
      (∃ ch ∈ t, isdigit ch = true) ∧ Fkept.length ≤ numberOfDecimalPlaces ∧
      result < 2 ^ 64 then
    some result
  else none

/-- The sample parameters with no decimal places. -/
def wholeUnitCurrency : Currency :=
  Currency.mk 200000000000000 100000 1200000000000 21900 500000 600000 1000
    100 30000 12 4 0 10 1

/-! ## LWMA-3 difficulty -/

/-- The variables the loop of `LWMA3Difficulty` (lines 666-682) carries from
one iteration to the next. -/
structure LoopState where
  previous_timestamp : Nat
  L : Nat
  sum_3_ST : Nat
deriving Repr, DecidableEq

/-- The `for` loop of lines 666-682: `fuel` iterations starting at index `i`.
`timestamps[i]` is an unchecked vector access. -/
def lwmaLoop (timestamps : List Nat) (T N : Nat) : Nat → Nat → LoopState → Option LoopState
  | 0, _, s => some s
  | fuel + 1, i, s =>
    match timestamps[i]? with
    | none => none
    | some ti =>
      let this_timestamp :=
        if ti > s.previous_timestamp then ti else add64 s.previous_timestamp 1
      let ST := min (mul64 6 T) (sub64 this_timestamp s.previous_timestamp)
      let L := add64 s.L (mul64 ST i)
      let sum_3_ST := if i > sub64 N 3 then add64 s.sum_3_ST ST else s.sum_3_ST
      lwmaLoop timestamps T N fuel (i + 1) (LoopState.mk this_timestamp L sum_3_ST)

/-- Lines 685-698: the division, the 67%/150% clamp and the jump rule, from
the loop result and the three cumulative difficulties read. -/
def lwmaFinish (T N : Nat) (s : LoopState) (cdN cd0 cdN1 : Nat) : Option Nat :=
  let divisor := mul64 (100 * 2) s.L
  if divisor = 0 then none
  else
    let next_D := mul64 (mul64 (mul64 (sub64 cdN cd0) T) (add64 N 1)) 99 / divisor
    let prev_D := sub64 cdN cdN1
    let next_D := max (mul64 prev_D 67 / 100) (min next_D (mul64 prev_D 150 / 100))
    let next_D := if s.sum_3_ST < mul64 8 T / 10 then max next_D (mul64 prev_D 108 / 100)
      else next_D
    some next_D

/-- Embedding of `Currency::LWMA3Difficulty` (lines 634-699).  The `assert`s of
lines 642 and 646 (equal lengths, at most `N + 1` entries) do not enter the
result; a vector read outside its bounds gives `none`. -/
def LWMA3Difficulty (timestamps cumulative_difficulties : List Nat) : Option Nat :=
  let T := 120
  let N := 60
  let length := timestamps.length
  if length ≤ 1 then some 1
  else if timestamps.length ≤ 10 then some 100
  else
    let N := if timestamps.length < N + 1 then timestamps.length - 1 else N
    match timestamps[0]? with
    | none => none
    | some t0 =>
      match lwmaLoop timestamps T N N 1 (LoopState.mk t0 0 0) with
      | none => none
      | some s =>
        match cumulative_difficulties[N]?, cumulative_difficulties[0]?,
            cumulative_difficulties[N - 1]? with
        | some cdN, some cd0, some cdN1 => lwmaFinish T N s cdN cd0 cdN1
        | _, _, _ => none

/-- The solve times `ST` the loop computes one after the other, starting from
`previous_timestamp`, with the wrapping arithmetic of lines 669-676. -/
def solveTimes : Nat → List Nat → List Nat
  | _, [] => []
  | previous_timestamp, ti :: rest =>
    let this_timestamp := if ti > previous_timestamp then ti else add64 previous_timestamp 1
    min 720 (sub64 this_timestamp previous_timestamp) :: solveTimes this_timestamp rest

/-- The weighted sum `ST_i * i + ST_(i+1) * (i+1) + ...` of a list of solve
times whose first entry has index `i`. -/
def weightedSum : Nat → List Nat → Nat
  | _, [] => 0
  | i, st :: rest => st * i + weightedSum (i + 1) rest

/-- The sum of the solve times whose index exceeds `N - 3`, for a list whose
first entry has index `i`. -/
def tailSum (N : Nat) : Nat → List Nat → Nat
  | _, [] => 0
  | i, st :: rest => (if i > N - 3 then st else 0) + tailSum N (i + 1) rest

/-- The clamped solve times as the specification words them, over unbounded
integers: `ST_i = min(720, max(1, timestamps[i] - previous))`, `previous` being
the running adjusted timestamp `max(timestamps[i], previous + 1)`. -/
def specSolveTimes : Int → List Int → List Int
  | _, [] => []
  | previous, t :: rest =>
    min 720 (max 1 (t - previous)) :: specSolveTimes (max t (previous + 1)) rest

/-- The sum of `i * ST_i` over unbounded integers, the first entry having index `i`. -/
def specWeightedSum : Nat → List Int → Int
  | _, [] => 0
  | i, st :: rest => (i : Int) * st + specWeightedSum (i + 1) rest

/-- The difficulty as the specification words it, over unbounded integers with
truncating division: `N = length - 1`, `T = 120`. -/
def specLWMA3 (timestamps cumulative_difficulties : List Nat) : Int :=
  let N := timestamps.length - 1
  let ts : List Int := timestamps.map (fun (t : Nat) => (t : Int))
  let cd : Nat → Int := fun i => ((cumulative_difficulties.getD i 0 : Nat) : Int)
  let ST := specSolveTimes (ts.headD 0) ts.tail
  let L := specWeightedSum 1 ST
  let next_D := Int.tdiv ((cd N - cd 0) * 120 * ((N : Int) + 1) * 99) (100 * 2 * L)
  let prev_D := cd N - cd (N - 1)
  let next_D := max (Int.tdiv (prev_D * 67) 100) (min next_D (Int.tdiv (prev_D * 150) 100))
  if (ST.drop (N - 3)).sum < 96 then max next_D (Int.tdiv (prev_D * 108) 100) else next_D

/-- The value of `next_D` right after the division of line 685, before the
clamp, for the loop result `s`. -/
def rawNextD (N : Nat) (s : LoopState) (cdN cd0 : Nat) : Nat :=
  mul64 (mul64 (mul64 (sub64 cdN cd0) 120) (add64 N 1)) 99 / mul64 (100 * 2) s.L

/-- Eleven blocks solved exactly on target, 120 seconds apart. -/
def steadyTimestamps : List Nat :=
  [1600000000, 1600000120, 1600000240, 1600000360, 1600000480, 1600000600, 1600000720,
    1600000840, 1600000960, 1600001080, 1600001200]

/-- Cumulative difficulties of eleven blocks of difficulty 1 each. -/
def unitCumulativeDifficulties : List Nat :=
  [5001, 5002, 5003, 5004, 5005, 5006, 5007, 5008, 5009, 5010, 5011]

/-- Cumulative difficulties of eleven blocks of difficulty 1000 each. -/
def sampleCumulativeDifficulties : List Nat :=
  [5000, 6000, 7000, 8000, 9000, 10000, 11000, 12000, 13000, 14000, 15000]

/-- Cumulative difficulties that are not monotone: the last entry is below the
one before it. -/
def dippingCumulativeDifficulties : List Nat :=
  [5000, 6000, 7000, 8000, 9000, 10000, 11000, 12000, 13000, 15000, 14000]

/-- Timestamps whose first entry is the largest `uint64_t`. -/
def wrappingTimestamps : List Nat :=
  [18446744073709551615, 0, 120, 240, 360, 480, 600, 720, 840, 960, 1080]

/-- Eleven timestamps that go back in time, repeat and jump ahead. -/
def unorderedTimestamps : List Nat :=
  [1600000500, 1600000400, 1600000400, 1600000900, 1600000100, 1600005000, 1600005000,
    1600004000, 1600005100, 1600005101, 1600009999]

/-- Eleven equal timestamps. -/
def repeatedTimestamps : List Nat := [5, 5, 5, 5, 5, 5, 5, 5, 5, 5, 5]

/-! ### Deposit interest (lines 175-216) -/

/-- The rounding of the floating-point environment the code runs in: `toFloat`
gives the `float` that stores a real value, `toDouble` the `double`.  Values
are rationals: no infinity or NaN arises in `calculateInterest`, whose
magnitudes stay below `2^64`. -/
structure FloatEnv where
  toFloat : ℚ → ℚ
  toDouble : ℚ → ℚ

/-- Conversion of a floating-point value to `uint64_t`: the fraction is
discarded; a value whose truncation is not a `uint64_t` has no defined
conversion (`none`). -/
def toUint64 (q : ℚ) : Option Nat :=
  if -1 < q ∧ q < 2 ^ 64 then some (Int.toNat (Int.floor q)) else none

/-- Embedding of `Currency::calculateInterest` (lines 175-196).  Every
floating-point operation is the exact operation followed by the rounding of its
C++ type, without excess precision or fused operations: `float` for
`months - 1`, `ear / 12`, the two products with `months` and `eir`; `double`
for the literals, the product with the literal `0.001` and the sum with
`baseInterest`.  `term / 21900` is the `uint32_t` quotient, converted to
`float`; the integer operands 1 and 12 of `-` and `>` convert exactly.  The
conversion of line 191, whose value is overwritten, still has to be defined. -/
def calculateInterest (fe : FloatEnv) (amount term : Nat) : Option Nat :=
  let amount4Humans := amount / 100000
  let baseInterest := fe.toFloat (fe.toDouble (49 / 1000))
  let baseInterest := if amount4Humans ≥ 5000 ∧ amount4Humans < 10000
    then fe.toFloat (fe.toDouble (54 / 1000)) else baseInterest
  let baseInterest := if amount4Humans ≥ 10000 ∧ amount4Humans < 15000
    then fe.toFloat (fe.toDouble (59 / 1000)) else baseInterest
  let baseInterest := if amount4Humans ≥ 15000 ∧ amount4Humans < 20000
    then fe.toFloat (fe.toDouble (64 / 1000)) else baseInterest
  let baseInterest := if amount4Humans ≥ 20000
    then fe.toFloat (fe.toDouble (69 / 1000)) else baseInterest
  let months := fe.toFloat ((term / 21900 : Nat) : ℚ)
  let months := if months > 12 then fe.toFloat 12 else months
  let ear := fe.toFloat (fe.toDouble
    (baseInterest + fe.toDouble (fe.toFloat (months - 1) * fe.toDouble (1 / 1000))))
  let eir := fe.toFloat (fe.toFloat (ear / fe.toFloat 12) * months)
  match toUint64 eir with
  | none => none
  | some _ =>
    let interest := fe.toFloat (fe.toFloat (amount : ℚ) * eir)
    toUint64 interest

/-- The `uint64_t` that `calculateInterest` hands to its callers, 0 standing
for a conversion without defined value. -/
def interestValue (fe : FloatEnv) (amount term : Nat) : Nat :=
  (calculateInterest fe amount term).getD 0

/-- Embedding of `Currency::calculateTotalTransactionInterest` (lines 200-216). -/
def calculateTotalTransactionInterest (calculateInterest : Nat → Nat → Nat)
    (tx : Transaction) : Nat :=
  tx.inputs.foldl
    (fun interest input =>
      match input with
      | TransactionInput.MultisignatureInput amount term =>
        if term ≠ 0 then add64 interest (calculateInterest amount term) else interest
      | _ => interest) 0

/-- Nearest integer of a rational, ties to the even one. -/
def roundNearestEven (q : ℚ) : Int :=
  let f := Int.floor q
  if q - f < 1 / 2 then f
  else if q - f > 1 / 2 then f + 1
  else if f % 2 = 0 then f else f + 1

/-- The number of halvings that take `n` below 2: `floor(log2 n)` for
`1 <= n <= fuel`. -/
def natLog2 : Nat → Nat → Nat
  | 0, _ => 0
  | fuel + 1, n => if n < 2 then 0 else natLog2 fuel (n / 2) + 1

/-- The binary exponent `floor(log2 |q|)` of a non-zero rational. -/
def floorLog2 (q : ℚ) : Int :=
  let k : Int := (natLog2 q.num.natAbs q.num.natAbs : Int) - (natLog2 q.den q.den : Int)
  if (2 : ℚ) ^ k ≤ |q| then k else k - 1

/-- IEEE 754 round-to-nearest-even to a binary format of precision `p` and
least exponent `emin` (overflow apart). -/
def roundBinary (p : Nat) (emin : Int) (q : ℚ) : ℚ :=
  if q = 0 then 0
  else
    let e := max (floorLog2 q) emin
    let ulp : ℚ := 2 ^ (e - (p - 1))
    roundNearestEven (q / ulp) * ulp

/-- The environment of IEEE 754 `binary32` and `binary64` with
round-to-nearest-even and every operation rounded to its own type. -/
def ieeeEnv : FloatEnv := FloatEnv.mk (roundBinary 24 (-126)) (roundBinary 53 (-1022))

/-- Exact arithmetic: nothing is rounded. -/
def exactEnv : FloatEnv := FloatEnv.mk id id

/-- The annual base rate as the specification words it: 4.9%, 5.4%, 5.9%,
6.4% or 6.9% by the bracket of `amount / 100000`. -/
def specBaseRate (amount : Nat) : ℚ :=
  let humanUnits := amount / 100000
  if humanUnits < 5000 then 49 / 1000
  else if humanUnits < 10000 then 54 / 1000
  else if humanUnits < 15000 then 59 / 1000
  else if humanUnits < 20000 then 64 / 1000
  else 69 / 1000

/-- The effective period rate of the specification, in exact arithmetic:
`months = min(term / 21900, 12)`, `ear = baseRate + (months - 1) * 0.001`,
`eir = (ear / 12) * months`. -/
def specEir (amount term : Nat) : ℚ :=
  let months : ℚ := ((min (term / 21900) 12 : Nat) : ℚ)
  let ear := specBaseRate amount + (months - 1) * (1 / 1000)
  (ear / 12) * months

/-- The interest of the specification: `floor(amount * eir)` in exact
arithmetic. -/
def specInterest (amount term : Nat) : Int :=
  Int.floor ((amount : ℚ) * specEir amount term)

/-- A floating-point environment whose `float` has a relative rounding error
of at most `2^-24` and whose `double` one of at most `2^-53` on the magnitudes
`calculateInterest` meets (0 and `2^-13 .. 2^65`), and whose `float` holds
the integers -1 .. 12 exactly. -/
def faithfulRounding (fe : FloatEnv) : Prop :=
  (∀ x : ℚ, x = 0 ∨ (1 / 2 ^ 13 ≤ |x| ∧ |x| ≤ 2 ^ 65) → |fe.toFloat x - x| ≤ |x| * (1 / 2 ^ 24)) ∧
  (∀ x : ℚ, x = 0 ∨ (1 / 2 ^ 13 ≤ |x| ∧ |x| ≤ 2 ^ 65) →
    |fe.toDouble x - x| ≤ |x| * (1 / 2 ^ 53)) ∧
  (∀ z : Int, -1 ≤ z → z ≤ 12 → fe.toFloat (z : ℚ) = z)

/-! ## Theorems -/

theorem sub64_of_le {a b : Nat} (hab : b ≤ a) (ha : a < 2 ^ 64) : sub64 a b = a - b := by
  unfold sub64
  omega

theorem sub64_lt (a b : Nat) : sub64 a b < 2 ^ 64 := by
  unfold sub64
  omega

theorem add64_lt (a b : Nat) : add64 a b < 2 ^ 64 := by
  unfold add64
  omega

/-! ### Block subsidy -/

/-- At height 1 the result is not clamped by the remaining supply: whenever
less than `FOUNDATION_TRUST` is left to issue, the base reward exceeds it, for
every configuration. -/
theorem baseRewardFunction_height_one_unclamped (c : Currency) (alreadyGeneratedCoins : Nat)
    (hleft : c.m_moneySupply - alreadyGeneratedCoins < c.FOUNDATION_TRUST) :
    ∃ r, baseRewardFunction c alreadyGeneratedCoins 1 = some r ∧
      ¬ r ≤ c.m_moneySupply - alreadyGeneratedCoins :=
  ⟨c.FOUNDATION_TRUST, by simp [baseRewardFunction], by omega⟩

/-- C1, counterexample: with 1 000 000 000 atomic units left to issue, the
height-1 call still returns the whole `FOUNDATION_TRUST`, which is more than
what is left, although `alreadyGeneratedCoins <= MoneySupply` and the table
index `1 / REWARD_INCREASE_INTERVAL = 0` is inside the table. -/
theorem baseRewardFunction_height_one_exceeds_remaining :
    199999000000000 ≤ sampleCurrency.m_moneySupply ∧
    1 / sampleCurrency.REWARD_INCREASE_INTERVAL < REWARD_INCREASING_FACTOR.length ∧
    baseRewardFunction sampleCurrency 199999000000000 1 = some 1200000000000 ∧
    ¬ (1200000000000 ≤ sampleCurrency.m_moneySupply - 199999000000000) := by
  decide

/-- C1, amended: for `alreadyGeneratedCoins <= MoneySupply` and a height whose
table index is inside the table, the base reward is defined and at most
`MoneySupply - alreadyGeneratedCoins` at every height other than 1; at height
1 the bound holds when `FOUNDATION_TRUST` itself fits in what is left. -/
theorem baseRewardFunction_le_remaining (c : Currency) (alreadyGeneratedCoins height : Nat)
    (hsupply : c.m_moneySupply < 2 ^ 64) (hinterval : 0 < c.REWARD_INCREASE_INTERVAL)
    (hgen : alreadyGeneratedCoins ≤ c.m_moneySupply)
    (hidx : height / c.REWARD_INCREASE_INTERVAL < REWARD_INCREASING_FACTOR.length)
    (hone : height = 1 → c.FOUNDATION_TRUST ≤ c.m_moneySupply - alreadyGeneratedCoins) :
    ∃ r, baseRewardFunction c alreadyGeneratedCoins height = some r ∧
      r ≤ c.m_moneySupply - alreadyGeneratedCoins ∧
      alreadyGeneratedCoins + r ≤ c.m_moneySupply := by
  by_cases h1 : height = 1
  · refine ⟨c.FOUNDATION_TRUST, ?_, hone h1, ?_⟩
    · simp [baseRewardFunction, h1]
    · have := hone h1
      omega
  · obtain ⟨factor, hfactor⟩ : ∃ factor,
        REWARD_INCREASING_FACTOR[height / c.REWARD_INCREASE_INTERVAL]? = some factor :=
      ⟨_, List.getElem?_eq_getElem hidx⟩
    have hne : c.REWARD_INCREASE_INTERVAL ≠ 0 := by omega
    have hsub := sub64_of_le hgen hsupply
    refine ⟨min (min (add64 c.BLOCK_REWARD factor) c.STATIC_BLOCK_REWARD)
      (sub64 c.m_moneySupply alreadyGeneratedCoins), ?_, ?_, ?_⟩
    · simp [baseRewardFunction, h1, hne, hfactor]
    · rw [hsub]
      exact Nat.min_le_right _ _
    · have : min (min (add64 c.BLOCK_REWARD factor) c.STATIC_BLOCK_REWARD)
          (sub64 c.m_moneySupply alreadyGeneratedCoins) ≤ c.m_moneySupply - alreadyGeneratedCoins := by
        rw [hsub]
        exact Nat.min_le_right _ _
      omega

/-- Witness for C1 as amended: height 50000, 1000 coins issued. -/
theorem baseRewardFunction_le_remaining_witness :
    ∃ r, baseRewardFunction sampleCurrency 1000 50000 = some r ∧
      r ≤ sampleCurrency.m_moneySupply - 1000 ∧ 1000 + r ≤ sampleCurrency.m_moneySupply :=
  baseRewardFunction_le_remaining sampleCurrency 1000 50000 (by decide) (by decide) (by decide)
    (by decide) (by decide)

/-- C2: at height 1 the base reward is exactly `FOUNDATION_TRUST`, for every
configuration and every `alreadyGeneratedCoins`; neither the reward table nor
the static ceiling nor the remaining supply enters the result. -/
theorem baseRewardFunction_height_one (c : Currency) (alreadyGeneratedCoins : Nat) :
    baseRewardFunction c alreadyGeneratedCoins 1 = some c.FOUNDATION_TRUST := by
  simp [baseRewardFunction]

/-- C3: for a height other than 1 with table index `idx < 9` and
`alreadyGeneratedCoins <= MoneySupply`, the base reward is
`min (min (BLOCK_REWARD + 25000 * idx) STATIC_BLOCK_REWARD) (MoneySupply - alreadyGeneratedCoins)`,
the table having 9 entries with entry `idx` equal to `25000 * idx`.  The
configuration constants are `uint64_t` values for which `BLOCK_REWARD` plus the
largest table entry does not wrap. -/
theorem baseRewardFunction_eq_clamped (c : Currency) (alreadyGeneratedCoins height : Nat)
    (hsupply : c.m_moneySupply < 2 ^ 64) (hinterval : 0 < c.REWARD_INCREASE_INTERVAL)
    (hblock : c.BLOCK_REWARD + 200000 < 2 ^ 64)
    (hheight : height ≠ 1) (hidx : height / c.REWARD_INCREASE_INTERVAL < 9)
    (hgen : alreadyGeneratedCoins ≤ c.m_moneySupply) :
    REWARD_INCREASING_FACTOR.length = 9 ∧
    REWARD_INCREASING_FACTOR[height / c.REWARD_INCREASE_INTERVAL]? =
      some (25000 * (height / c.REWARD_INCREASE_INTERVAL)) ∧
    baseRewardFunction c alreadyGeneratedCoins height =
      some (min (min (c.BLOCK_REWARD + 25000 * (height / c.REWARD_INCREASE_INTERVAL))
        c.STATIC_BLOCK_REWARD) (c.m_moneySupply - alreadyGeneratedCoins)) := by
  have hne : c.REWARD_INCREASE_INTERVAL ≠ 0 := by omega
  have hsub := sub64_of_le hgen hsupply
  have htable : REWARD_INCREASING_FACTOR[height / c.REWARD_INCREASE_INTERVAL]? =
      some (25000 * (height / c.REWARD_INCREASE_INTERVAL)) := by
    generalize height / c.REWARD_INCREASE_INTERVAL = idx at hidx
    interval_cases idx <;> rfl
  refine ⟨rfl, htable, ?_⟩
  have hadd : add64 c.BLOCK_REWARD (25000 * (height / c.REWARD_INCREASE_INTERVAL)) =
      c.BLOCK_REWARD + 25000 * (height / c.REWARD_INCREASE_INTERVAL) := by
    unfold add64
    omega
  simp [baseRewardFunction, hheight, hne, htable, hadd, hsub]

/-- Witness for C3: height 50000 has index 2. -/
theorem baseRewardFunction_eq_clamped_witness :
    REWARD_INCREASING_FACTOR.length = 9 ∧
    REWARD_INCREASING_FACTOR[50000 / sampleCurrency.REWARD_INCREASE_INTERVAL]? =
      some (25000 * (50000 / sampleCurrency.REWARD_INCREASE_INTERVAL)) ∧
    baseRewardFunction sampleCurrency 1000 50000 =
      some (min (min (sampleCurrency.BLOCK_REWARD +
        25000 * (50000 / sampleCurrency.REWARD_INCREASE_INTERVAL))
        sampleCurrency.STATIC_BLOCK_REWARD) (sampleCurrency.m_moneySupply - 1000)) :=
  baseRewardFunction_eq_clamped sampleCurrency 1000 50000 (by decide) (by decide) (by decide)
    (by decide) (by decide) (by decide)

/-! ### Block reward -/

/-- C4, counterexample: with `medianSize = 2 ^ 63` the product `2 * medianSize`
wraps to 0, so a block of size 1 is rejected although 1 is not above the true
product `2 * max(medianSize, blockGrantedFullRewardZone) = 2 ^ 64`. -/
theorem getBlockReward_rejects_below_true_product :
    2 ^ 63 < 2 ^ 64 ∧
    baseRewardFunction sampleCurrency 0 0 = some 500000 ∧
    getBlockReward sampleCurrency samplePenalty (2 ^ 63) 1 0 0 0 = some none ∧
    ¬ (1 > 2 * max (2 ^ 63) sampleCurrency.m_blockGrantedFullRewardZone) := by
  decide

/-- C4, amended: whenever the base reward is defined, `getBlockReward` fails
if and only if `blockSize` exceeds `2 * max(medianSize, blockGrantedFullRewardZone)`
reduced modulo `2 ^ 64`, and succeeds in every other case; the reduced product
is the true product whenever `max(medianSize, blockGrantedFullRewardZone) < 2 ^ 63`. -/
theorem getBlockReward_fails_iff (c : Currency) (getPenalizedAmount : Nat → Nat → Nat → Nat)
    (medianSize currentBlockSize alreadyGeneratedCoins fee height baseReward : Nat)
    (hbase : baseRewardFunction c alreadyGeneratedCoins height = some baseReward) :
    (getBlockReward c getPenalizedAmount medianSize currentBlockSize alreadyGeneratedCoins fee
        height = some none ↔
      currentBlockSize > (2 * max medianSize c.m_blockGrantedFullRewardZone) % 2 ^ 64) ∧
    (¬ currentBlockSize > (2 * max medianSize c.m_blockGrantedFullRewardZone) % 2 ^ 64 →
      ∃ out, getBlockReward c getPenalizedAmount medianSize currentBlockSize
        alreadyGeneratedCoins fee height = some (some out)) ∧
    (max medianSize c.m_blockGrantedFullRewardZone < 2 ^ 63 →
      (getBlockReward c getPenalizedAmount medianSize currentBlockSize alreadyGeneratedCoins fee
          height = some none ↔
        currentBlockSize > 2 * max medianSize c.m_blockGrantedFullRewardZone)) := by
  have key : getBlockReward c getPenalizedAmount medianSize currentBlockSize
        alreadyGeneratedCoins fee height = some none ↔
      currentBlockSize > (2 * max medianSize c.m_blockGrantedFullRewardZone) % 2 ^ 64 := by
    unfold getBlockReward
    rw [hbase]
    by_cases hbig : currentBlockSize > mul64 2 (max medianSize c.m_blockGrantedFullRewardZone)
    · simp only [hbig, if_true]
      exact ⟨fun _ => hbig, fun _ => trivial⟩
    · simp only [hbig, if_false]
      constructor
      · intro h
        cases h
      · intro h
        exact absurd h hbig
  refine ⟨key, ?_, ?_⟩
  · intro hsmall
    unfold getBlockReward
    rw [hbase]
    have hsmall2 : ¬ currentBlockSize > mul64 2 (max medianSize c.m_blockGrantedFullRewardZone) :=
      hsmall
    simp only [hsmall2, if_false]
    exact ⟨_, rfl⟩
  · intro hmax
    rw [key, Nat.mod_eq_of_lt (by omega)]

/-- Witness for C4 as amended: a block of 300 000 bytes over a
median of 120 000 bytes. -/
theorem getBlockReward_fails_iff_witness :
    (getBlockReward sampleCurrency samplePenalty 120000 300000 1000 0 50000 = some none ↔
      300000 > (2 * max 120000 sampleCurrency.m_blockGrantedFullRewardZone) % 2 ^ 64) ∧
    (¬ 300000 > (2 * max 120000 sampleCurrency.m_blockGrantedFullRewardZone) % 2 ^ 64 →
      ∃ out, getBlockReward sampleCurrency samplePenalty 120000 300000 1000 0 50000 =
        some (some out)) ∧
    (max 120000 sampleCurrency.m_blockGrantedFullRewardZone < 2 ^ 63 →
      (getBlockReward sampleCurrency samplePenalty 120000 300000 1000 0 50000 = some none ↔
        300000 > 2 * max 120000 sampleCurrency.m_blockGrantedFullRewardZone)) :=
  getBlockReward_fails_iff sampleCurrency samplePenalty 120000 300000 1000 0 50000 550000
    (by decide)

theorem toInt64_eq_bmod (x : Nat) (y : Int) (hx : x < 2 ^ 64)
    (hxy : (x : Int) = y % 2 ^ 64) : toInt64 x = Int.bmod y (2 ^ 64) := by
  unfold toInt64 Int.bmod
  have hcast : ((2 ^ 64 : Nat) : Int) = 2 ^ 64 := by norm_num
  rw [Nat.mod_eq_of_lt hx, hcast, ← hxy]
  have h63 : ((2 : Int) ^ 64 + 1) / 2 = 2 ^ 63 := by norm_num
  rw [h63]
  by_cases h : x < 2 ^ 63
  · have h2 : (x : Int) < 2 ^ 63 := by exact_mod_cast h
    simp [h, h2]
  · have h2 : ¬ (x : Int) < 2 ^ 63 := by
      intro h3
      exact h (by exact_mod_cast h3)
    simp [h, h2]

/-- C5: whenever `getBlockReward` succeeds, with `P x = getPenalizedAmount x M
blockSize` and `M = max(medianSize, blockGrantedFullRewardZone)`, the reward is
`P(baseReward) + P(fee)` reduced to 64 bits and `emissionChange` is the signed
64-bit value of `P(baseReward) - (fee - P(fee))`. -/
theorem getBlockReward_outputs (c : Currency) (getPenalizedAmount : Nat → Nat → Nat → Nat)
    (medianSize currentBlockSize alreadyGeneratedCoins fee height reward : Nat)
    (emissionChange : Int)
    (hok : getBlockReward c getPenalizedAmount medianSize currentBlockSize
      alreadyGeneratedCoins fee height = some (some (reward, emissionChange))) :
    ∃ baseReward, baseRewardFunction c alreadyGeneratedCoins height = some baseReward ∧
      reward =
        (getPenalizedAmount baseReward (max medianSize c.m_blockGrantedFullRewardZone)
            currentBlockSize +
          getPenalizedAmount fee (max medianSize c.m_blockGrantedFullRewardZone)
            currentBlockSize) % 2 ^ 64 ∧
      emissionChange =
        Int.bmod
          ((getPenalizedAmount baseReward (max medianSize c.m_blockGrantedFullRewardZone)
              currentBlockSize : Int) -
            ((fee : Int) -
              (getPenalizedAmount fee (max medianSize c.m_blockGrantedFullRewardZone)
                currentBlockSize : Int)))
          (2 ^ 64) := by
  unfold getBlockReward at hok
  cases hbase : baseRewardFunction c alreadyGeneratedCoins height with
  | none => simp [hbase] at hok
  | some baseReward =>
    refine ⟨baseReward, rfl, ?_⟩
    rw [hbase] at hok
    by_cases hbig : currentBlockSize > mul64 2 (max medianSize c.m_blockGrantedFullRewardZone)
    · simp [hbig] at hok
    · simp only [hbig, if_false, Option.some.injEq, Prod.mk.injEq] at hok
      obtain ⟨hreward, hemission⟩ := hok
      refine ⟨by rw [← hreward]; rfl, ?_⟩
      rw [← hemission]
      apply toInt64_eq_bmod _ _ (sub64_lt _ _)
      unfold sub64
      omega

/-- Witness for C5: a block of 150 000 bytes over a median
of 120 000 bytes carrying a fee of 4000. -/
theorem getBlockReward_outputs_witness :
    ∃ baseReward, baseRewardFunction sampleCurrency 1000 50000 = some baseReward ∧
      519375 =
        (samplePenalty baseReward (max 120000 sampleCurrency.m_blockGrantedFullRewardZone)
            150000 +
          samplePenalty 4000 (max 120000 sampleCurrency.m_blockGrantedFullRewardZone)
            150000) % 2 ^ 64 ∧
      (515375 : Int) =
        Int.bmod
          ((samplePenalty baseReward (max 120000 sampleCurrency.m_blockGrantedFullRewardZone)
              150000 : Int) -
            (((4000 : Nat) : Int) -
              (samplePenalty 4000 (max 120000 sampleCurrency.m_blockGrantedFullRewardZone)
                150000 : Int)))
          (2 ^ 64) :=
  getBlockReward_outputs sampleCurrency samplePenalty 120000 150000 1000 4000 50000 519375 515375
    (by decide)

/-! ### Transaction fee -/

theorem foldl_add64_eq_sum_mod {α : Type} (f g : α → Nat)
    (hfg : ∀ x, f x % 2 ^ 64 = g x % 2 ^ 64) (l : List α) :
    ∀ acc, acc < 2 ^ 64 →
      l.foldl (fun acc x => add64 acc (f x)) acc = (acc + (l.map g).sum) % 2 ^ 64 := by
  induction l with
  | nil =>
    intro acc hacc
    simp only [List.foldl_nil, List.map_nil, List.sum_nil, Nat.add_zero]
    omega
  | cons x xs ih =>
    intro acc _
    rw [List.foldl_cons, ih _ (add64_lt _ _), List.map_cons, List.sum_cons]
    have := hfg x
    unfold add64
    omega

theorem getTransactionInputAmount_mod (calculateInterest : Nat → Nat → Nat)
    (height : Nat) (inp : TransactionInput) :
    getTransactionInputAmount calculateInterest inp height % 2 ^ 64 =
      specInputAmount calculateInterest inp % 2 ^ 64 := by
  cases inp with
  | BaseInput => rfl
  | KeyInput amount => rfl
  | MultisignatureInput amount term =>
    unfold getTransactionInputAmount specInputAmount
    by_cases hterm : term = 0
    · simp [hterm]
    · simp only [hterm, if_false]
      unfold add64
      omega

/-- C10: with `inAmt` the 64-bit sum of the input amounts (coinbase 0, key
input its amount, deposit input its amount plus the interest when the term is
not 0) and `outAmt` the 64-bit sum of the output amounts, `outAmt <= inAmt`
makes `getTransactionFee` succeed with `fee = inAmt - outAmt`, and then
`fee + outAmt = inAmt`. -/
theorem getTransactionFee_of_out_le_in (c : Currency) (calculateInterest : Nat → Nat → Nat)
    (tx : Transaction) (height : Nat)
    (hle : specOutAmt tx ≤ specInAmt calculateInterest tx) :
    getTransactionFee c calculateInterest tx height =
        some (specInAmt calculateInterest tx - specOutAmt tx) ∧
      (specInAmt calculateInterest tx - specOutAmt tx) + specOutAmt tx =
        specInAmt calculateInterest tx := by
  have hin : tx.inputs.foldl
      (fun acc inp => add64 acc (getTransactionInputAmount calculateInterest inp height)) 0 =
      specInAmt calculateInterest tx := by
    rw [foldl_add64_eq_sum_mod _ (specInputAmount calculateInterest)
      (getTransactionInputAmount_mod calculateInterest height) tx.inputs 0 (by norm_num)]
    simp [specInAmt]
  have hout : tx.outputs.foldl (fun acc o => add64 acc o.amount) 0 = specOutAmt tx := by
    rw [foldl_add64_eq_sum_mod (fun o : TransactionOutput => o.amount) (fun o => o.amount)
      (fun _ => rfl) tx.outputs 0 (by norm_num)]
    simp [specOutAmt]
  have hlt : specInAmt calculateInterest tx < 2 ^ 64 := by
    unfold specInAmt
    omega
  refine ⟨?_, by omega⟩
  unfold getTransactionFee
  simp only [hin, hout]
  rw [if_neg (by omega), sub64_of_le hle hlt]

/-- Witness for C10: inputs 5 010 000 + 70 000,
outputs 5 079 000, fee 1000. -/
theorem getTransactionFee_of_out_le_in_witness :
    getTransactionFee sampleCurrency sampleInterest sampleTransaction 100 =
        some (specInAmt sampleInterest sampleTransaction - specOutAmt sampleTransaction) ∧
      (specInAmt sampleInterest sampleTransaction - specOutAmt sampleTransaction) +
          specOutAmt sampleTransaction =
        specInAmt sampleInterest sampleTransaction :=
  getTransactionFee_of_out_le_in sampleCurrency sampleInterest sampleTransaction 100 (by decide)

/-! ### LWMA-3 difficulty -/

theorem LWMA3Difficulty_of_length_le_one (timestamps cumulative_difficulties : List Nat)
    (h : timestamps.length ≤ 1) :
    LWMA3Difficulty timestamps cumulative_difficulties = some 1 := by
  simp [LWMA3Difficulty, h]

theorem LWMA3Difficulty_of_length_le_ten (timestamps cumulative_difficulties : List Nat)
    (h2 : 2 ≤ timestamps.length) (h10 : timestamps.length ≤ 10) :
    LWMA3Difficulty timestamps cumulative_difficulties = some 100 := by
  have h1 : ¬ timestamps.length ≤ 1 := by omega
  simp [LWMA3Difficulty, h1, h10]

/-- C9: a timestamps vector of length 0 or 1 gives 1, one of length 2 to 10
gives 100, whatever the timestamps and the cumulative difficulties are (the
cumulative difficulties may even have another length). -/
theorem LWMA3Difficulty_short (timestamps cumulative_difficulties : List Nat) :
    (timestamps.length ≤ 1 → LWMA3Difficulty timestamps cumulative_difficulties = some 1) ∧
    (2 ≤ timestamps.length → timestamps.length ≤ 10 →
      LWMA3Difficulty timestamps cumulative_difficulties = some 100) :=
  ⟨LWMA3Difficulty_of_length_le_one timestamps cumulative_difficulties,
    LWMA3Difficulty_of_length_le_ten timestamps cumulative_difficulties⟩

/-- Witness for C9: one timestamp gives 1, three timestamps
give 100, here with fewer cumulative difficulties than timestamps. -/
theorem LWMA3Difficulty_short_witness :
    LWMA3Difficulty [1600000000] [] = some 1 ∧
    LWMA3Difficulty [1600000000, 1600000090, 1600000300] [7, 5] = some 100 :=
  ⟨(LWMA3Difficulty_short [1600000000] []).1 (by decide),
    (LWMA3Difficulty_short [1600000000, 1600000090, 1600000300] [7, 5]).2 (by decide)
      (by decide)⟩

theorem solveTimes_length (rest : List Nat) :
    ∀ previous, (solveTimes previous rest).length = rest.length := by
  induction rest with
  | nil => intro _; rfl
  | cons t rest ih =>
    intro previous
    simp [solveTimes, ih]

theorem thisTimestamp_lt (previous ti : Nat) (hti : ti < 2 ^ 64) :
    (if ti > previous then ti else add64 previous 1) < 2 ^ 64 := by
  split
  · exact hti
  · exact add64_lt _ _

theorem solveTime_range (previous ti : Nat) (hprev : previous < 2 ^ 64) (hti : ti < 2 ^ 64) :
    1 ≤ min 720 (sub64 (if ti > previous then ti else add64 previous 1) previous) ∧
      min 720 (sub64 (if ti > previous then ti else add64 previous 1) previous) ≤ 720 := by
  unfold sub64 add64
  split <;> omega

theorem solveTimes_range (rest : List Nat) :
    ∀ previous, previous < 2 ^ 64 → (∀ t ∈ rest, t < 2 ^ 64) →
      ∀ st ∈ solveTimes previous rest, 1 ≤ st ∧ st ≤ 720 := by
  induction rest with
  | nil =>
    intro _ _ _ st hst
    simp [solveTimes] at hst
  | cons t rest ih =>
    intro previous hprev hts st hst
    have ht : t < 2 ^ 64 := hts t (List.mem_cons_self _ _)
    simp only [solveTimes, List.mem_cons] at hst
    rcases hst with hst | hst
    · rw [hst]
      exact solveTime_range previous t hprev ht
    · exact ih _ (thisTimestamp_lt previous t ht)
        (fun u hu => hts u (List.mem_cons_of_mem _ hu)) st hst

theorem weightedSum_bounds (sts : List Nat) :
    ∀ i, 1 ≤ i → i + sts.length ≤ 61 → (∀ st ∈ sts, 1 ≤ st ∧ st ≤ 720) →
      sts.length ≤ weightedSum i sts ∧ weightedSum i sts ≤ 43920 * sts.length := by
  induction sts with
  | nil =>
    intro _ _ _ _
    simp [weightedSum]
  | cons st rest ih =>
    intro i hi hlen hst
    have h1 := hst st (List.mem_cons_self _ _)
    simp only [List.length_cons] at hlen
    have ih2 := ih (i + 1) (by omega) (by omega) (fun u hu => hst u (List.mem_cons_of_mem _ hu))
    have hmul : st * i ≤ 720 * 61 := Nat.mul_le_mul h1.2 (by omega)
    have hmul2 : 1 * 1 ≤ st * i := Nat.mul_le_mul h1.1 hi
    simp only [weightedSum, List.length_cons]
    omega

theorem tailSum_le (N : Nat) (sts : List Nat) :
    ∀ i, (∀ st ∈ sts, 1 ≤ st ∧ st ≤ 720) → tailSum N i sts ≤ 720 * sts.length := by
  induction sts with
  | nil =>
    intro _ _
    simp [tailSum]
  | cons st rest ih =>
    intro i hst
    have h1 := hst st (List.mem_cons_self _ _)
    have ih2 := ih (i + 1) (fun u hu => hst u (List.mem_cons_of_mem _ hu))
    simp only [tailSum, List.length_cons]
    split <;> omega

/-- The loop in closed form: started at index `i` on the timestamps still to
read, it ends with `L` increased by the weighted sum of the solve times and
`sum_3_ST` by the sum of those with index above `N - 3`. -/
theorem lwmaLoop_eq (timestamps : List Nat) (N : Nat) (hN : 3 ≤ N) (hN2 : N < 2 ^ 64)
    (rest : List Nat) :
    ∀ (i : Nat) (s : LoopState), timestamps.drop i = rest → 1 ≤ i → i + rest.length ≤ 61 →
      s.previous_timestamp < 2 ^ 64 → (∀ t ∈ rest, t < 2 ^ 64) →
      s.L + 43920 * rest.length < 2 ^ 64 → s.sum_3_ST + 720 * rest.length < 2 ^ 64 →
      ∃ last, lwmaLoop timestamps 120 N rest.length i s =
        some (LoopState.mk last
          (s.L + weightedSum i (solveTimes s.previous_timestamp rest))
          (s.sum_3_ST + tailSum N i (solveTimes s.previous_timestamp rest))) := by
  induction rest with
  | nil =>
    intro i s _ _ _ _ _ _ _
    exact ⟨s.previous_timestamp, by simp [lwmaLoop, solveTimes, weightedSum, tailSum]⟩
  | cons t rest ih =>
    intro i s hdrop hi hlen hprev hts hL hsum
    have ht : t < 2 ^ 64 := hts t (List.mem_cons_self _ _)
    have hget : timestamps[i]? = some t := by
      rw [← List.head?_drop, hdrop]
      rfl
    have hdrop2 : timestamps.drop (i + 1) = rest := by
      rw [← List.tail_drop, hdrop]
      rfl
    simp only [List.length_cons] at hlen hL hsum
    have hst := solveTime_range s.previous_timestamp t hprev ht
    have hthis := thisTimestamp_lt s.previous_timestamp t ht
    have hmul : min 720 (sub64 (if t > s.previous_timestamp then t
        else add64 s.previous_timestamp 1) s.previous_timestamp) * i ≤ 720 * 61 :=
      Nat.mul_le_mul hst.2 (by omega)
    have h6 : mul64 6 120 = 720 := by decide
    have hsub : sub64 N 3 = N - 3 := by
      unfold sub64
      omega
    have hrest := fun u hu => hts u (List.mem_cons_of_mem _ hu)
    simp only [lwmaLoop, List.length_cons, hget, h6, hsub, solveTimes, weightedSum, tailSum]
    generalize (if t > s.previous_timestamp then t else add64 s.previous_timestamp 1) = this_ts
      at hst hmul hthis
    generalize min 720 (sub64 this_ts s.previous_timestamp) = ST at hst hmul
    have hLeq : add64 s.L (mul64 ST i) = s.L + ST * i := by
      unfold add64 mul64
      omega
    by_cases hidx : i > N - 3
    · have hSeq : add64 s.sum_3_ST ST = s.sum_3_ST + ST := by
        unfold add64
        omega
      obtain ⟨last, hlast⟩ := ih (i + 1) (LoopState.mk this_ts (s.L + ST * i) (s.sum_3_ST + ST))
        hdrop2 (by omega) (by omega) hthis hrest (by simp only; omega) (by simp only; omega)
      refine ⟨last, ?_⟩
      simp only [hidx, if_true, hLeq, hSeq, hlast, Nat.add_assoc]
    · obtain ⟨last, hlast⟩ := ih (i + 1) (LoopState.mk this_ts (s.L + ST * i) s.sum_3_ST)
        hdrop2 (by omega) (by omega) hthis hrest (by simp only; omega) (by simp only; omega)
      refine ⟨last, ?_⟩
      simp only [hidx, if_false, hLeq, hlast, Nat.add_assoc, Nat.zero_add]

/-- For a history of 11 to 61 entries the function is the final stage applied
to the loop result, and the loop result has `L` between `N` and `43920 * N`. -/
theorem LWMA3Difficulty_eq_finish (timestamps cumulative_difficulties : List Nat)
    (hlen : 11 ≤ timestamps.length) (hlen2 : timestamps.length ≤ 61)
    (heq : cumulative_difficulties.length = timestamps.length)
    (hts : ∀ t ∈ timestamps, t < 2 ^ 64) :
    ∃ s, lwmaLoop timestamps 120 (timestamps.length - 1) (timestamps.length - 1) 1
          (LoopState.mk (timestamps.headD 0) 0 0) = some s ∧
      s.L = weightedSum 1 (solveTimes (timestamps.headD 0) timestamps.tail) ∧
      s.sum_3_ST =
        tailSum (timestamps.length - 1) 1 (solveTimes (timestamps.headD 0) timestamps.tail) ∧
      timestamps.length - 1 ≤ s.L ∧ s.L ≤ 43920 * (timestamps.length - 1) ∧
      LWMA3Difficulty timestamps cumulative_difficulties =
        lwmaFinish 120 (timestamps.length - 1) s
          (cumulative_difficulties.getD (timestamps.length - 1) 0)
          (cumulative_difficulties.getD 0 0)
          (cumulative_difficulties.getD (timestamps.length - 1 - 1) 0) := by
  cases timestamps with
  | nil => simp at hlen
  | cons t0 rest =>
    simp only [List.length_cons] at hlen hlen2 heq
    have ht0 : t0 < 2 ^ 64 := hts t0 (List.mem_cons_self _ _)
    have hrest : ∀ t ∈ rest, t < 2 ^ 64 := fun u hu => hts u (List.mem_cons_of_mem _ hu)
    obtain ⟨last, hloop⟩ := lwmaLoop_eq (t0 :: rest) rest.length (by omega) (by omega) rest 1
      (LoopState.mk t0 0 0) rfl (by omega) (by omega) ht0 hrest (by simp only; omega)
      (by simp only; omega)
    simp only [Nat.zero_add] at hloop
    have hrange := solveTimes_range rest t0 ht0 hrest
    have hbounds := weightedSum_bounds (solveTimes t0 rest) 1 (by omega)
      (by rw [solveTimes_length]; omega) hrange
    rw [solveTimes_length] at hbounds
    refine ⟨_, by simpa using hloop, rfl, rfl, by simpa using hbounds.1,
      by simpa using hbounds.2, ?_⟩
    have h1 : ¬ rest.length + 1 ≤ 1 := by omega
    have h2 : ¬ rest.length + 1 ≤ 10 := by omega
    have h3 : (if rest.length + 1 < 60 + 1 then rest.length else 60) = rest.length := by
      split <;> omega
    have hcN : cumulative_difficulties[rest.length]? =
        some (cumulative_difficulties.getD rest.length 0) := by
      rw [List.getD_eq_getElem?_getD, List.getElem?_eq_getElem (by omega)]
      rfl
    have hc0 : cumulative_difficulties[0]? = some (cumulative_difficulties.getD 0 0) := by
      rw [List.getD_eq_getElem?_getD, List.getElem?_eq_getElem (by omega)]
      rfl
    have hcN1 : cumulative_difficulties[rest.length - 1]? =
        some (cumulative_difficulties.getD (rest.length - 1) 0) := by
      rw [List.getD_eq_getElem?_getD, List.getElem?_eq_getElem (by omega)]
      rfl
    simp only [LWMA3Difficulty, List.length_cons, h1, h2, h3, if_false, List.getElem?_cons_zero,
      hloop, hcN, hc0, hcN1, Nat.add_sub_cancel, List.headD_cons, List.tail_cons]

/-- The final stage in closed form, for a loop result with `1 <= L <= 43920 * 60`. -/
theorem lwmaFinish_eq (N : Nat) (s : LoopState) (cdN cd0 cdN1 : Nat)
    (hL : 1 ≤ s.L) (hL2 : s.L ≤ 43920 * 60) :
    mul64 (100 * 2) s.L = 200 * s.L ∧
    lwmaFinish 120 N s cdN cd0 cdN1 =
      some (if s.sum_3_ST < 96 then
          max (max (mul64 (sub64 cdN cdN1) 67 / 100)
            (min (rawNextD N s cdN cd0) (mul64 (sub64 cdN cdN1) 150 / 100)))
            (mul64 (sub64 cdN cdN1) 108 / 100)
        else
          max (mul64 (sub64 cdN cdN1) 67 / 100)
            (min (rawNextD N s cdN cd0) (mul64 (sub64 cdN cdN1) 150 / 100))) := by
  have hdiv : mul64 (100 * 2) s.L = 200 * s.L := by
    unfold mul64
    omega
  have hne : mul64 (100 * 2) s.L ≠ 0 := by
    rw [hdiv]
    omega
  have h8 : mul64 8 120 / 10 = 96 := by decide
  refine ⟨hdiv, ?_⟩
  simp only [lwmaFinish, hne, if_false, h8, rawNextD]

theorem mul64_prev_D (cdN cdN1 k : Nat) (hcd : cdN1 ≤ cdN) (hcdN : cdN < 2 ^ 64)
    (hk : k ≤ 150) (hov : (cdN - cdN1) * 150 < 2 ^ 64) :
    mul64 (sub64 cdN cdN1) k = (cdN - cdN1) * k := by
  rw [sub64_of_le hcd hcdN]
  have : (cdN - cdN1) * k ≤ (cdN - cdN1) * 150 := Nat.mul_le_mul_left _ hk
  unfold mul64
  omega

/-- C7: for a history of 11 to 61 entries (vectors of equal length, `uint64_t`
timestamps) whose last difficulty `prev_D = cd[N] - cd[N-1]` does not wrap,
neither in the subtraction nor in `prev_D * 150`, the returned value `r`
satisfies `prev_D * 67 / 100 <= r <= prev_D * 150 / 100`; when the jump rule
fires (`sum_3_ST < 96`), `r` is the 108% floor `prev_D * 108 / 100` or the
clamped value, and at least the 108% floor. -/
theorem LWMA3Difficulty_within_clamp (timestamps cumulative_difficulties : List Nat)
    (hlen : 11 ≤ timestamps.length) (hlen2 : timestamps.length ≤ 61)
    (heq : cumulative_difficulties.length = timestamps.length)
    (hts : ∀ t ∈ timestamps, t < 2 ^ 64)
    (hcd : cumulative_difficulties.getD (timestamps.length - 1 - 1) 0 ≤
      cumulative_difficulties.getD (timestamps.length - 1) 0)
    (hcdN : cumulative_difficulties.getD (timestamps.length - 1) 0 < 2 ^ 64)
    (hov : (cumulative_difficulties.getD (timestamps.length - 1) 0 -
      cumulative_difficulties.getD (timestamps.length - 1 - 1) 0) * 150 < 2 ^ 64) :
    ∃ s r, lwmaLoop timestamps 120 (timestamps.length - 1) (timestamps.length - 1) 1
          (LoopState.mk (timestamps.headD 0) 0 0) = some s ∧
      LWMA3Difficulty timestamps cumulative_difficulties = some r ∧
      ((cumulative_difficulties.getD (timestamps.length - 1) 0 -
          cumulative_difficulties.getD (timestamps.length - 1 - 1) 0) * 67 / 100 ≤ r ∧
        r ≤ (cumulative_difficulties.getD (timestamps.length - 1) 0 -
          cumulative_difficulties.getD (timestamps.length - 1 - 1) 0) * 150 / 100) ∧
      (s.sum_3_ST < 96 →
        (cumulative_difficulties.getD (timestamps.length - 1) 0 -
          cumulative_difficulties.getD (timestamps.length - 1 - 1) 0) * 108 / 100 ≤ r ∧
        (r = (cumulative_difficulties.getD (timestamps.length - 1) 0 -
            cumulative_difficulties.getD (timestamps.length - 1 - 1) 0) * 108 / 100 ∨
          r = max ((cumulative_difficulties.getD (timestamps.length - 1) 0 -
              cumulative_difficulties.getD (timestamps.length - 1 - 1) 0) * 67 / 100)
            (min (rawNextD (timestamps.length - 1) s
                (cumulative_difficulties.getD (timestamps.length - 1) 0)
                (cumulative_difficulties.getD 0 0))
              ((cumulative_difficulties.getD (timestamps.length - 1) 0 -
                cumulative_difficulties.getD (timestamps.length - 1 - 1) 0) * 150 / 100)))) := by
  obtain ⟨s, hloop, _, _, hL1, hL2, hfin⟩ :=
    LWMA3Difficulty_eq_finish timestamps cumulative_difficulties hlen hlen2 heq hts
  obtain ⟨_, hfinish⟩ := lwmaFinish_eq (timestamps.length - 1) s
    (cumulative_difficulties.getD (timestamps.length - 1) 0)
    (cumulative_difficulties.getD 0 0)
    (cumulative_difficulties.getD (timestamps.length - 1 - 1) 0) (by omega) (by omega)
  rw [hfinish] at hfin
  rw [mul64_prev_D _ _ 67 hcd hcdN (by omega) hov, mul64_prev_D _ _ 150 hcd hcdN (by omega) hov,
    mul64_prev_D _ _ 108 hcd hcdN (by omega) hov] at hfin
  refine ⟨s, _, hloop, hfin, ?_, ?_⟩
  · split <;> omega
  · intro hjump
    simp only [hjump, if_true]
    omega

/-- Witness for C7: eleven blocks of difficulty 1000
solved on target. -/
theorem LWMA3Difficulty_within_clamp_witness :
    ∃ s r, lwmaLoop steadyTimestamps 120 (steadyTimestamps.length - 1)
          (steadyTimestamps.length - 1) 1 (LoopState.mk (steadyTimestamps.headD 0) 0 0) = some s ∧
      LWMA3Difficulty steadyTimestamps sampleCumulativeDifficulties = some r ∧
      ((sampleCumulativeDifficulties.getD (steadyTimestamps.length - 1) 0 -
          sampleCumulativeDifficulties.getD (steadyTimestamps.length - 1 - 1) 0) * 67 / 100 ≤ r ∧
        r ≤ (sampleCumulativeDifficulties.getD (steadyTimestamps.length - 1) 0 -
          sampleCumulativeDifficulties.getD (steadyTimestamps.length - 1 - 1) 0) * 150 / 100) ∧
      (s.sum_3_ST < 96 →
        (sampleCumulativeDifficulties.getD (steadyTimestamps.length - 1) 0 -
          sampleCumulativeDifficulties.getD (steadyTimestamps.length - 1 - 1) 0) * 108 / 100 ≤ r ∧
        (r = (sampleCumulativeDifficulties.getD (steadyTimestamps.length - 1) 0 -
            sampleCumulativeDifficulties.getD (steadyTimestamps.length - 1 - 1) 0) * 108 / 100 ∨
          r = max ((sampleCumulativeDifficulties.getD (steadyTimestamps.length - 1) 0 -
              sampleCumulativeDifficulties.getD (steadyTimestamps.length - 1 - 1) 0) * 67 / 100)
            (min (rawNextD (steadyTimestamps.length - 1) s
                (sampleCumulativeDifficulties.getD (steadyTimestamps.length - 1) 0)
                (sampleCumulativeDifficulties.getD 0 0))
              ((sampleCumulativeDifficulties.getD (steadyTimestamps.length - 1) 0 -
                sampleCumulativeDifficulties.getD (steadyTimestamps.length - 1 - 1) 0) * 150 /
                  100)))) :=
  LWMA3Difficulty_within_clamp steadyTimestamps sampleCumulativeDifficulties (by decide)
    (by decide) (by decide) (by decide) (by decide) (by decide) (by decide)

/-- C8, counterexample: eleven blocks of difficulty 1 each (strictly increasing
cumulative difficulties), every one solved exactly on target, give the
difficulty 0. -/
theorem LWMA3Difficulty_zero_on_unit_difficulty :
    steadyTimestamps.length = unitCumulativeDifficulties.length ∧
    steadyTimestamps.length ≤ 61 ∧
    List.Pairwise (fun a b => a < b) unitCumulativeDifficulties ∧
    LWMA3Difficulty steadyTimestamps unitCumulativeDifficulties = some 0 ∧
    ¬ (1 ≤ 0) := by
  decide

/-- C8, amended: for a history of equal-length vectors of length 0 to 61 with
`uint64_t` timestamps, a length of at most 10 gives a difficulty of at least 1;
a length of 11 to 61 whose last block difficulty `prev_D = cd[N] - cd[N-1]` is
at least 1 (with `150 * prev_D` below `2 ^ 64`) gives a difficulty of at least 1
exactly when `prev_D >= 2`, or the value of `next_D` before the clamp is at
least 1, or the jump rule fires; in the remaining case it gives 0. -/
theorem LWMA3Difficulty_pos_iff (timestamps cumulative_difficulties : List Nat)
    (hlen2 : timestamps.length ≤ 61)
    (heq : cumulative_difficulties.length = timestamps.length)
    (hts : ∀ t ∈ timestamps, t < 2 ^ 64) :
    (timestamps.length ≤ 10 →
      ∃ r, LWMA3Difficulty timestamps cumulative_difficulties = some r ∧ 1 ≤ r) ∧
    (11 ≤ timestamps.length →
      cumulative_difficulties.getD (timestamps.length - 1 - 1) 0 <
        cumulative_difficulties.getD (timestamps.length - 1) 0 →
      cumulative_difficulties.getD (timestamps.length - 1) 0 < 2 ^ 64 →
      (cumulative_difficulties.getD (timestamps.length - 1) 0 -
        cumulative_difficulties.getD (timestamps.length - 1 - 1) 0) * 150 < 2 ^ 64 →
      ∃ s r, lwmaLoop timestamps 120 (timestamps.length - 1) (timestamps.length - 1) 1
            (LoopState.mk (timestamps.headD 0) 0 0) = some s ∧
        LWMA3Difficulty timestamps cumulative_difficulties = some r ∧
        (1 ≤ r ↔
          (2 ≤ cumulative_difficulties.getD (timestamps.length - 1) 0 -
              cumulative_difficulties.getD (timestamps.length - 1 - 1) 0 ∨
            1 ≤ rawNextD (timestamps.length - 1) s
              (cumulative_difficulties.getD (timestamps.length - 1) 0)
              (cumulative_difficulties.getD 0 0) ∨
            s.sum_3_ST < 96))) := by
  constructor
  · intro hshort
    by_cases h1 : timestamps.length ≤ 1
    · exact ⟨1, LWMA3Difficulty_of_length_le_one timestamps cumulative_difficulties h1,
        le_refl 1⟩
    · exact ⟨100, LWMA3Difficulty_of_length_le_ten timestamps cumulative_difficulties
        (by omega) hshort, by omega⟩
  · intro hlen hcd hcdN hov
    obtain ⟨s, hloop, _, _, hL1, hL2, hfin⟩ :=
      LWMA3Difficulty_eq_finish timestamps cumulative_difficulties hlen hlen2 heq hts
    obtain ⟨_, hfinish⟩ := lwmaFinish_eq (timestamps.length - 1) s
      (cumulative_difficulties.getD (timestamps.length - 1) 0)
      (cumulative_difficulties.getD 0 0)
      (cumulative_difficulties.getD (timestamps.length - 1 - 1) 0) (by omega) (by omega)
    rw [hfinish] at hfin
    have hcd2 := Nat.le_of_lt hcd
    rw [mul64_prev_D _ _ 67 hcd2 hcdN (by omega) hov,
      mul64_prev_D _ _ 150 hcd2 hcdN (by omega) hov,
      mul64_prev_D _ _ 108 hcd2 hcdN (by omega) hov] at hfin
    refine ⟨s, _, hloop, hfin, ?_⟩
    split <;> omega

/-- Witness for C8 as amended: eleven blocks of difficulty 1000
solved on target. -/
theorem LWMA3Difficulty_pos_iff_witness :
    ∃ s r, lwmaLoop steadyTimestamps 120 (steadyTimestamps.length - 1)
          (steadyTimestamps.length - 1) 1 (LoopState.mk (steadyTimestamps.headD 0) 0 0) = some s ∧
      LWMA3Difficulty steadyTimestamps sampleCumulativeDifficulties = some r ∧
      (1 ≤ r ↔
        (2 ≤ sampleCumulativeDifficulties.getD (steadyTimestamps.length - 1) 0 -
            sampleCumulativeDifficulties.getD (steadyTimestamps.length - 1 - 1) 0 ∨
          1 ≤ rawNextD (steadyTimestamps.length - 1) s
            (sampleCumulativeDifficulties.getD (steadyTimestamps.length - 1) 0)
            (sampleCumulativeDifficulties.getD 0 0) ∨
          s.sum_3_ST < 96)) :=
  (LWMA3Difficulty_pos_iff steadyTimestamps sampleCumulativeDifficulties (by decide) (by decide)
    (by decide)).2 (by decide) (by decide) (by decide) (by decide)

theorem solveTimes_cast (rest : List Nat) :
    ∀ previous, rest.length ≤ 60 → previous + rest.length < 2 ^ 64 →
      (∀ t ∈ rest, t + 60 < 2 ^ 64) →
      (solveTimes previous rest).map (fun (st : Nat) => (st : Int)) =
        specSolveTimes (previous : Int) (rest.map (fun (t : Nat) => (t : Int))) := by
  induction rest with
  | nil =>
    intro _ _ _ _
    rfl
  | cons t rest ih =>
    intro previous hlen hprev hts
    have ht := hts t (List.mem_cons_self _ _)
    simp only [List.length_cons] at hlen hprev
    have hthis : (if t > previous then t else add64 previous 1) = max t (previous + 1) := by
      unfold add64
      split <;> omega
    have hsub : sub64 (max t (previous + 1)) previous = max t (previous + 1) - previous := by
      unfold sub64
      omega
    simp only [solveTimes, hthis, hsub, List.map_cons, specSolveTimes]
    have hih := ih (max t (previous + 1)) (by omega) (by omega)
      (fun u hu => hts u (List.mem_cons_of_mem _ hu))
    rw [hih]
    congr 1
    · omega
    · congr 1
      omega

theorem weightedSum_cast (sts : List Nat) :
    ∀ i, ((weightedSum i sts : Nat) : Int) =
      specWeightedSum i (sts.map (fun (st : Nat) => (st : Int))) := by
  induction sts with
  | nil =>
    intro _
    rfl
  | cons st rest ih =>
    intro i
    simp only [weightedSum, specWeightedSum, List.map_cons, ← ih]
    push_cast
    ring

theorem tailSum_eq_drop (N : Nat) (hN : 3 ≤ N) (sts : List Nat) :
    ∀ i, tailSum N i sts = (sts.drop (N - 2 - i)).sum := by
  induction sts with
  | nil =>
    intro _
    simp [tailSum]
  | cons st rest ih =>
    intro i
    simp only [tailSum, ih]
    by_cases hidx : i > N - 3
    · have h0 : N - 2 - i = 0 := by omega
      have h1 : N - 2 - (i + 1) = 0 := by omega
      simp [hidx, h0, h1]
    · have h0 : N - 2 - i = (N - 2 - (i + 1)) + 1 := by omega
      rw [h0]
      simp [hidx]

theorem sum_map_cast (l : List Nat) :
    (l.map (fun (x : Nat) => (x : Int))).sum = ((l.sum : Nat) : Int) := by
  induction l with
  | nil => rfl
  | cons a l ih =>
    rw [List.map_cons, List.sum_cons, List.sum_cons, ih]
    push_cast
    rfl

theorem tdiv_natCast (a b : Nat) : Int.tdiv (a : Int) (b : Int) = ((a / b : Nat) : Int) :=
  (Int.ofNat_tdiv a b).symm

/-- The value line 689-696 compute, cast to the integers, is the same
expression over the integers with truncating division. -/
theorem clamp_cast (p raw S : Nat) :
    (((if S < 96 then max (max (p * 67 / 100) (min raw (p * 150 / 100))) (p * 108 / 100)
        else max (p * 67 / 100) (min raw (p * 150 / 100)) : Nat)) : Int) =
      if (S : Int) < 96 then
        max (max (Int.tdiv ((p : Int) * 67) 100)
          (min (raw : Int) (Int.tdiv ((p : Int) * 150) 100))) (Int.tdiv ((p : Int) * 108) 100)
      else max (Int.tdiv ((p : Int) * 67) 100) (min (raw : Int) (Int.tdiv ((p : Int) * 150) 100)) := by
  have h67 : Int.tdiv ((p : Int) * 67) 100 = ((p * 67 / 100 : Nat) : Int) := by
    rw [← tdiv_natCast]
    norm_cast
  have h150 : Int.tdiv ((p : Int) * 150) 100 = ((p * 150 / 100 : Nat) : Int) := by
    rw [← tdiv_natCast]
    norm_cast
  have h108 : Int.tdiv ((p : Int) * 108) 100 = ((p * 108 / 100 : Nat) : Int) := by
    rw [← tdiv_natCast]
    norm_cast
  rw [h67, h150, h108]
  by_cases hS : S < 96
  · have hS2 : (S : Int) < 96 := by exact_mod_cast hS
    simp only [hS, hS2, if_true]
    push_cast
    rfl
  · have hS2 : ¬ (S : Int) < 96 := by
      intro h
      exact hS (by exact_mod_cast h)
    simp only [hS, hS2, if_false]
    push_cast
    rfl

/-- C6, amended: for vectors of equal length 11 to 61 whose timestamps are
all below `2 ^ 64 - 60` and whose cumulative difficulties satisfy
`cd[0] <= cd[N-1] <= cd[N] < 2 ^ 64`, the function returns the value the
specification describes over unbounded integers (`specLWMA3`: clamped solve
times, `L`, one truncating division in the stated grouping, the 67%/150% clamp
and the 108% jump rule) whenever `(cd[N] - cd[0]) * 120 * (N+1) * 99` fits in
64 bits. -/
theorem LWMA3Difficulty_eq_spec (timestamps cumulative_difficulties : List Nat)
    (hlen : 11 ≤ timestamps.length) (hlen2 : timestamps.length ≤ 61)
    (heq : cumulative_difficulties.length = timestamps.length)
    (hts : ∀ t ∈ timestamps, t + 60 < 2 ^ 64)
    (hcd0 : cumulative_difficulties.getD 0 0 ≤
      cumulative_difficulties.getD (timestamps.length - 1 - 1) 0)
    (hcd1 : cumulative_difficulties.getD (timestamps.length - 1 - 1) 0 ≤
      cumulative_difficulties.getD (timestamps.length - 1) 0)
    (hcdN : cumulative_difficulties.getD (timestamps.length - 1) 0 < 2 ^ 64)
    (hfit : (cumulative_difficulties.getD (timestamps.length - 1) 0 -
      cumulative_difficulties.getD 0 0) * 120 * (timestamps.length - 1 + 1) * 99 < 2 ^ 64) :
    ∃ r, LWMA3Difficulty timestamps cumulative_difficulties = some r ∧
      (r : Int) = specLWMA3 timestamps cumulative_difficulties := by
  obtain ⟨s, _, hsL, hsS, hL1, hL2, hfin⟩ :=
    LWMA3Difficulty_eq_finish timestamps cumulative_difficulties hlen hlen2 heq
      (fun t ht => by have := hts t ht; omega)
  obtain ⟨hdivisor, hfinish⟩ := lwmaFinish_eq (timestamps.length - 1) s
    (cumulative_difficulties.getD (timestamps.length - 1) 0)
    (cumulative_difficulties.getD 0 0)
    (cumulative_difficulties.getD (timestamps.length - 1 - 1) 0) (by omega) (by omega)
  rw [hfinish] at hfin
  generalize hcN : cumulative_difficulties.getD (timestamps.length - 1) 0 = cdN at *
  generalize hc0 : cumulative_difficulties.getD 0 0 = cd0 at *
  generalize hcN1 : cumulative_difficulties.getD (timestamps.length - 1 - 1) 0 = cdN1 at *
  have hD : (cdN - cd0) * 150 ≤ (cdN - cd0) * 120 * (timestamps.length - 1 + 1) * 99 := by
    have h11 : 11 ≤ timestamps.length - 1 + 1 := by omega
    calc (cdN - cd0) * 150 ≤ (cdN - cd0) * (120 * 11 * 99) := Nat.mul_le_mul_left _ (by norm_num)
      _ ≤ (cdN - cd0) * (120 * (timestamps.length - 1 + 1) * 99) :=
        Nat.mul_le_mul_left _ (Nat.mul_le_mul_right _ (Nat.mul_le_mul_left _ h11))
      _ = (cdN - cd0) * 120 * (timestamps.length - 1 + 1) * 99 := by ring
  have hov : (cdN - cdN1) * 150 < 2 ^ 64 := by
    have : (cdN - cdN1) * 150 ≤ (cdN - cd0) * 150 := Nat.mul_le_mul_right _ (by omega)
    omega
  rw [mul64_prev_D _ _ 67 hcd1 hcdN (by omega) hov, mul64_prev_D _ _ 150 hcd1 hcdN (by omega) hov,
    mul64_prev_D _ _ 108 hcd1 hcdN (by omega) hov] at hfin
  have hraw : rawNextD (timestamps.length - 1) s cdN cd0 =
      (cdN - cd0) * 120 * (timestamps.length - 1 + 1) * 99 / (200 * s.L) := by
    have hN1 : add64 (timestamps.length - 1) 1 = timestamps.length - 1 + 1 := by
      unfold add64
      omega
    have ha : (cdN - cd0) * 120 ≤ (cdN - cd0) * 120 * (timestamps.length - 1 + 1) :=
      Nat.le_mul_of_pos_right _ (by omega)
    have hb : (cdN - cd0) * 120 * (timestamps.length - 1 + 1) ≤
        (cdN - cd0) * 120 * (timestamps.length - 1 + 1) * 99 :=
      Nat.le_mul_of_pos_right _ (by omega)
    unfold rawNextD
    rw [hdivisor, hN1, sub64_of_le (by omega) hcdN]
    unfold mul64
    rw [Nat.mod_eq_of_lt (a := (cdN - cd0) * 120) (by omega),
      Nat.mod_eq_of_lt (a := (cdN - cd0) * 120 * (timestamps.length - 1 + 1)) (by omega),
      Nat.mod_eq_of_lt hfit]
  refine ⟨_, hfin, ?_⟩
  rw [clamp_cast, hraw]
  have hhead : (timestamps.map (fun (t : Nat) => (t : Int))).headD 0 =
      ((timestamps.headD 0 : Nat) : Int) := by
    cases timestamps <;> simp
  have htail : (timestamps.map (fun (t : Nat) => (t : Int))).tail =
      timestamps.tail.map (fun (t : Nat) => (t : Int)) := by
    cases timestamps <;> simp
  have htl : timestamps.tail.length = timestamps.length - 1 := List.length_tail _
  have hST := solveTimes_cast timestamps.tail (timestamps.headD 0) (by omega)
    (by
      have : timestamps.headD 0 + 60 < 2 ^ 64 := by
        cases timestamps with
        | nil => simp
        | cons t0 rest => exact hts t0 (List.mem_cons_self _ _)
      omega)
    (fun t ht => hts t (List.mem_of_mem_tail ht))
  have hLc := weightedSum_cast (solveTimes (timestamps.headD 0) timestamps.tail) 1
  have hSc : (((solveTimes (timestamps.headD 0) timestamps.tail).map
      (fun (st : Nat) => (st : Int))).drop (timestamps.length - 1 - 3)).sum =
      ((s.sum_3_ST : Nat) : Int) := by
    have hk : timestamps.length - 1 - 2 - 1 = timestamps.length - 1 - 3 := by omega
    rw [hsS, tailSum_eq_drop _ (by omega), hk, ← List.map_drop, sum_map_cast]
  unfold specLWMA3
  simp only [hhead, htail, ← hST, ← hLc, hSc, ← hsL, hcN, hc0, hcN1]
  have hp : ((cdN - cdN1 : Nat) : Int) = (cdN : Int) - (cdN1 : Int) := Nat.cast_sub hcd1
  have hq : ((cdN - cd0 : Nat) : Int) = (cdN : Int) - (cd0 : Int) := Nat.cast_sub (by omega)
  have hnext : (((cdN - cd0) * 120 * (timestamps.length - 1 + 1) * 99 / (200 * s.L) : Nat) : Int) =
      Int.tdiv (((cdN : Int) - (cd0 : Int)) * 120 * (((timestamps.length - 1 : Nat) : Int) + 1) * 99)
        (100 * 2 * (s.L : Int)) := by
    rw [Int.ofNat_tdiv]
    push_cast [hq]
    norm_num
  rw [hp, hnext]

/-- Witness for C6 as amended: eleven blocks of difficulty 1000
solved on target. -/
theorem LWMA3Difficulty_eq_spec_witness :
    ∃ r, LWMA3Difficulty steadyTimestamps sampleCumulativeDifficulties = some r ∧
      (r : Int) = specLWMA3 steadyTimestamps sampleCumulativeDifficulties :=
  LWMA3Difficulty_eq_spec steadyTimestamps sampleCumulativeDifficulties (by decide) (by decide)
    (by decide) (by decide) (by decide) (by decide) (by decide) (by decide)

/-- C6, counterexample: two vectors of length 11 for which
`(cd[N] - cd[0]) * 120 * (N+1) * 99 = 1176120000` fits in 64 bits, yet the
function returns 184467440737094846 where the unbounded-integer computation
gives -670: `cd[N] - cd[N-1]` wraps because the last cumulative difficulty is
below the one before it. -/
theorem LWMA3Difficulty_differs_from_spec :
    steadyTimestamps.length = dippingCumulativeDifficulties.length ∧
    11 ≤ steadyTimestamps.length ∧ steadyTimestamps.length ≤ 61 ∧
    (dippingCumulativeDifficulties.getD 10 0 - dippingCumulativeDifficulties.getD 0 0) *
      120 * (10 + 1) * 99 < 2 ^ 64 ∧
    LWMA3Difficulty steadyTimestamps dippingCumulativeDifficulties = some 184467440737094846 ∧
    specLWMA3 steadyTimestamps dippingCumulativeDifficulties = -670 := by
  decide

/-- A second input on which the function leaves the unbounded-integer value,
with monotone cumulative difficulties: the running adjusted timestamp
`previous_timestamp + 1` wraps to 0 after a first timestamp of `2 ^ 64 - 1`. -/
theorem LWMA3Difficulty_differs_from_spec_on_timestamp_wrap :
    LWMA3Difficulty wrappingTimestamps sampleCumulativeDifficulties = some 1008 ∧
    specLWMA3 wrappingTimestamps sampleCumulativeDifficulties = 1500 := by
  decide

/-! ### Transaction fee, outputs above inputs -/

theorem amount_in_eq_specInAmt (calculateInterest : Nat → Nat → Nat) (tx : Transaction)
    (height : Nat) :
    tx.inputs.foldl
      (fun acc inp => add64 acc (getTransactionInputAmount calculateInterest inp height)) 0 =
      specInAmt calculateInterest tx := by
  rw [foldl_add64_eq_sum_mod _ (specInputAmount calculateInterest)
    (getTransactionInputAmount_mod calculateInterest height) tx.inputs 0 (by norm_num)]
  simp [specInAmt]

theorem amount_out_eq_specOutAmt (tx : Transaction) :
    tx.outputs.foldl (fun acc o => add64 acc o.amount) 0 = specOutAmt tx := by
  rw [foldl_add64_eq_sum_mod (fun o : TransactionOutput => o.amount) (fun o => o.amount)
    (fun _ => rfl) tx.outputs 0 (by norm_num)]
  simp [specOutAmt]

/-- C11, counterexample: with `inAmt = 10`, `outAmt = 5000` and `MINIMUM_FEE =
1000` the excess 4990 exceeds `inAmt + MINIMUM_FEE = 1010`, yet the function
succeeds with the minimum fee; and with `inAmt = 100`, `outAmt = 101` the excess
1 is within `inAmt + MINIMUM_FEE`, yet the function rejects. -/
theorem getTransactionFee_accepts_large_excess :
    specInAmt sampleInterest inflatingTransaction = 10 ∧
    specOutAmt inflatingTransaction = 5000 ∧
    sampleCurrency.MINIMUM_FEE = 1000 ∧
    ¬ (5000 - 10 ≤ 10 + 1000) ∧
    getTransactionFee sampleCurrency sampleInterest inflatingTransaction 100 = some 1000 ∧
    specInAmt sampleInterest slightlyInflatingTransaction = 100 ∧
    specOutAmt slightlyInflatingTransaction = 101 ∧
    getTransactionFee sampleCurrency sampleInterest slightlyInflatingTransaction 100 = none := by
  decide

/-- C11, amended: for every transaction with `outAmt > inAmt`,
`getTransactionFee` succeeds exactly when the input list is non-empty, the
output list is non-empty and `outAmt` exceeds `inAmt + MINIMUM_FEE` (the sum
reduced to 64 bits), and then `fee = MINIMUM_FEE`; in every other case with
`outAmt > inAmt` it rejects. -/
theorem getTransactionFee_of_in_lt_out (c : Currency) (calculateInterest : Nat → Nat → Nat)
    (tx : Transaction) (height : Nat)
    (hlt : specInAmt calculateInterest tx < specOutAmt tx) :
    (tx.inputs ≠ [] ∧ tx.outputs ≠ [] ∧
        specOutAmt tx > (specInAmt calculateInterest tx + c.MINIMUM_FEE) % 2 ^ 64 →
      getTransactionFee c calculateInterest tx height = some c.MINIMUM_FEE) ∧
    (¬ (tx.inputs ≠ [] ∧ tx.outputs ≠ [] ∧
        specOutAmt tx > (specInAmt calculateInterest tx + c.MINIMUM_FEE) % 2 ^ 64) →
      getTransactionFee c calculateInterest tx height = none) := by
  have hcond : (tx.inputs.length > 0 ∧ tx.outputs.length > 0 ∧
      specOutAmt tx > add64 (specInAmt calculateInterest tx) c.MINIMUM_FEE) ↔
      (tx.inputs ≠ [] ∧ tx.outputs ≠ [] ∧
        specOutAmt tx > (specInAmt calculateInterest tx + c.MINIMUM_FEE) % 2 ^ 64) := by
    simp only [List.length_pos, add64]
  unfold getTransactionFee
  simp only [amount_in_eq_specInAmt, amount_out_eq_specOutAmt]
  rw [if_pos hlt]
  constructor
  · intro h
    rw [if_pos (hcond.mpr h)]
  · intro h
    rw [if_neg (fun h2 => h (hcond.mp h2))]

/-- Witness for C11 as amended: one key input of 10 and one output of 5000. -/
theorem getTransactionFee_of_in_lt_out_witness :
    (inflatingTransaction.inputs ≠ [] ∧ inflatingTransaction.outputs ≠ [] ∧
        specOutAmt inflatingTransaction >
          (specInAmt sampleInterest inflatingTransaction + sampleCurrency.MINIMUM_FEE) % 2 ^ 64 →
      getTransactionFee sampleCurrency sampleInterest inflatingTransaction 100 =
        some sampleCurrency.MINIMUM_FEE) ∧
    (¬ (inflatingTransaction.inputs ≠ [] ∧ inflatingTransaction.outputs ≠ [] ∧
        specOutAmt inflatingTransaction >
          (specInAmt sampleInterest inflatingTransaction + sampleCurrency.MINIMUM_FEE) % 2 ^ 64) →
      getTransactionFee sampleCurrency sampleInterest inflatingTransaction 100 = none) :=
  getTransactionFee_of_in_lt_out sampleCurrency sampleInterest inflatingTransaction 100
    (by decide)

/-- C12: the overload `getTransactionFee(tx, height)` returns 0 exactly when
the checking variant rejects or computes the fee 0, and otherwise returns the
fee the checking variant computes. -/
theorem getTransactionFeeOrZero_spec (c : Currency) (calculateInterest : Nat → Nat → Nat)
    (tx : Transaction) (height : Nat) :
    (getTransactionFeeOrZero c calculateInterest tx height = 0 ↔
      (getTransactionFee c calculateInterest tx height = none ∨
        getTransactionFee c calculateInterest tx height = some 0)) ∧
    (∀ fee, getTransactionFee c calculateInterest tx height = some fee →
      getTransactionFeeOrZero c calculateInterest tx height = fee) := by
  unfold getTransactionFeeOrZero
  cases hfee : getTransactionFee c calculateInterest tx height with
  | none => simp
  | some fee => simp

/-! ### Fusion transactions -/

theorem fusionInputAmount_of_below_dust (dustThreshold : Nat) (inputsAmounts : List Nat) :
    ∀ acc, (∃ a ∈ inputsAmounts, a < dustThreshold) →
      fusionInputAmount dustThreshold inputsAmounts acc = none := by
  induction inputsAmounts with
  | nil =>
    intro _ h
    obtain ⟨a, ha, _⟩ := h
    simp at ha
  | cons amount rest ih =>
    intro acc h
    by_cases hamount : amount < dustThreshold
    · simp [fusionInputAmount, hamount]
    · simp only [fusionInputAmount, hamount, if_false]
      apply ih
      obtain ⟨a, ha, halt⟩ := h
      rcases List.mem_cons.mp ha with h1 | h1
      · exact absurd (h1 ▸ halt) hamount
      · exact ⟨a, h1, halt⟩

theorem fusionInputAmount_of_all_above_dust (dustThreshold : Nat) (inputsAmounts : List Nat) :
    ∀ acc, acc < 2 ^ 64 → (∀ a ∈ inputsAmounts, dustThreshold ≤ a) →
      fusionInputAmount dustThreshold inputsAmounts acc =
        some ((acc + inputsAmounts.sum) % 2 ^ 64) := by
  induction inputsAmounts with
  | nil =>
    intro acc hacc _
    simp only [fusionInputAmount, List.sum_nil, Nat.add_zero]
    rw [Nat.mod_eq_of_lt hacc]
  | cons amount rest ih =>
    intro acc _ h
    have hamount : ¬ amount < dustThreshold := by
      have := h amount (List.mem_cons_self _ _)
      omega
    simp only [fusionInputAmount, hamount, if_false, List.sum_cons]
    rw [ih _ (add64_lt _ _) (fun a ha => h a (List.mem_cons_of_mem _ ha))]
    unfold add64
    congr 1
    omega

/-- C13, counterexample: twelve inputs of 100 pass the four preliminary checks
with two outputs; the outputs `[1000, 200]` sort to the sorted decomposition
`[200, 1000]` of 1200, yet the function returns false, while the same outputs
listed as `[200, 1000]` give true: the answer depends on the order of the
outputs. -/
theorem isFusionTransaction_depends_on_output_order :
    5000 ≤ sampleCurrency.fusionTxMaxSize ∧
    twelveInputs.length ≥ sampleCurrency.fusionTxMinInputCount ∧
    twelveInputs.length ≥ [1000, 200].length * sampleCurrency.fusionTxMinInOutCountRatio ∧
    (∀ a ∈ twelveInputs, a ≥ sampleCurrency.m_defaultDustThreshold) ∧
    List.insertionSort (fun a b => a ≤ b)
        (specDecomposeAmount twelveInputs.sum sampleCurrency.m_defaultDustThreshold) =
      List.insertionSort (fun a b => a ≤ b) [1000, 200] ∧
    isFusionTransaction sampleCurrency specDecomposeAmount twelveInputs [1000, 200] 5000 = false ∧
    isFusionTransaction sampleCurrency specDecomposeAmount twelveInputs [200, 1000] 5000 = true := by
  decide

/-- C13, amended: for inputs, outputs and a size that pass the four
preliminary checks, `isFusionTransaction` returns true if and only if the
ascending sort of `decompose(sum of inputAmounts mod 2 ^ 64, dustThreshold)`
equals `outputAmounts` as listed, whatever the decomposer is; the outputs are
not sorted before the comparison. -/
theorem isFusionTransaction_iff (c : Currency) (decomposeAmount : Nat → Nat → List Nat)
    (inputsAmounts outputsAmounts : List Nat) (size : Nat)
    (hsize : size ≤ c.fusionTxMaxSize)
    (hcount : c.fusionTxMinInputCount ≤ inputsAmounts.length)
    (hratio : outputsAmounts.length * c.fusionTxMinInOutCountRatio ≤ inputsAmounts.length)
    (hdust : ∀ a ∈ inputsAmounts, c.m_defaultDustThreshold ≤ a) :
    isFusionTransaction c decomposeAmount inputsAmounts outputsAmounts size = true ↔
      List.insertionSort (fun a b => a ≤ b)
          (decomposeAmount (inputsAmounts.sum % 2 ^ 64) c.m_defaultDustThreshold) =
        outputsAmounts := by
  have h1 : ¬ size > c.fusionTxMaxSize := by omega
  have h2 : ¬ inputsAmounts.length < c.fusionTxMinInputCount := by omega
  have h3 : ¬ inputsAmounts.length <
      mul64 outputsAmounts.length c.fusionTxMinInOutCountRatio := by
    have : mul64 outputsAmounts.length c.fusionTxMinInOutCountRatio ≤
        outputsAmounts.length * c.fusionTxMinInOutCountRatio := Nat.mod_le _ _
    omega
  have hsum := fusionInputAmount_of_all_above_dust c.m_defaultDustThreshold inputsAmounts 0
    (by norm_num) hdust
  rw [Nat.zero_add] at hsum
  simp only [isFusionTransaction, h1, h2, h3, if_false, hsum, decide_eq_true_eq]

/-- Witness for C13 as amended: twelve inputs of 100 and the outputs `[200, 1000]`. -/
theorem isFusionTransaction_iff_witness :
    isFusionTransaction sampleCurrency specDecomposeAmount twelveInputs [200, 1000] 5000 = true ↔
      List.insertionSort (fun a b => a ≤ b)
          (specDecomposeAmount (twelveInputs.sum % 2 ^ 64)
            sampleCurrency.m_defaultDustThreshold) =
        [200, 1000] :=
  isFusionTransaction_iff sampleCurrency specDecomposeAmount twelveInputs [200, 1000] 5000
    (by decide) (by decide) (by decide) (by decide)

/-- C14: `isFusionTransaction` returns false whenever the size exceeds
`fusionTxMaxSize`, or there are fewer inputs than `fusionTxMinInputCount`, or
fewer inputs than the number of outputs times `fusionTxMinInOutCountRatio`, or
some input amount is below the dust threshold, whatever the output amounts
and the decomposer are.  The product is a `size_t` that does not wrap. -/
theorem isFusionTransaction_rejects (c : Currency) (decomposeAmount : Nat → Nat → List Nat)
    (inputsAmounts outputsAmounts : List Nat) (size : Nat)
    (hprod : outputsAmounts.length * c.fusionTxMinInOutCountRatio < 2 ^ 64)
    (hbad : size > c.fusionTxMaxSize ∨
      inputsAmounts.length < c.fusionTxMinInputCount ∨
      inputsAmounts.length < outputsAmounts.length * c.fusionTxMinInOutCountRatio ∨
      ∃ a ∈ inputsAmounts, a < c.m_defaultDustThreshold) :
    isFusionTransaction c decomposeAmount inputsAmounts outputsAmounts size = false := by
  have hmul : mul64 outputsAmounts.length c.fusionTxMinInOutCountRatio =
      outputsAmounts.length * c.fusionTxMinInOutCountRatio := Nat.mod_eq_of_lt hprod
  unfold isFusionTransaction
  rw [hmul]
  by_cases h1 : size > c.fusionTxMaxSize
  · simp [h1]
  by_cases h2 : inputsAmounts.length < c.fusionTxMinInputCount
  · simp [h1, h2]
  by_cases h3 : inputsAmounts.length < outputsAmounts.length * c.fusionTxMinInOutCountRatio
  · simp [h1, h2, h3]
  have h4 : ∃ a ∈ inputsAmounts, a < c.m_defaultDustThreshold := by
    rcases hbad with h | h | h | h
    · exact absurd h h1
    · exact absurd h h2
    · exact absurd h h3
    · exact h
  simp only [h1, h2, h3, if_false,
    fusionInputAmount_of_below_dust c.m_defaultDustThreshold inputsAmounts 0 h4]

/-- Witness for C14: twelve inputs one of which, 99, is below the dust threshold 100. -/
theorem isFusionTransaction_rejects_witness :
    isFusionTransaction sampleCurrency specDecomposeAmount
      [100, 100, 100, 100, 100, 100, 100, 100, 100, 100, 100, 99] [200, 999] 5000 = false :=
  isFusionTransaction_rejects sampleCurrency specDecomposeAmount
    [100, 100, 100, 100, 100, 100, 100, 100, 100, 100, 100, 99] [200, 999] 5000 (by decide)
    (Or.inr (Or.inr (Or.inr ⟨99, by decide, by decide⟩)))

/-! ### Fusion input eligibility -/

theorem lower_bound_getElem (v : List Nat) (value : Nat)
    (hsorted : List.Pairwise (fun a b => a < b) v) :
    v[lower_bound v value]? = some value ↔ value ∈ v := by
  induction v with
  | nil => simp [lower_bound]
  | cons a rest ih =>
    have hrest := (List.pairwise_cons.mp hsorted).2
    have ha := (List.pairwise_cons.mp hsorted).1
    unfold lower_bound at ih ⊢
    rw [List.findIdx_cons]
    by_cases hle : value ≤ a
    · simp only [hle, decide_True, cond_true, List.getElem?_cons_zero, Option.some.injEq,
        List.mem_cons]
      constructor
      · intro h
        exact Or.inl h.symm
      · intro h
        rcases h with h | h
        · exact h.symm
        · have := ha value h
          omega
    · simp only [hle, decide_False, cond_false, List.getElem?_cons_succ, List.mem_cons]
      rw [ih hrest]
      constructor
      · intro h
        exact Or.inr h
      · intro h
        rcases h with h | h
        · omega
        · exact h

theorem lower_bound_le_length (v : List Nat) (value : Nat) :
    lower_bound v value ≤ v.length := by
  unfold lower_bound
  exact List.findIdx_le_length _

set_option maxRecDepth 100000 in
theorem PRETTY_AMOUNTS_sorted : List.Pairwise (fun a b => a < b) PRETTY_AMOUNTS := by
  decide

set_option maxRecDepth 100000 in
theorem PRETTY_AMOUNTS_entries :
    ∀ idx, idx < 172 →
      PRETTY_AMOUNTS[idx]? =
        some ((if idx = 171 then 1 else idx % 9 + 1) * 10 ^ (idx / 9)) := by
  decide

set_option maxRecDepth 100000 in
/-- C15: `isAmountApplicableInFusionTransactionInput` returns true if and only
if `amount < threshold`, `amount >= dust threshold` and `amount` is an entry of
`PRETTY_AMOUNTS`; the table is strictly increasing and lists `d * 10 ^ k` for
`d` in 1..9, `k` in 0..18, followed by `10 ^ 19`; when the function returns
true, `amountPowerOfTen` is the table index of `amount` divided by 9, and
`amount = d * 10 ^ amountPowerOfTen` with `d` in 1..9.  With the dust threshold
100, `(1500, threshold 1000)` gives false and `(300, threshold 1000)` gives
true with bucket 2. -/
theorem isAmountApplicableInFusionTransactionInput_spec (c : Currency)
    (amount threshold height : Nat) :
    ((isAmountApplicableInFusionTransactionInput c amount threshold height).isSome = true ↔
      amount < threshold ∧ c.m_defaultDustThreshold ≤ amount ∧ amount ∈ PRETTY_AMOUNTS) ∧
    (∀ p, isAmountApplicableInFusionTransactionInput c amount threshold height = some p →
      ∃ idx d, PRETTY_AMOUNTS[idx]? = some amount ∧ p = idx / 9 ∧
        1 ≤ d ∧ d ≤ 9 ∧ amount = d * 10 ^ p) ∧
    List.Pairwise (fun a b => a < b) PRETTY_AMOUNTS ∧
    PRETTY_AMOUNTS =
      (List.range 171).map (fun i => (i % 9 + 1) * 10 ^ (i / 9)) ++ [10 ^ 19] ∧
    sampleCurrency.m_defaultDustThreshold = 100 ∧
    isAmountApplicableInFusionTransactionInput sampleCurrency 1500 1000 0 = none ∧
    isAmountApplicableInFusionTransactionInput sampleCurrency 300 1000 0 = some 2 := by
  have hmem := lower_bound_getElem PRETTY_AMOUNTS amount PRETTY_AMOUNTS_sorted
  refine ⟨?_, ?_, PRETTY_AMOUNTS_sorted, by decide, rfl, by decide, by decide⟩
  · unfold isAmountApplicableInFusionTransactionInput
    by_cases h1 : amount ≥ threshold
    · have : ¬ amount < threshold := by omega
      simp [h1, this]
    by_cases h2 : amount < c.m_defaultDustThreshold
    · have : ¬ c.m_defaultDustThreshold ≤ amount := by omega
      simp [h1, h2, this]
    have h1b : amount < threshold := by omega
    have h2b : c.m_defaultDustThreshold ≤ amount := by omega
    simp only [h1, h2, if_false, h1b, h2b, true_and, ← hmem]
    cases hget : PRETTY_AMOUNTS[lower_bound PRETTY_AMOUNTS amount]? with
    | none => simp
    | some found =>
      by_cases hfound : amount = found
      · simp [hfound]
      · have : ¬ found = amount := fun h => hfound h.symm
        simp [hfound, this]
  · intro p hp
    unfold isAmountApplicableInFusionTransactionInput at hp
    by_cases h1 : amount ≥ threshold
    · simp [h1] at hp
    by_cases h2 : amount < c.m_defaultDustThreshold
    · simp [h1, h2] at hp
    simp only [h1, h2, if_false] at hp
    cases hget : PRETTY_AMOUNTS[lower_bound PRETTY_AMOUNTS amount]? with
    | none => simp [hget] at hp
    | some found =>
      rw [hget] at hp
      by_cases hfound : amount = found
      · subst hfound
        simp only [ne_eq, not_true_eq_false, if_false, Option.some.injEq] at hp
        have hlt : lower_bound PRETTY_AMOUNTS amount < 172 := by
          have hlen : PRETTY_AMOUNTS.length = 172 := by decide
          have h := (List.getElem?_eq_some.mp hget).1
          omega
        have hentry := PRETTY_AMOUNTS_entries _ hlt
        have hp2 : p = lower_bound PRETTY_AMOUNTS amount / 9 := by omega
        refine ⟨lower_bound PRETTY_AMOUNTS amount,
          if lower_bound PRETTY_AMOUNTS amount = 171 then 1
            else lower_bound PRETTY_AMOUNTS amount % 9 + 1, hget, hp2, ?_, ?_, ?_⟩
        · split <;> omega
        · split <;> omega
        · rw [hentry] at hget
          rw [hp2]
          exact (Option.some.inj hget).symm
      · simp [hfound] at hp

/-! ### Miner transaction -/

theorem mergeLastTwo_append (init : List Nat) (a b : Nat) :
    mergeLastTwo (init ++ [a, b]) = init ++ [add64 a b] := by
  simp only [mergeLastTwo]
  have h1 : (init ++ [a, b]).length - 2 = init.length := by simp
  have h2 : (init ++ [a, b]).length - 1 = init.length + 1 := by simp
  rw [h1, h2]
  have h3 : (init ++ [a, b]).getD init.length 0 = a := by
    rw [List.getD_eq_getElem?_getD, List.getElem?_append_right (le_refl _), Nat.sub_self]
    rfl
  have h4 : (init ++ [a, b]).getD (init.length + 1) 0 = b := by
    have hsub : init.length + 1 - init.length = 1 := by omega
    rw [List.getD_eq_getElem?_getD, List.getElem?_append_right (Nat.le_succ _), hsub]
    rfl
  rw [h3, h4]
  have h5 : (init ++ [a, b]).set init.length (add64 a b) = init ++ [add64 a b, b] := by
    simp [List.set_append]
  rw [h5]
  simp [List.take_append_eq_append_take]

theorem exists_init_of_two_le (l : List Nat) (h : 2 ≤ l.length) :
    ∃ init a b, l = init ++ [a, b] := by
  refine ⟨l.take (l.length - 2), l.getD (l.length - 2) 0, l.getD (l.length - 1) 0, ?_⟩
  apply List.ext_getElem?
  intro i
  by_cases hi : i < l.length - 2
  · rw [List.getElem?_append_left (by simp; omega)]
    simp [List.getElem?_take, hi]
  · rw [List.getElem?_append_right (by simp; omega)]
    simp only [List.length_take]
    have hmin : min (l.length - 2) l.length = l.length - 2 := by omega
    rw [hmin]
    by_cases h0 : i = l.length - 2
    · subst h0
      simp [List.getD_eq_getElem?_getD, List.getElem?_eq_getElem (show l.length - 2 < l.length by omega)]
    · by_cases h1 : i = l.length - 1
      · subst h1
        have : l.length - 1 - (l.length - 2) = 1 := by omega
        rw [this]
        simp [List.getD_eq_getElem?_getD, List.getElem?_eq_getElem (show l.length - 1 < l.length by omega)]
      · have hge : l.length ≤ i := by omega
        rw [List.getElem?_eq_none hge]
        have : 2 ≤ i - (l.length - 2) := by omega
        obtain ⟨k, hk⟩ : ∃ k, i - (l.length - 2) = k + 2 := ⟨i - (l.length - 2) - 2, by omega⟩
        rw [hk]
        simp
theorem mergeLastTwo_length (l : List Nat) (h : 2 ≤ l.length) :
    (mergeLastTwo l).length = l.length - 1 := by
  obtain ⟨init, a, b, rfl⟩ := exists_init_of_two_le l h
  rw [mergeLastTwo_append]
  simp

theorem mergeLastTwo_sum_mod (l : List Nat) (h : 2 ≤ l.length) :
    (mergeLastTwo l).sum % 2 ^ 64 = l.sum % 2 ^ 64 := by
  obtain ⟨init, a, b, rfl⟩ := exists_init_of_two_le l h
  rw [mergeLastTwo_append]
  simp only [List.sum_append, List.sum_cons, List.sum_nil, Nat.add_zero, add64]
  omega

theorem mergeLastTwo_sum (l : List Nat) (h : 2 ≤ l.length) (hsum : l.sum < 2 ^ 64) :
    (mergeLastTwo l).sum = l.sum := by
  obtain ⟨init, a, b, rfl⟩ := exists_init_of_two_le l h
  rw [mergeLastTwo_append]
  simp only [List.sum_append, List.sum_cons, List.sum_nil, Nat.add_zero, add64] at hsum ⊢
  omega

theorem mergeTail_length (maxOuts : Nat) (hmax : 1 ≤ maxOuts) :
    ∀ (fuel : Nat) (l : List Nat), l.length ≤ maxOuts + fuel →
      (mergeTail maxOuts fuel l).length ≤ maxOuts := by
  intro fuel
  induction fuel with
  | zero =>
    intro l hl
    simpa [mergeTail] using hl
  | succ fuel ih =>
    intro l hl
    by_cases hlt : maxOuts < l.length
    · simp only [mergeTail, hlt, if_true]
      apply ih
      rw [mergeLastTwo_length l (by omega)]
      omega
    · simp only [mergeTail, hlt, if_false]
      omega

theorem mergeTail_sum_mod (maxOuts : Nat) (hmax : 1 ≤ maxOuts) :
    ∀ (fuel : Nat) (l : List Nat),
      (mergeTail maxOuts fuel l).sum % 2 ^ 64 = l.sum % 2 ^ 64 := by
  intro fuel
  induction fuel with
  | zero =>
    intro l
    rfl
  | succ fuel ih =>
    intro l
    by_cases hlt : maxOuts < l.length
    · simp only [mergeTail, hlt, if_true]
      rw [ih, mergeLastTwo_sum_mod l (by omega)]
    · simp only [mergeTail, hlt, if_false]

theorem mergeTail_sum (maxOuts : Nat) (hmax : 1 ≤ maxOuts) :
    ∀ (fuel : Nat) (l : List Nat), l.sum < 2 ^ 64 →
      (mergeTail maxOuts fuel l).sum = l.sum := by
  intro fuel
  induction fuel with
  | zero =>
    intro l _
    rfl
  | succ fuel ih =>
    intro l hsum
    by_cases hlt : maxOuts < l.length
    · simp only [mergeTail, hlt, if_true]
      have hstep := mergeLastTwo_sum l (by omega) hsum
      rw [ih _ (by omega), hstep]
    · simp only [mergeTail, hlt, if_false]

theorem minerOutputs_amounts (env : MinerTxCollaborators) (minerAddress : AccountPublicAddress)
    (txkey : KeyPair) (outAmounts : List Nat) :
    ∀ (no : Nat) (outputs : List MinerTxOutput) (summaryAmounts : Nat)
      (res : List MinerTxOutput × Nat),
      minerOutputs env minerAddress txkey outAmounts no (outputs, summaryAmounts) = some res →
      res.1.map (fun o => o.amount) = outputs.map (fun o => o.amount) ++ outAmounts ∧
        res.2 % 2 ^ 64 = (summaryAmounts + outAmounts.sum) % 2 ^ 64 := by
  induction outAmounts with
  | nil =>
    intro no outputs summaryAmounts res h
    simp only [minerOutputs, Option.some.injEq] at h
    subst h
    simp
  | cons amount rest ih =>
    intro no outputs summaryAmounts res h
    simp only [minerOutputs] at h
    cases hder : env.generate_key_derivation minerAddress.viewPublicKey txkey.secretKey with
    | none => simp [hder] at h
    | some derivation =>
      simp only [hder] at h
      cases hkey : env.derive_public_key derivation no minerAddress.spendPublicKey with
      | none => simp [hkey] at h
      | some key =>
        simp only [hkey] at h
        obtain ⟨h1, h2⟩ := ih _ _ _ _ h
        refine ⟨?_, ?_⟩
        · rw [h1]
          simp
        · rw [h2, List.sum_cons]
          unfold add64
          omega

theorem getBlockReward_reward_lt (c : Currency) (getPenalizedAmount : Nat → Nat → Nat → Nat)
    (medianSize currentBlockSize alreadyGeneratedCoins fee height reward : Nat)
    (emissionChange : Int)
    (hok : getBlockReward c getPenalizedAmount medianSize currentBlockSize
      alreadyGeneratedCoins fee height = some (some (reward, emissionChange))) :
    reward < 2 ^ 64 := by
  unfold getBlockReward at hok
  cases hbase : baseRewardFunction c alreadyGeneratedCoins height with
  | none => simp [hbase] at hok
  | some baseReward =>
    rw [hbase] at hok
    by_cases hbig : currentBlockSize > mul64 2 (max medianSize c.m_blockGrantedFullRewardZone)
    · simp [hbig] at hok
    · simp only [hbig, if_false, Option.some.injEq, Prod.mk.injEq] at hok
      rw [← hok.1]
      exact add64_lt _ _

/-- C16 (amended): whenever `constructMinerTx` returns success, whatever chunk
sequence the decomposer produced, `getBlockReward` succeeded for the same
arguments with a reward that equals the sum of the amounts of `tx.outputs`
modulo `2 ^ 64` (the 64-bit sum that line 415 checks); the sum is the reward
exactly whenever the chunks produced total less than `2 ^ 64`, as the chunks
of a decomposition of the reward do; the number of outputs is at most
`maxOuts`. -/
theorem constructMinerTx_outputs (c : Currency) (env : MinerTxCollaborators)
    (height medianSize alreadyGeneratedCoins currentBlockSize fee : Nat)
    (minerAddress : AccountPublicAddress) (extraNonce : List Nat) (maxOuts : Nat) (tx : MinerTx)
    (hok : constructMinerTx c env height medianSize alreadyGeneratedCoins currentBlockSize fee
      minerAddress extraNonce maxOuts = some (some tx)) :
    ∃ reward emissionChange,
      getBlockReward c env.getPenalizedAmount medianSize currentBlockSize alreadyGeneratedCoins
        fee height = some (some (reward, emissionChange)) ∧
      (tx.outputs.map (fun o => o.amount)).sum % 2 ^ 64 = reward ∧
      tx.outputs.length ≤ maxOuts ∧
      ((env.decompose_amount_into_digits reward c.m_defaultDustThreshold).sum < 2 ^ 64 →
        (tx.outputs.map (fun o => o.amount)).sum = reward) := by
  unfold constructMinerTx at hok
  simp only at hok
  split at hok
  · simp at hok
  · rename_i extra _
    split at hok
    · simp at hok
    · simp at hok
    · rename_i blockReward emissionChange hreward
      by_cases hmax : 1 ≤ maxOuts
      · simp only [hmax, not_true_eq_false, if_false] at hok
        split at hok
        · simp at hok
        · rename_i outputs summaryAmounts hloop
          by_cases hsum : summaryAmounts = blockReward
          · simp only [hsum, not_true_eq_false, if_false, Option.some.injEq] at hok
            obtain ⟨hamounts, hmod⟩ := minerOutputs_amounts env minerAddress env.generateKeyPair
              _ 0 [] 0 _ hloop
            simp only [List.map_nil, List.nil_append, Nat.zero_add] at hamounts hmod
            have hrlt := getBlockReward_reward_lt c env.getPenalizedAmount medianSize
              currentBlockSize alreadyGeneratedCoins fee height blockReward emissionChange
              hreward
            have hout : tx.outputs = outputs := by
              rw [← hok]
            rw [hout]
            refine ⟨blockReward, emissionChange, hreward, ?_, ?_, ?_⟩
            · rw [hamounts, mergeTail_sum_mod maxOuts hmax, ← mergeTail_sum_mod maxOuts hmax
                (env.decompose_amount_into_digits blockReward c.m_defaultDustThreshold).length,
                ← hmod, hsum]
              exact Nat.mod_eq_of_lt hrlt
            · have hlen := congrArg List.length hamounts
              simp only [List.length_map] at hlen
              rw [hlen]
              exact mergeTail_length maxOuts hmax _ _ (by omega)
            · intro hchunks
              rw [hamounts, mergeTail_sum maxOuts hmax _ _ hchunks]
              have h1 := mergeTail_sum_mod maxOuts hmax
                (env.decompose_amount_into_digits blockReward c.m_defaultDustThreshold).length
                (env.decompose_amount_into_digits blockReward c.m_defaultDustThreshold)
              rw [← hmod, hsum, Nat.mod_eq_of_lt hrlt, Nat.mod_eq_of_lt hchunks] at h1
              exact h1.symm
          · simp [hsum] at hok
      · simp [hmax] at hok

/-- Witness for C16 (amended): height 50000, a block of 150 000 bytes over a median of
120 000, fee 4000, at most 3 outputs. -/
theorem constructMinerTx_outputs_witness :
    ∃ reward emissionChange,
      getBlockReward sampleCurrency sampleCollaborators.getPenalizedAmount 120000 150000 1000
        4000 50000 = some (some (reward, emissionChange)) ∧
      ([MinerTxOutput.mk 500000 23, MinerTxOutput.mk 10000 24, MinerTxOutput.mk 9375 25].map
        (fun o => o.amount)).sum % 2 ^ 64 = reward ∧
      [MinerTxOutput.mk 500000 23, MinerTxOutput.mk 10000 24, MinerTxOutput.mk 9375 25].length ≤
        3 ∧
      ((sampleCollaborators.decompose_amount_into_digits reward
          sampleCurrency.m_defaultDustThreshold).sum < 2 ^ 64 →
        ([MinerTxOutput.mk 500000 23, MinerTxOutput.mk 10000 24, MinerTxOutput.mk 9375 25].map
          (fun o => o.amount)).sum = reward) :=
  constructMinerTx_outputs sampleCurrency sampleCollaborators 50000 120000 1000 150000 4000
    (AccountPublicAddress.mk 5 6) [] 3
    (MinerTx.mk 1 50010 [50000]
      [MinerTxOutput.mk 500000 23, MinerTxOutput.mk 10000 24, MinerTxOutput.mk 9375 25] [1, 11])
    (by decide)

/-- C16, counterexample: the reward is 519375 and the decomposer hands over the
`uint64_t` chunks `2^63, 2^63, 519375`.  With `maxOuts = 3` nothing is merged,
`summaryAmounts` wraps to 519375, the check of line 415 passes and the call
succeeds, yet the three output amounts add up to `519375 + 2^64`, not to the
reward. -/
theorem constructMinerTx_outputs_exceed_reward :
    getBlockReward sampleCurrency wrappingCollaborators.getPenalizedAmount 120000 150000 1000
      4000 50000 = some (some (519375, 515375)) ∧
    wrappingCollaborators.decompose_amount_into_digits 519375
      sampleCurrency.m_defaultDustThreshold = [2 ^ 63, 2 ^ 63, 519375] ∧
    (∀ chunk ∈ wrappingCollaborators.decompose_amount_into_digits 519375
      sampleCurrency.m_defaultDustThreshold, chunk < 2 ^ 64) ∧
    constructMinerTx sampleCurrency wrappingCollaborators 50000 120000 1000 150000 4000
        (AccountPublicAddress.mk 5 6) [] 3 =
      some (some (MinerTx.mk 1 50010 [50000]
        [MinerTxOutput.mk (2 ^ 63) 23, MinerTxOutput.mk (2 ^ 63) 24, MinerTxOutput.mk 519375 25]
        [1, 11])) ∧
    ([MinerTxOutput.mk (2 ^ 63) 23, MinerTxOutput.mk (2 ^ 63) 24, MinerTxOutput.mk 519375 25].map
      (fun o => o.amount)).sum = 519375 + 2 ^ 64 ∧
    ([MinerTxOutput.mk (2 ^ 63) 23, MinerTxOutput.mk (2 ^ 63) 24, MinerTxOutput.mk 519375 25].map
      (fun o => o.amount)).sum ≠ 519375 := by
  decide

/-! ### Amount formatting and parsing -/

/-! ### Decimal digits -/

theorem digitChar_toNat (d : Nat) (hd : d < 10) : (Nat.digitChar d).toNat = 48 + d := by
  interval_cases d <;> rfl

theorem isdigit_digitChar (d : Nat) (hd : d < 10) : isdigit (Nat.digitChar d) = true := by
  interval_cases d <;> rfl

theorem digitsValue_append_singleton (l : List Char) (ch : Char) :
    digitsValue (l ++ [ch]) = digitsValue l * 10 + (ch.toNat - 48) := by
  simp [digitsValue, List.foldl_append]

theorem digitsValue_replicate_zero_append (k : Nat) (l : List Char) :
    digitsValue (List.replicate k '0' ++ l) = digitsValue l := by
  have hzero : ∀ k, List.foldl (fun acc (ch : Char) => acc * 10 + (ch.toNat - 48)) 0
      (List.replicate k '0') = 0 := by
    intro k
    induction k with
    | zero => rfl
    | succ k ih =>
      rw [List.replicate_succ', List.foldl_append, ih]
      rfl
  unfold digitsValue
  rw [List.foldl_append, hzero]

theorem digitsValue_append_replicate_zero (l : List Char) (k : Nat) :
    digitsValue (l ++ List.replicate k '0') = digitsValue l * 10 ^ k := by
  induction k with
  | zero => simp
  | succ k ih =>
    rw [List.replicate_succ', ← List.append_assoc, digitsValue_append_singleton, ih, pow_succ]
    have : ('0' : Char).toNat - 48 = 0 := rfl
    rw [this]
    ring

/-- The rendering loop of `Nat.toDigits` writes, in front of what is already
there, a non-empty list of decimal digits whose value is `n` and whose length
is the number of decimal digits of `n`. -/
theorem toDigitsCore_spec (fuel : Nat) :
    ∀ (n : Nat) (ds : List Char), n < fuel →
      ∃ l, Nat.toDigitsCore 10 fuel n ds = l ++ ds ∧ (∀ ch ∈ l, isdigit ch = true) ∧
        digitsValue l = n ∧ l ≠ [] ∧ (n ≠ 0 → 10 ^ (l.length - 1) ≤ n) ∧ n < 10 ^ l.length := by
  induction fuel with
  | zero =>
    intro n _ h
    omega
  | succ fuel ih =>
    intro n ds hn
    have hmod : n % 10 < 10 := Nat.mod_lt _ (by norm_num)
    by_cases hdiv : n / 10 = 0
    · refine ⟨[Nat.digitChar (n % 10)], ?_, ?_, ?_, by simp, ?_, ?_⟩
      · simp [Nat.toDigitsCore, hdiv]
      · intro ch hch
        rw [List.mem_singleton] at hch
        rw [hch]
        exact isdigit_digitChar _ hmod
      · simp only [digitsValue, List.foldl_cons, List.foldl_nil, digitChar_toNat _ hmod]
        omega
      · intro hne
        simp only [List.length_singleton, Nat.sub_self, pow_zero]
        omega
      · simp only [List.length_singleton, pow_one]
        omega
    · obtain ⟨l, hl, hdig, hval, hne, hlow, hup⟩ :=
        ih (n / 10) (Nat.digitChar (n % 10) :: ds) (by omega)
      refine ⟨l ++ [Nat.digitChar (n % 10)], ?_, ?_, ?_, by simp, ?_, ?_⟩
      · simp only [Nat.toDigitsCore, hdiv, if_false, hl, List.append_assoc, List.singleton_append]
      · intro ch hch
        rcases List.mem_append.mp hch with h | h
        · exact hdig ch h
        · rw [List.mem_singleton] at h
          rw [h]
          exact isdigit_digitChar _ hmod
      · rw [digitsValue_append_singleton, hval, digitChar_toNat _ hmod]
        omega
      · intro _
        have hl1 : 1 ≤ l.length := by
          cases l with
          | nil => exact absurd rfl hne
          | cons a t => simp
        have h1 := hlow hdiv
        have hpow : 10 ^ (l.length - 1 + 1) = 10 ^ (l.length - 1) * 10 := pow_succ _ _
        simp only [List.length_append, List.length_singleton, Nat.add_sub_cancel]
        have hidx : l.length = l.length - 1 + 1 := by omega
        rw [hidx, hpow]
        omega
      · simp only [List.length_append, List.length_singleton, pow_succ]
        omega

theorem to_string_spec (n : Nat) :
    (∀ ch ∈ to_string n, isdigit ch = true) ∧ digitsValue (to_string n) = n ∧
      to_string n ≠ [] ∧ (n ≠ 0 → 10 ^ ((to_string n).length - 1) ≤ n) ∧
      n < 10 ^ (to_string n).length := by
  obtain ⟨l, hl, h⟩ := toDigitsCore_spec (n + 1) n [] (by omega)
  have : to_string n = l := by
    unfold to_string Nat.toDigits
    rw [hl, List.append_nil]
  rw [this]
  exact h

/-! ### Formatting -/

/-- The string `formatAmount` builds, cut at the point: `I` before it and `F`
after it are together the zero-padded decimal rendering of the amount. -/
theorem formatAmount_parts (c : Currency) (amount : Nat) :
    ∃ I F, formatAmount c amount = I ++ '.' :: F ∧
      F.length = c.m_numberOfDecimalPlaces ∧
      I.length = max 1 ((to_string amount).length - c.m_numberOfDecimalPlaces) ∧
      I ++ F = List.replicate (c.m_numberOfDecimalPlaces + 1 - (to_string amount).length) '0' ++
        to_string amount ∧
      (∀ ch ∈ I ++ F, isdigit ch = true) ∧ digitsValue (I ++ F) = amount := by
  obtain ⟨hdig, hval, hne, _, _⟩ := to_string_spec amount
  have hlen : 1 ≤ (to_string amount).length := by
    cases h : to_string amount with
    | nil => exact absurd h hne
    | cons a t => simp
  have hpad : (if (to_string amount).length < c.m_numberOfDecimalPlaces + 1 then
        List.replicate (c.m_numberOfDecimalPlaces + 1 - (to_string amount).length) '0' ++
          to_string amount
      else to_string amount) =
      List.replicate (c.m_numberOfDecimalPlaces + 1 - (to_string amount).length) '0' ++
        to_string amount := by
    split
    · rfl
    · have h0 : c.m_numberOfDecimalPlaces + 1 - (to_string amount).length = 0 := by omega
      rw [h0]
      rfl
  have hform : formatAmount c amount =
      (List.replicate (c.m_numberOfDecimalPlaces + 1 - (to_string amount).length) '0' ++
          to_string amount).take
        ((List.replicate (c.m_numberOfDecimalPlaces + 1 - (to_string amount).length) '0' ++
          to_string amount).length - c.m_numberOfDecimalPlaces) ++
      '.' :: (List.replicate (c.m_numberOfDecimalPlaces + 1 - (to_string amount).length) '0' ++
          to_string amount).drop
        ((List.replicate (c.m_numberOfDecimalPlaces + 1 - (to_string amount).length) '0' ++
          to_string amount).length - c.m_numberOfDecimalPlaces) := by
    simp only [formatAmount, hpad]
  generalize hP : List.replicate (c.m_numberOfDecimalPlaces + 1 - (to_string amount).length) '0' ++
      to_string amount = P at hform
  have hPlen : P.length =
      (c.m_numberOfDecimalPlaces + 1 - (to_string amount).length) + (to_string amount).length := by
    rw [← hP]
    simp
  refine ⟨P.take (P.length - c.m_numberOfDecimalPlaces),
    P.drop (P.length - c.m_numberOfDecimalPlaces), hform, ?_, ?_, ?_, ?_, ?_⟩
  · rw [List.length_drop]
    omega
  · rw [List.length_take]
    omega
  · exact List.take_append_drop _ _
  · rw [List.take_append_drop, ← hP]
    intro ch hch
    rcases List.mem_append.mp hch with h | h
    · rw [List.eq_of_mem_replicate h]
      rfl
    · exact hdig ch h
  · rw [List.take_append_drop, ← hP, digitsValue_replicate_zero_append, hval]

/-- C19: `formatAmount(A)` is `I.F` where `I` followed by `F` is the decimal
rendering of `A` left-padded with `'0'` to at least `D + 1` digits; `F` has
exactly `D` digits, `I` has `max(1, digits(A) - D)` digits, all characters of
`I` and `F` are decimal digits and read together they give `A`.  Here
`digits(A)` is the length of the decimal rendering of `A`, the `n` with
`10 ^ (n - 1) <= A < 10 ^ n` (1 for `A = 0`).  With `D = 2`, 5 gives `0.05`
and 1234 gives `12.34`. -/
theorem formatAmount_spec (c : Currency) (amount : Nat) :
    (∃ I F, formatAmount c amount = I ++ '.' :: F ∧
      F.length = c.m_numberOfDecimalPlaces ∧
      I.length = max 1 ((to_string amount).length - c.m_numberOfDecimalPlaces) ∧
      I ++ F = List.replicate (c.m_numberOfDecimalPlaces + 1 - (to_string amount).length) '0' ++
        to_string amount ∧
      (∀ ch ∈ I ++ F, isdigit ch = true) ∧ digitsValue (I ++ F) = amount) ∧
    (amount ≠ 0 → 10 ^ ((to_string amount).length - 1) ≤ amount) ∧
    amount < 10 ^ (to_string amount).length ∧
    (to_string 0).length = 1 ∧
    sampleCurrency.m_numberOfDecimalPlaces = 2 ∧
    formatAmount sampleCurrency 5 = ['0', '.', '0', '5'] ∧
    formatAmount sampleCurrency 1234 = ['1', '2', '.', '3', '4'] :=
  ⟨formatAmount_parts c amount, (to_string_spec amount).2.2.2.1, (to_string_spec amount).2.2.2.2,
    rfl, rfl, by decide, by decide⟩

/-! ### Parsing: the steps of `parseAmount` in closed form -/

theorem find_first_of_append (I F : List Char) (hI : '.' ∉ I) :
    find_first_of (I ++ '.' :: F) '.' = some I.length := by
  have hidx : (I ++ '.' :: F).findIdx (fun x => decide (x = '.')) = I.length := by
    induction I with
    | nil => simp [List.findIdx_cons]
    | cons a I ih =>
      have ha : a ≠ '.' := fun h => hI (h ▸ List.mem_cons_self _ _)
      have hI2 : '.' ∉ I := fun h => hI (List.mem_cons_of_mem _ h)
      simp only [List.cons_append, List.findIdx_cons, ha, decide_False, cond_false, ih hI2,
        List.length_cons]
  unfold find_first_of
  rw [hidx]
  simp

theorem find_first_of_none (t : List Char) (ht : '.' ∉ t) : find_first_of t '.' = none := by
  have hidx : t.findIdx (fun x => decide (x = '.')) = t.length := by
    induction t with
    | nil => rfl
    | cons a t ih =>
      have ha : a ≠ '.' := fun h => ht (h ▸ List.mem_cons_self _ _)
      have ht2 : '.' ∉ t := fun h => ht (List.mem_cons_of_mem _ h)
      simp only [List.findIdx_cons, ha, decide_False, cond_false, ih ht2, List.length_cons]
  unfold find_first_of
  rw [hidx]
  simp

theorem exists_first_point (t : List Char) (ht : '.' ∈ t) :
    ∃ I F, t = I ++ '.' :: F ∧ '.' ∉ I := by
  induction t with
  | nil => simp at ht
  | cons a t ih =>
    by_cases ha : a = '.'
    · exact ⟨[], t, by simp [ha], by simp⟩
    · have ht2 : '.' ∈ t := by
        rcases List.mem_cons.mp ht with h | h
        · exact absurd h.symm ha
        · exact h
      obtain ⟨I, F, hI, hno⟩ := ih ht2
      refine ⟨a :: I, F, by simp [hI], ?_⟩
      intro h
      rcases List.mem_cons.mp h with h1 | h1
      · exact ha h1.symm
      · exact hno h1

theorem takeWhile_before_point (I F : List Char) (hI : '.' ∉ I) :
    (I ++ '.' :: F).takeWhile (fun ch => decide (ch ≠ '.')) = I ∧
      (I ++ '.' :: F).dropWhile (fun ch => decide (ch ≠ '.')) = '.' :: F := by
  induction I with
  | nil => simp
  | cons a I ih =>
    have ha : a ≠ '.' := fun h => hI (h ▸ List.mem_cons_self _ _)
    have hI2 : '.' ∉ I := fun h => hI (List.mem_cons_of_mem _ h)
    obtain ⟨h1, h2⟩ := ih hI2
    have hp : decide (a ≠ '.') = true := decide_eq_true ha
    rw [List.cons_append, List.takeWhile_cons, List.dropWhile_cons]
    simp only [hp, if_true, h1, h2, and_self]

theorem takeWhile_no_point (t : List Char) (ht : '.' ∉ t) :
    t.takeWhile (fun ch => decide (ch ≠ '.')) = t ∧
      t.dropWhile (fun ch => decide (ch ≠ '.')) = [] := by
  induction t with
  | nil => simp
  | cons a t ih =>
    have ha : a ≠ '.' := fun h => ht (h ▸ List.mem_cons_self _ _)
    have ht2 : '.' ∉ t := fun h => ht (List.mem_cons_of_mem _ h)
    obtain ⟨h1, h2⟩ := ih ht2
    have hp : decide (a ≠ '.') = true := decide_eq_true ha
    rw [List.takeWhile_cons, List.dropWhile_cons]
    simp only [hp, if_true, h1, h2, and_self]

theorem eraseIdx_point (I F : List Char) : (I ++ '.' :: F).eraseIdx I.length = I ++ F := by
  induction I with
  | nil => rfl
  | cons a I ih => simp [List.eraseIdx, ih]

theorem dropExcessZeros_of_length_le (D : Nat) (F : List Char) (h : F.length ≤ D) :
    dropExcessZeros D F = F := by
  unfold dropExcessZeros
  rw [List.take_of_length_le h, List.drop_of_length_le h]
  simp

theorem dropExcessZeros_concat_zero (D : Nat) (F : List Char) (h : D ≤ F.length) :
    dropExcessZeros D (F ++ ['0']) = dropExcessZeros D F := by
  unfold dropExcessZeros
  rw [List.take_append_of_le_length h, List.drop_append_of_le_length h]
  simp [List.dropWhile_cons]

theorem dropExcessZeros_concat_nonzero (D : Nat) (F : List Char) (ch : Char) (hch : ch ≠ '0')
    (h : D ≤ F.length) :
    dropExcessZeros D (F ++ [ch]) = F ++ [ch] := by
  unfold dropExcessZeros
  rw [List.take_append_of_le_length h, List.drop_append_of_le_length h]
  have hp : decide (ch = '0') = false := decide_eq_false hch
  rw [List.reverse_append, List.reverse_singleton, List.singleton_append, List.dropWhile_cons]
  simp only [hp, Bool.false_eq_true, if_false, List.reverse_cons, List.reverse_reverse]
  rw [← List.append_assoc, List.take_append_drop]

theorem stripLoop_eq (D : Nat) (P : List Char) :
    ∀ (n : Nat) (F : List Char), F.length = n →
      stripLoop D n (P ++ F) = (P ++ dropExcessZeros D F, (dropExcessZeros D F).length) := by
  intro n
  induction n with
  | zero =>
    intro F hF
    have : F = [] := List.length_eq_zero.mp hF
    subst this
    simp [stripLoop, dropExcessZeros]
  | succ n ih =>
    intro F hF
    rcases List.eq_nil_or_concat F with h | ⟨F0, ch, h⟩
    · subst h
      simp at hF
    · rw [List.concat_eq_append] at h
      subst h
      have hF0 : F0.length = n := by
        simp only [List.length_append, List.length_singleton] at hF
        omega
      have hlast : (P ++ (F0 ++ [ch])).getLast? = some ch := by
        rw [← List.append_assoc, List.getLast?_append]
        simp
      have hdrop : (P ++ (F0 ++ [ch])).dropLast = P ++ F0 := by
        rw [← List.append_assoc, List.dropLast_concat]
      by_cases hD : D < n + 1
      · by_cases hch : ch = '0'
        · subst hch
          simp only [stripLoop, hD, hlast, and_self, if_true, hdrop]
          rw [ih F0 hF0, dropExcessZeros_concat_zero D F0 (by omega)]
        · have hne : ¬ (some ch = some '0') := fun h => hch (Option.some.inj h)
          simp only [stripLoop, hD, hlast, hne, and_false, if_false]
          rw [dropExcessZeros_concat_nonzero D F0 ch hch (by omega)]
          simp [hF0]
      · simp only [stripLoop, hD, false_and, if_false]
        rw [dropExcessZeros_of_length_le D _ (by rw [hF]; omega), hF]

/-- The outcome of `parseAmount` on a string whose trimmed form has no point. -/
theorem parseAmount_no_point (c : Currency) (str : List Char) (h : '.' ∉ trim str) :
    parseAmount c str = parseAmountTail c (trim str) 0 := by
  simp only [parseAmount, find_first_of_none _ h]

/-- The outcome of `parseAmount` on a string whose trimmed form is `I.F`, the
point shown being the first one. -/
theorem parseAmount_point (c : Currency) (str I F : List Char) (h : trim str = I ++ '.' :: F)
    (hI : '.' ∉ I) :
    parseAmount c str =
      if c.m_numberOfDecimalPlaces < (dropExcessZeros c.m_numberOfDecimalPlaces F).length then none
      else parseAmountTail c (I ++ dropExcessZeros c.m_numberOfDecimalPlaces F)
        (dropExcessZeros c.m_numberOfDecimalPlaces F).length := by
  have hlen : (I ++ '.' :: F).length - I.length - 1 = F.length := by
    simp only [List.length_append, List.length_cons]
    omega
  have hstrip := stripLoop_eq c.m_numberOfDecimalPlaces (I ++ ['.']) F.length F rfl
  rw [List.append_assoc, List.singleton_append] at hstrip
  simp only [parseAmount, h, find_first_of_append I F hI, hlen, hstrip]
  rw [List.append_assoc, List.singleton_append, eraseIdx_point]

/-! ### Parsing what `formatAmount` wrote -/

theorem dropWhile_of_all_false (p : Char → Bool) (l : List Char)
    (h : ∀ ch ∈ l, p ch = false) : l.dropWhile p = l := by
  cases l with
  | nil => rfl
  | cons a l =>
    rw [List.dropWhile_cons]
    simp [h a (List.mem_cons_self _ _)]

theorem trim_of_no_space (s : List Char) (h : ∀ ch ∈ s, isspace ch = false) : trim s = s := by
  unfold trim
  rw [dropWhile_of_all_false isspace s h,
    dropWhile_of_all_false isspace s.reverse (fun ch hch => h ch (List.mem_reverse.mp hch)),
    List.reverse_reverse]

theorem isspace_of_isdigit (ch : Char) (h : isdigit ch = true) : isspace ch = false := by
  unfold isdigit at h
  unfold isspace
  have h2 := of_decide_eq_true h
  apply decide_eq_false
  omega

theorem ne_point_of_isdigit (ch : Char) (h : isdigit ch = true) : ch ≠ '.' := by
  intro hch
  rw [hch] at h
  exact absurd h (by decide)

theorem parseAmountTail_of_digits (c : Currency) (strAmount : List Char) (fractionSize : Nat)
    (hne : strAmount ≠ []) (hdig : ∀ ch ∈ strAmount, isdigit ch = true) :
    parseAmountTail c strAmount fractionSize =
      fromString (strAmount ++ List.replicate (c.m_numberOfDecimalPlaces - fractionSize) '0') := by
  have hempty : strAmount.isEmpty = false := by
    cases strAmount with
    | nil => exact absurd rfl hne
    | cons a t => rfl
  have hall : strAmount.all isdigit = true := List.all_eq_true.mpr hdig
  unfold parseAmountTail
  simp only [hempty, Bool.false_eq_true, if_false, hall, not_true_eq_false]
  split
  · rfl
  · have h0 : c.m_numberOfDecimalPlaces - fractionSize = 0 := by omega
    rw [h0]
    simp

/-- C17: for every 64-bit amount `A` and every number of decimal places,
`parseAmount(formatAmount(A))` succeeds and yields exactly `A`. -/
theorem parseAmount_formatAmount (c : Currency) (amount : Nat) (hamount : amount < 2 ^ 64) :
    parseAmount c (formatAmount c amount) = some amount := by
  obtain ⟨I, F, hform, hF, hI, _, hdig, hval⟩ := formatAmount_parts c amount
  have hIdig : ∀ ch ∈ I, isdigit ch = true := fun ch hch =>
    hdig ch (List.mem_append_left _ hch)
  have hnoPoint : '.' ∉ I := fun h => ne_point_of_isdigit _ (hIdig _ h) rfl
  have htrim : trim (formatAmount c amount) = I ++ '.' :: F := by
    rw [hform]
    apply trim_of_no_space
    intro ch hch
    rcases List.mem_append.mp hch with h | h
    · exact isspace_of_isdigit ch (hIdig ch h)
    · rcases List.mem_cons.mp h with h1 | h1
      · rw [h1]
        rfl
      · exact isspace_of_isdigit ch (hdig ch (List.mem_append_right _ h1))
  have hne : I ++ F ≠ [] := by
    intro h
    have hlen := congrArg List.length h
    simp only [List.length_append, List.length_nil] at hlen
    omega
  rw [parseAmount_point c _ I F htrim hnoPoint,
    dropExcessZeros_of_length_le _ F (by omega), hF, if_neg (by omega),
    parseAmountTail_of_digits c _ _ hne hdig, Nat.sub_self]
  simp only [List.replicate_zero, List.append_nil, fromString, hval, hamount, if_true]

/-- Witness for C17: the amount 1234 with 2 decimal places. -/
theorem parseAmount_formatAmount_witness :
    parseAmount sampleCurrency (formatAmount sampleCurrency 1234) = some 1234 :=
  parseAmount_formatAmount sampleCurrency 1234 (by decide)

/-! ### Parsing a fraction longer than the number of decimal places -/

theorem dropWhile_eq_nil_of_all (p : Char → Bool) (l : List Char)
    (h : ∀ ch ∈ l, p ch = true) : l.dropWhile p = [] := by
  induction l with
  | nil => rfl
  | cons a l ih =>
    rw [List.dropWhile_cons]
    simp only [h a (List.mem_cons_self _ _), if_true]
    exact ih (fun ch hch => h ch (List.mem_cons_of_mem _ hch))

theorem dropWhile_ne_nil_of_exists (p : Char → Bool) (l : List Char)
    (h : ∃ ch ∈ l, p ch = false) : l.dropWhile p ≠ [] := by
  induction l with
  | nil =>
    obtain ⟨ch, hch, _⟩ := h
    simp at hch
  | cons a l ih =>
    rw [List.dropWhile_cons]
    by_cases ha : p a = true
    · simp only [ha, if_true]
      apply ih
      obtain ⟨ch, hch, hp⟩ := h
      rcases List.mem_cons.mp hch with h1 | h1
      · rw [h1, ha] at hp
        exact absurd hp (by simp)
      · exact ⟨ch, h1, hp⟩
    · simp [ha]

theorem dropExcessZeros_of_zeros (D : Nat) (F : List Char)
    (h : ∀ ch ∈ F.drop D, ch = '0') : dropExcessZeros D F = F.take D := by
  unfold dropExcessZeros
  rw [dropWhile_eq_nil_of_all _ _ (fun ch hch => decide_eq_true (h ch (List.mem_reverse.mp hch)))]
  simp

theorem dropExcessZeros_length_of_nonzero (D : Nat) (F : List Char) (hlen : D < F.length)
    (h : ∃ ch ∈ F.drop D, ch ≠ '0') : D < (dropExcessZeros D F).length := by
  unfold dropExcessZeros
  have hne : ((F.drop D).reverse.dropWhile (fun ch => decide (ch = '0'))).reverse ≠ [] := by
    intro hnil
    have hnil2 := List.reverse_eq_nil_iff.mp hnil
    obtain ⟨ch, hch, hz⟩ := h
    exact dropWhile_ne_nil_of_exists _ _
      ⟨ch, List.mem_reverse.mpr hch, decide_eq_false hz⟩ hnil2
  have hpos : 1 ≤ ((F.drop D).reverse.dropWhile (fun ch => decide (ch = '0'))).reverse.length := by
    cases hx : ((F.drop D).reverse.dropWhile (fun ch => decide (ch = '0'))).reverse with
    | nil => exact absurd hx hne
    | cons a t => simp
  rw [List.length_append, List.length_take]
  omega

/-- C18, counterexample: with 2 decimal places the string `1.3 00` has the
fraction `3 00`, whose characters beyond the second are all `'0'`; it is
rejected (the space is not a digit), while the string with the excess zeros
removed, `1.3 ` followed by nothing, is trimmed to `1.3` and parses to 130. -/
theorem parseAmount_excess_zeros_outcome_differs :
    sampleCurrency.m_numberOfDecimalPlaces = 2 ∧
    trim ['1', '.', '3', ' ', '0', '0'] = ['1'] ++ '.' :: ['3', ' ', '0', '0'] ∧
    2 < ['3', ' ', '0', '0'].length ∧
    (∀ ch ∈ ['3', ' ', '0', '0'].drop 2, ch = '0') ∧
    parseAmount sampleCurrency ['1', '.', '3', ' ', '0', '0'] = none ∧
    parseAmount sampleCurrency (['1'] ++ '.' :: ['3', ' ', '0', '0'].take 2) = some 130 := by
  decide

/-- C18, amended: for a string whose trimmed form is `I.F` (the point being
the first one) with more than `D` fractional characters, `parseAmount` rejects
it whenever some fractional character beyond the `D`-th is not `'0'`; when all
of them are `'0'` and the string with those excess zeros removed does not start
or end with whitespace, it gives the same outcome as for that string.  With
`D = 2`: `12.345` is rejected, `12.340` and `12.34` parse to 1234. -/
theorem parseAmount_excess_fraction (c : Currency) (str I F : List Char)
    (htrim : trim str = I ++ '.' :: F) (hI : '.' ∉ I)
    (hlen : c.m_numberOfDecimalPlaces < F.length) :
    ((∃ ch ∈ F.drop c.m_numberOfDecimalPlaces, ch ≠ '0') → parseAmount c str = none) ∧
    ((∀ ch ∈ F.drop c.m_numberOfDecimalPlaces, ch = '0') →
      trim (I ++ '.' :: F.take c.m_numberOfDecimalPlaces) =
        I ++ '.' :: F.take c.m_numberOfDecimalPlaces →
      parseAmount c str = parseAmount c (I ++ '.' :: F.take c.m_numberOfDecimalPlaces)) ∧
    sampleCurrency.m_numberOfDecimalPlaces = 2 ∧
    parseAmount sampleCurrency ['1', '2', '.', '3', '4', '5'] = none ∧
    parseAmount sampleCurrency ['1', '2', '.', '3', '4', '0'] = some 1234 ∧
    parseAmount sampleCurrency ['1', '2', '.', '3', '4'] = some 1234 := by
  refine ⟨?_, ?_, rfl, by decide, by decide, by decide⟩
  · intro hnz
    rw [parseAmount_point c str I F htrim hI,
      if_pos (dropExcessZeros_length_of_nonzero _ F hlen hnz)]
  · intro hz htrim2
    have htake : (F.take c.m_numberOfDecimalPlaces).length ≤ c.m_numberOfDecimalPlaces := by
      rw [List.length_take]
      omega
    rw [parseAmount_point c str I F htrim hI,
      parseAmount_point c _ I (F.take c.m_numberOfDecimalPlaces) htrim2 hI,
      dropExcessZeros_of_zeros _ F hz, dropExcessZeros_of_length_le _ _ htake]

/-- Witness for C18 as amended: `12.340` with 2 decimal places. -/
theorem parseAmount_excess_fraction_witness :
    ((∃ ch ∈ ['3', '4', '0'].drop sampleCurrency.m_numberOfDecimalPlaces, ch ≠ '0') →
      parseAmount sampleCurrency ['1', '2', '.', '3', '4', '0'] = none) ∧
    ((∀ ch ∈ ['3', '4', '0'].drop sampleCurrency.m_numberOfDecimalPlaces, ch = '0') →
      trim (['1', '2'] ++ '.' :: ['3', '4', '0'].take sampleCurrency.m_numberOfDecimalPlaces) =
        ['1', '2'] ++ '.' :: ['3', '4', '0'].take sampleCurrency.m_numberOfDecimalPlaces →
      parseAmount sampleCurrency ['1', '2', '.', '3', '4', '0'] =
        parseAmount sampleCurrency
          (['1', '2'] ++ '.' :: ['3', '4', '0'].take sampleCurrency.m_numberOfDecimalPlaces)) ∧
    sampleCurrency.m_numberOfDecimalPlaces = 2 ∧
    parseAmount sampleCurrency ['1', '2', '.', '3', '4', '5'] = none ∧
    parseAmount sampleCurrency ['1', '2', '.', '3', '4', '0'] = some 1234 ∧
    parseAmount sampleCurrency ['1', '2', '.', '3', '4'] = some 1234 :=
  parseAmount_excess_fraction sampleCurrency ['1', '2', '.', '3', '4', '0'] ['1', '2']
    ['3', '4', '0'] (by decide) (by decide) (by decide)

/-! ### Parsing: the outcome in the words of the specification -/

theorem parseAmountTail_eq (c : Currency) (strAmount : List Char) (fractionSize : Nat) :
    parseAmountTail c strAmount fractionSize =
      if strAmount ≠ [] ∧ (∀ ch ∈ strAmount, isdigit ch = true) ∧
          digitsValue strAmount * 10 ^ (c.m_numberOfDecimalPlaces - fractionSize) < 2 ^ 64 then
        some (digitsValue strAmount * 10 ^ (c.m_numberOfDecimalPlaces - fractionSize))
      else none := by
  by_cases hne : strAmount = []
  · subst hne
    simp [parseAmountTail]
  by_cases hdig : ∀ ch ∈ strAmount, isdigit ch = true
  · rw [parseAmountTail_of_digits c strAmount fractionSize hne hdig]
    simp only [fromString, digitsValue_append_replicate_zero, ne_eq, hne, not_false_eq_true,
      true_and]
    by_cases hfit : digitsValue strAmount * 10 ^ (c.m_numberOfDecimalPlaces - fractionSize) < 2 ^ 64
    · rw [if_pos hfit, if_pos ⟨hdig, hfit⟩]
    · rw [if_neg hfit, if_neg (fun h => hfit h.2)]
  · have hempty : strAmount.isEmpty = false := by
      cases strAmount with
      | nil => exact absurd rfl hne
      | cons a t => rfl
    have hall : ¬ (strAmount.all isdigit = true) := fun h => hdig (List.all_eq_true.mp h)
    rw [if_neg (fun h => hdig h.2.1)]
    simp only [parseAmountTail, hempty, Bool.false_eq_true, if_false, hall, not_false_eq_true,
      if_true]

theorem exists_zeros_of_dropWhile (r : List Char) :
    ∃ k, r = List.replicate k '0' ++ r.dropWhile (fun ch => decide (ch = '0')) := by
  induction r with
  | nil => exact ⟨0, rfl⟩
  | cons a r ih =>
    by_cases ha : a = '0'
    · obtain ⟨k, hk⟩ := ih
      refine ⟨k + 1, ?_⟩
      rw [List.dropWhile_cons]
      simp only [ha, decide_True, if_true, List.replicate_succ, List.cons_append]
      rw [← hk]
    · refine ⟨0, ?_⟩
      rw [List.dropWhile_cons]
      simp [ha]

theorem exists_zeros_of_dropExcessZeros (D : Nat) (F : List Char) :
    ∃ k, F = dropExcessZeros D F ++ List.replicate k '0' := by
  obtain ⟨k, hk⟩ := exists_zeros_of_dropWhile (F.drop D).reverse
  refine ⟨k, ?_⟩
  have h2 : F.drop D =
      ((F.drop D).reverse.dropWhile (fun ch => decide (ch = '0'))).reverse ++
        List.replicate k '0' := by
    have h3 := congrArg List.reverse hk
    rw [List.reverse_reverse, List.reverse_append, List.reverse_replicate] at h3
    exact h3
  unfold dropExcessZeros
  rw [List.append_assoc, ← h2, List.take_append_drop]

theorem digits_dropExcessZeros_iff (D : Nat) (F : List Char) :
    (∀ ch ∈ dropExcessZeros D F, isdigit ch = true) ↔ (∀ ch ∈ F, isdigit ch = true) := by
  obtain ⟨k, hk⟩ := exists_zeros_of_dropExcessZeros D F
  constructor
  · intro h ch hch
    rw [hk] at hch
    rcases List.mem_append.mp hch with h1 | h1
    · exact h ch h1
    · rw [List.eq_of_mem_replicate h1]
      rfl
  · intro h ch hch
    apply h
    rw [hk]
    exact List.mem_append_left _ hch

theorem count_point_of_digits (l : List Char) (h : ∀ ch ∈ l, isdigit ch = true) :
    l.count '.' = 0 :=
  List.count_eq_zero.mpr (fun hmem => ne_point_of_isdigit _ (h _ hmem) rfl)

theorem digits_with_one_point_iff (I F : List Char) (hI : '.' ∉ I) :
    ((∀ ch ∈ I ++ '.' :: F, isdigit ch = true ∨ ch = '.') ∧ (I ++ '.' :: F).count '.' ≤ 1) ↔
      ((∀ ch ∈ I, isdigit ch = true) ∧ (∀ ch ∈ F, isdigit ch = true)) := by
  have hcount : (I ++ '.' :: F).count '.' = I.count '.' + (F.count '.' + 1) := by
    rw [List.count_append, List.count_cons_self]
  have hI0 : I.count '.' = 0 := List.count_eq_zero.mpr hI
  constructor
  · intro ⟨hall, hc⟩
    have hF0 : F.count '.' = 0 := by omega
    have hF : '.' ∉ F := List.count_eq_zero.mp hF0
    constructor
    · intro ch hch
      rcases hall ch (List.mem_append_left _ hch) with h | h
      · exact h
      · exact absurd (h ▸ hch) hI
    · intro ch hch
      rcases hall ch (List.mem_append_right _ (List.mem_cons_of_mem _ hch)) with h | h
      · exact h
      · exact absurd (h ▸ hch) hF
  · intro ⟨h1, h2⟩
    constructor
    · intro ch hch
      rcases List.mem_append.mp hch with h | h
      · exact Or.inl (h1 ch h)
      · rcases List.mem_cons.mp h with h3 | h3
        · exact Or.inr h3
        · exact Or.inl (h2 ch h3)
    · rw [hcount, hI0, count_point_of_digits F h2]

theorem exists_digit_iff_ne_nil (l : List Char) (h : ∀ ch ∈ l, isdigit ch = true) :
    (∃ ch ∈ l, isdigit ch = true) ↔ l ≠ [] := by
  constructor
  · intro ⟨ch, hch, _⟩ hnil
    rw [hnil] at hch
    simp at hch
  · intro hne
    cases l with
    | nil => exact absurd rfl hne
    | cons a t => exact ⟨a, List.mem_cons_self _ _, h a (List.mem_cons_self _ _)⟩

theorem specParseAmount_no_point (D : Nat) (s : List Char) (h : '.' ∉ trim s) :
    specParseAmount D s =
      if trim s ≠ [] ∧ (∀ ch ∈ trim s, isdigit ch = true) ∧
          digitsValue (trim s) * 10 ^ (D - 0) < 2 ^ 64 then
        some (digitsValue (trim s) * 10 ^ (D - 0))
      else none := by
  obtain ⟨htake, hdrop⟩ := takeWhile_no_point (trim s) h
  have hkept : dropExcessZeros D [] = [] := by simp [dropExcessZeros]
  simp only [specParseAmount, htake, hdrop, List.drop_nil, hkept, List.append_nil,
    List.length_nil, Nat.zero_le, true_and]
  by_cases hdig : ∀ ch ∈ trim s, isdigit ch = true
  · have hcond : (∀ ch ∈ trim s, isdigit ch = true ∨ ch = '.') := fun ch hch =>
      Or.inl (hdig ch hch)
    have hcount : (trim s).count '.' ≤ 1 := by
      rw [count_point_of_digits _ hdig]
      omega
    simp only [hcount, true_and, exists_digit_iff_ne_nil _ hdig]
    by_cases hrest : trim s ≠ [] ∧ digitsValue (trim s) * 10 ^ (D - 0) < 2 ^ 64
    · rw [if_pos ⟨hcond, hrest.1, hrest.2⟩, if_pos ⟨hrest.1, hdig, hrest.2⟩]
    · rw [if_neg (fun hc => hrest ⟨hc.2.1, hc.2.2⟩), if_neg (fun hc => hrest ⟨hc.1, hc.2.2⟩)]
  · have hcond : ¬ (∀ ch ∈ trim s, isdigit ch = true ∨ ch = '.') := by
      intro hall
      apply hdig
      intro ch hch
      rcases hall ch hch with h1 | h1
      · exact h1
      · exact absurd (h1 ▸ hch) h
    rw [if_neg (fun hc => hcond hc.1), if_neg (fun hc => hdig hc.2.1)]

theorem specParseAmount_point (D : Nat) (s I F : List Char) (h : trim s = I ++ '.' :: F)
    (hI : '.' ∉ I) :
    specParseAmount D s =
      if D < (dropExcessZeros D F).length then none
      else if I ++ dropExcessZeros D F ≠ [] ∧
          (∀ ch ∈ I ++ dropExcessZeros D F, isdigit ch = true) ∧
          digitsValue (I ++ dropExcessZeros D F) * 10 ^ (D - (dropExcessZeros D F).length) <
            2 ^ 64 then
        some (digitsValue (I ++ dropExcessZeros D F) * 10 ^ (D - (dropExcessZeros D F).length))
      else none := by
  obtain ⟨htake, hdrop⟩ := takeWhile_before_point I F hI
  simp only [specParseAmount, h, htake, hdrop, List.drop_succ_cons, List.drop_zero]
  have hdigits : (∀ ch ∈ I ++ dropExcessZeros D F, isdigit ch = true) ↔
      ((∀ ch ∈ I, isdigit ch = true) ∧ (∀ ch ∈ F, isdigit ch = true)) := by
    rw [← digits_dropExcessZeros_iff D F]
    constructor
    · intro hall
      exact ⟨fun ch hch => hall ch (List.mem_append_left _ hch),
        fun ch hch => hall ch (List.mem_append_right _ hch)⟩
    · intro ⟨h1, h2⟩ ch hch
      rcases List.mem_append.mp hch with h3 | h3
      · exact h1 ch h3
      · exact h2 ch h3
  by_cases hlen : D < (dropExcessZeros D F).length
  · rw [if_pos hlen, if_neg (fun hc => by omega)]
  · rw [if_neg hlen]
    by_cases hdig : ∀ ch ∈ I ++ dropExcessZeros D F, isdigit ch = true
    · have hone := (digits_with_one_point_iff I F hI).mpr (hdigits.mp hdig)
      have hle : (dropExcessZeros D F).length ≤ D := by omega
      simp only [hone.2, true_and, exists_digit_iff_ne_nil _ hdig, hle]
      by_cases hrest : I ++ dropExcessZeros D F ≠ [] ∧
          digitsValue (I ++ dropExcessZeros D F) * 10 ^ (D - (dropExcessZeros D F).length) <
            2 ^ 64
      · rw [if_pos ⟨hone.1, hrest.1, hrest.2⟩, if_pos ⟨hrest.1, hdig, hrest.2⟩]
      · rw [if_neg (fun hc => hrest ⟨hc.2.1, hc.2.2⟩), if_neg (fun hc => hrest ⟨hc.1, hc.2.2⟩)]
    · have hone : ¬ ((∀ ch ∈ I ++ '.' :: F, isdigit ch = true ∨ ch = '.') ∧
          (I ++ '.' :: F).count '.' ≤ 1) := fun hc =>
        hdig (hdigits.mpr ((digits_with_one_point_iff I F hI).mp hc))
      rw [if_neg (fun hc => hone ⟨hc.1, hc.2.1⟩), if_neg (fun hc => hdig hc.2.1)]

/-- C20, counterexample: with no decimal places the string `.0` consists of
digits and one point, contains a digit, has no fractional digit left once the
trailing zero is dropped, and the number 0 fits 64 bits, so the claimed
outcome is success with 0; `parseAmount` rejects it, the string left after
the point is removed being empty. -/
theorem parseAmount_rejects_point_zero :
    wholeUnitCurrency.m_numberOfDecimalPlaces = 0 ∧
    claimedParseAmount 0 ['.', '0'] = some 0 ∧
    parseAmount wholeUnitCurrency ['.', '0'] = none := by
  decide

/-- C20, amended: `parseAmount(s)` succeeds if and only if `s`, after trimming
whitespace, consists of decimal digits with at most one point, still contains
a digit once the trailing zeros beyond `D` fractional digits are dropped, has
at most `D` fractional digits after that, and the resulting number fits in 64
bits; the result is the decimal value of the integer part followed by the
remaining fractional part, multiplied by `10 ^ (D - |F|)`.  With `D = 2`,
`12.3` gives 1230, `7` gives 700 and `.5` gives 50. -/
theorem parseAmount_eq_spec (c : Currency) (s : List Char) :
    parseAmount c s = specParseAmount c.m_numberOfDecimalPlaces s ∧
    sampleCurrency.m_numberOfDecimalPlaces = 2 ∧
    parseAmount sampleCurrency ['1', '2', '.', '3'] = some 1230 ∧
    parseAmount sampleCurrency ['7'] = some 700 ∧
    parseAmount sampleCurrency ['.', '5'] = some 50 := by
  refine ⟨?_, rfl, by decide, by decide, by decide⟩
  by_cases hpoint : '.' ∈ trim s
  · obtain ⟨I, F, hIF, hI⟩ := exists_first_point (trim s) hpoint
    rw [parseAmount_point c s I F hIF hI, specParseAmount_point _ s I F hIF hI,
      parseAmountTail_eq]
  · rw [parseAmount_no_point c s hpoint, specParseAmount_no_point _ s hpoint, parseAmountTail_eq]

/-! ### Reward table bounds -/

/-- C24: for every height other than 1 (and a non-zero
`REWARD_INCREASE_INTERVAL`), the index `height / REWARD_INCREASE_INTERVAL` is
inside the 9-entry table if and only if `height < 9 * REWARD_INCREASE_INTERVAL`;
the access is unchecked, so the base reward is defined exactly for those
heights and has no defined value for any height at or above
`9 * REWARD_INCREASE_INTERVAL`. -/
theorem baseRewardFunction_defined_iff (c : Currency) (alreadyGeneratedCoins height : Nat)
    (hinterval : 0 < c.REWARD_INCREASE_INTERVAL) (hheight : height ≠ 1) :
    REWARD_INCREASING_FACTOR.length = 9 ∧
    (height / c.REWARD_INCREASE_INTERVAL < REWARD_INCREASING_FACTOR.length ↔
      height < 9 * c.REWARD_INCREASE_INTERVAL) ∧
    ((baseRewardFunction c alreadyGeneratedCoins height).isSome = true ↔
      height < 9 * c.REWARD_INCREASE_INTERVAL) ∧
    (9 * c.REWARD_INCREASE_INTERVAL ≤ height →
      REWARD_INCREASING_FACTOR[height / c.REWARD_INCREASE_INTERVAL]? = none ∧
        baseRewardFunction c alreadyGeneratedCoins height = none) := by
  have hlen : REWARD_INCREASING_FACTOR.length = 9 := rfl
  have hidx : height / c.REWARD_INCREASE_INTERVAL < 9 ↔
      height < 9 * c.REWARD_INCREASE_INTERVAL := Nat.div_lt_iff_lt_mul hinterval
  have hne : c.REWARD_INCREASE_INTERVAL ≠ 0 := by omega
  refine ⟨hlen, by rw [hlen]; exact hidx, ?_, ?_⟩
  · by_cases hin : height / c.REWARD_INCREASE_INTERVAL < 9
    · have hget : REWARD_INCREASING_FACTOR[height / c.REWARD_INCREASE_INTERVAL]? =
          some (REWARD_INCREASING_FACTOR[height / c.REWARD_INCREASE_INTERVAL]) :=
        List.getElem?_eq_getElem (by rw [hlen]; exact hin)
      simp [baseRewardFunction, hheight, hne, hget, hidx.mp hin]
    · have hget : REWARD_INCREASING_FACTOR[height / c.REWARD_INCREASE_INTERVAL]? = none :=
        List.getElem?_eq_none (by rw [hlen]; omega)
      have hnot : ¬ height < 9 * c.REWARD_INCREASE_INTERVAL := fun h => hin (hidx.mpr h)
      simp [baseRewardFunction, hheight, hne, hget, hnot]
  · intro hge
    have hin : ¬ height / c.REWARD_INCREASE_INTERVAL < 9 := fun h => by
      have := hidx.mp h
      omega
    have hget : REWARD_INCREASING_FACTOR[height / c.REWARD_INCREASE_INTERVAL]? = none :=
      List.getElem?_eq_none (by rw [hlen]; omega)
    exact ⟨hget, by simp [baseRewardFunction, hheight, hne, hget]⟩

/-- Witness for C24: with an interval of 21900 the height 197100 is the first
one outside the table. -/
theorem baseRewardFunction_defined_iff_witness :
    REWARD_INCREASING_FACTOR.length = 9 ∧
    (197100 / sampleCurrency.REWARD_INCREASE_INTERVAL < REWARD_INCREASING_FACTOR.length ↔
      197100 < 9 * sampleCurrency.REWARD_INCREASE_INTERVAL) ∧
    ((baseRewardFunction sampleCurrency 1000 197100).isSome = true ↔
      197100 < 9 * sampleCurrency.REWARD_INCREASE_INTERVAL) ∧
    (9 * sampleCurrency.REWARD_INCREASE_INTERVAL ≤ 197100 →
      REWARD_INCREASING_FACTOR[197100 / sampleCurrency.REWARD_INCREASE_INTERVAL]? = none ∧
        baseRewardFunction sampleCurrency 1000 197100 = none) :=
  baseRewardFunction_defined_iff sampleCurrency 1000 197100 (by decide) (by decide)

/-! ### Tail merge of the miner transaction -/

theorem mergeTail_of_length_le (maxOuts fuel : Nat) (l : List Nat) (h : l.length ≤ maxOuts) :
    mergeTail maxOuts fuel l = l := by
  cases fuel with
  | zero => rfl
  | succ fuel =>
    have : ¬ maxOuts < l.length := by omega
    simp only [mergeTail, this, if_false]

theorem mergeTail_eq (maxOuts : Nat) (hmax : 1 ≤ maxOuts) :
    ∀ (fuel : Nat) (l : List Nat), l.length ≤ maxOuts + fuel → maxOuts < l.length →
      mergeTail maxOuts fuel l =
        l.take (maxOuts - 1) ++ [(l.drop (maxOuts - 1)).sum % 2 ^ 64] := by
  intro fuel
  induction fuel with
  | zero =>
    intro l h1 h2
    omega
  | succ fuel ih =>
    intro l hlen hlt
    obtain ⟨init, a, b, rfl⟩ := exists_init_of_two_le l (by omega)
    simp only [List.length_append, List.length_cons, List.length_nil] at hlen hlt
    have hstep : mergeTail maxOuts (fuel + 1) (init ++ [a, b]) =
        mergeTail maxOuts fuel (init ++ [add64 a b]) := by
      have : maxOuts < (init ++ [a, b]).length := by
        simp only [List.length_append, List.length_cons, List.length_nil]
        omega
      simp only [mergeTail, this, if_true, mergeLastTwo_append]
    rw [hstep]
    have htake : (init ++ [a, b]).take (maxOuts - 1) = init.take (maxOuts - 1) :=
      List.take_append_of_le_length (by omega)
    have hdrop : (init ++ [a, b]).drop (maxOuts - 1) = init.drop (maxOuts - 1) ++ [a, b] :=
      List.drop_append_of_le_length (by omega)
    rw [htake, hdrop]
    by_cases hmore : maxOuts < (init ++ [add64 a b]).length
    · rw [ih _ (by simp only [List.length_append, List.length_singleton]; omega) hmore]
      simp only [List.length_append, List.length_singleton] at hmore
      rw [List.take_append_of_le_length (by omega), List.drop_append_of_le_length (by omega)]
      simp only [List.sum_append, List.sum_cons, List.sum_nil, Nat.add_zero, add64]
      congr 2
      omega
    · simp only [List.length_append, List.length_singleton] at hmore
      rw [mergeTail_of_length_le _ _ _ (by
        simp only [List.length_append, List.length_singleton]; omega)]
      have hinit : init.length = maxOuts - 1 := by omega
      rw [List.take_of_length_le (by omega), List.drop_of_length_le (by omega)]
      simp only [List.nil_append, List.sum_cons, List.sum_nil, Nat.add_zero, add64]

/-- C23: for every chunk list `c` of length `n` and every `maxOuts = m >= 1`,
the tail-merge loop of `constructMinerTx` leaves exactly `min(n, m)` chunks;
when `n > m` these are `c[0..m-2]` unchanged followed by the 64-bit sum of
`c[m-1..n-1]`; when `n <= m` the list is unchanged; in both cases the 64-bit
total of the chunks is preserved. -/
theorem mergeTail_spec (c : List Nat) (m : Nat) (hm : 1 ≤ m) :
    (mergeTail m c.length c).length = min c.length m ∧
    (m < c.length →
      mergeTail m c.length c = c.take (m - 1) ++ [(c.drop (m - 1)).sum % 2 ^ 64]) ∧
    (c.length ≤ m → mergeTail m c.length c = c) ∧
    (mergeTail m c.length c).sum % 2 ^ 64 = c.sum % 2 ^ 64 := by
  refine ⟨?_, fun h => mergeTail_eq m hm _ _ (by omega) h,
    fun h => mergeTail_of_length_le _ _ _ h, mergeTail_sum_mod m hm _ _⟩
  by_cases h : m < c.length
  · rw [mergeTail_eq m hm _ _ (by omega) h]
    simp only [List.length_append, List.length_take, List.length_singleton]
    omega
  · rw [mergeTail_of_length_le _ _ _ (by omega)]
    omega

/-- Witness for C23: five chunks merged down to three. -/
theorem mergeTail_spec_witness :
    (mergeTail 3 [500000, 10000, 9000, 300, 75].length [500000, 10000, 9000, 300, 75]).length =
      min [500000, 10000, 9000, 300, 75].length 3 ∧
    (3 < [500000, 10000, 9000, 300, 75].length →
      mergeTail 3 [500000, 10000, 9000, 300, 75].length [500000, 10000, 9000, 300, 75] =
        [500000, 10000, 9000, 300, 75].take (3 - 1) ++
          [([500000, 10000, 9000, 300, 75].drop (3 - 1)).sum % 2 ^ 64]) ∧
    ([500000, 10000, 9000, 300, 75].length ≤ 3 →
      mergeTail 3 [500000, 10000, 9000, 300, 75].length [500000, 10000, 9000, 300, 75] =
        [500000, 10000, 9000, 300, 75]) ∧
    (mergeTail 3 [500000, 10000, 9000, 300, 75].length [500000, 10000, 9000, 300, 75]).sum %
        2 ^ 64 = [500000, 10000, 9000, 300, 75].sum % 2 ^ 64 :=
  mergeTail_spec [500000, 10000, 9000, 300, 75] 3 (by decide)

/-! ### Solve times and the divisor of LWMA-3 -/

theorem weightedSum_triangle_bounds (sts : List Nat) :
    ∀ i, (∀ st ∈ sts, 1 ≤ st ∧ st ≤ 720) →
      sts.length * (2 * i + sts.length) ≤ 2 * weightedSum i sts + sts.length ∧
        2 * weightedSum i sts + 720 * sts.length ≤ 720 * (sts.length * (2 * i + sts.length)) := by
  induction sts with
  | nil =>
    intro _ _
    simp [weightedSum]
  | cons st rest ih =>
    intro i hst
    have h1 := hst st (List.mem_cons_self _ _)
    obtain ⟨ihlo, ihhi⟩ := ih (i + 1) (fun u hu => hst u (List.mem_cons_of_mem _ hu))
    have hlo : 1 * i ≤ st * i := Nat.mul_le_mul h1.1 (le_refl i)
    have hhi : st * i ≤ 720 * i := Nat.mul_le_mul h1.2 (le_refl i)
    simp only [weightedSum, List.length_cons]
    constructor
    · nlinarith [hlo, ihlo]
    · nlinarith [hhi, ihhi]

/-- C22: for every history of 11 to 61 `uint64_t` timestamps, in any order and
with repetitions, every solve time the loop computes lies between 1 and
`6 * T = 720`, so the weighted sum `L` lies between `N(N+1)/2` and
`720 * N(N+1)/2` and the divisor `100 * 2 * L` of line 685 is not zero. -/
theorem LWMA3Difficulty_solve_time_bounds (timestamps : List Nat)
    (hlen : 11 ≤ timestamps.length) (hlen2 : timestamps.length ≤ 61)
    (hts : ∀ t ∈ timestamps, t < 2 ^ 64) :
    (∀ previous_timestamp ti, previous_timestamp < 2 ^ 64 → ti < 2 ^ 64 →
      1 ≤ min (mul64 6 120)
          (sub64 (if ti > previous_timestamp then ti else add64 previous_timestamp 1)
            previous_timestamp) ∧
        min (mul64 6 120)
          (sub64 (if ti > previous_timestamp then ti else add64 previous_timestamp 1)
            previous_timestamp) ≤ 720) ∧
    ∃ s, lwmaLoop timestamps 120 (timestamps.length - 1) (timestamps.length - 1) 1
          (LoopState.mk (timestamps.headD 0) 0 0) = some s ∧
      s.L = weightedSum 1 (solveTimes (timestamps.headD 0) timestamps.tail) ∧
      (solveTimes (timestamps.headD 0) timestamps.tail).length = timestamps.length - 1 ∧
      (∀ st ∈ solveTimes (timestamps.headD 0) timestamps.tail, 1 ≤ st ∧ st ≤ 720) ∧
      (timestamps.length - 1) * (timestamps.length - 1 + 1) / 2 ≤ s.L ∧
      s.L ≤ 720 * ((timestamps.length - 1) * (timestamps.length - 1 + 1) / 2) ∧
      mul64 (100 * 2) s.L ≠ 0 := by
  have h6 : mul64 6 120 = 720 := by decide
  refine ⟨fun previous_timestamp ti hprev hti => by
    rw [h6]
    exact solveTime_range previous_timestamp ti hprev hti, ?_⟩
  obtain ⟨s, hloop, hsL, _, hL1, hL2, _⟩ :=
    LWMA3Difficulty_eq_finish timestamps timestamps hlen hlen2 rfl hts
  have hhead : timestamps.headD 0 < 2 ^ 64 := by
    cases timestamps with
    | nil => simp
    | cons t0 rest => exact hts t0 (List.mem_cons_self _ _)
  have hrange := solveTimes_range timestamps.tail (timestamps.headD 0) hhead
    (fun t ht => hts t (List.mem_of_mem_tail ht))
  have hlenST : (solveTimes (timestamps.headD 0) timestamps.tail).length =
      timestamps.length - 1 := by
    rw [solveTimes_length, List.length_tail]
  obtain ⟨hlo, hhi⟩ := weightedSum_triangle_bounds _ 1 hrange
  rw [hlenST, ← hsL] at hlo hhi
  have heven : 2 ∣ (timestamps.length - 1) * (timestamps.length - 1 + 1) :=
    (Nat.even_mul_succ_self _).two_dvd
  obtain ⟨k, hk⟩ := heven
  have hprod : (timestamps.length - 1) * (2 * 1 + (timestamps.length - 1)) =
      (timestamps.length - 1) * (timestamps.length - 1 + 1) + (timestamps.length - 1) := by
    ring
  rw [hprod] at hlo hhi
  obtain ⟨_, hfinish⟩ := lwmaFinish_eq (timestamps.length - 1) s 0 0 0 (by omega) (by omega)
  have hdiv : mul64 (100 * 2) s.L = 200 * s.L := by
    unfold mul64
    omega
  refine ⟨s, hloop, hsL, hlenST, hrange, ?_, ?_, ?_⟩
  · rw [hk]
    omega
  · rw [hk]
    omega
  · rw [hdiv]
    omega

/-- Witness for C22: eleven timestamps out of order and repeated. -/
theorem LWMA3Difficulty_solve_time_bounds_witness :
    (∀ previous_timestamp ti, previous_timestamp < 2 ^ 64 → ti < 2 ^ 64 →
      1 ≤ min (mul64 6 120)
          (sub64 (if ti > previous_timestamp then ti else add64 previous_timestamp 1)
            previous_timestamp) ∧
        min (mul64 6 120)
          (sub64 (if ti > previous_timestamp then ti else add64 previous_timestamp 1)
            previous_timestamp) ≤ 720) ∧
    ∃ s, lwmaLoop unorderedTimestamps 120 (unorderedTimestamps.length - 1)
          (unorderedTimestamps.length - 1) 1
          (LoopState.mk (unorderedTimestamps.headD 0) 0 0) = some s ∧
      s.L = weightedSum 1 (solveTimes (unorderedTimestamps.headD 0) unorderedTimestamps.tail) ∧
      (solveTimes (unorderedTimestamps.headD 0) unorderedTimestamps.tail).length =
        unorderedTimestamps.length - 1 ∧
      (∀ st ∈ solveTimes (unorderedTimestamps.headD 0) unorderedTimestamps.tail,
        1 ≤ st ∧ st ≤ 720) ∧
      (unorderedTimestamps.length - 1) * (unorderedTimestamps.length - 1 + 1) / 2 ≤ s.L ∧
      s.L ≤ 720 * ((unorderedTimestamps.length - 1) * (unorderedTimestamps.length - 1 + 1) / 2) ∧
      mul64 (100 * 2) s.L ≠ 0 :=
  LWMA3Difficulty_solve_time_bounds unorderedTimestamps (by decide) (by decide) (by decide)

/-! ### Steady state of LWMA-3 -/

theorem solveTimes_steady (n : Nat) :
    ∀ t, t + 120 * n < 2 ^ 64 →
      solveTimes t ((List.range n).map (fun i => t + 120 * (i + 1))) = List.replicate n 120 := by
  induction n with
  | zero =>
    intro _ _
    rfl
  | succ n ih =>
    intro t ht
    have hgt : t + 120 * (0 + 1) > t := by omega
    have hsub : sub64 (t + 120 * (0 + 1)) t = 120 := by
      unfold sub64
      omega
    have hfun : ((fun i => t + 120 * (i + 1)) ∘ Nat.succ) =
        (fun i => (t + 120 * (0 + 1)) + 120 * (i + 1)) := by
      funext i
      simp only [Function.comp, Nat.succ_eq_add_one]
      omega
    rw [List.range_succ_eq_map, List.map_cons, List.map_map, hfun]
    simp only [solveTimes, hgt, if_true, hsub]
    rw [ih (t + 120 * (0 + 1)) (by omega)]
    rfl

theorem weightedSum_replicate (n : Nat) :
    ∀ i, 2 * weightedSum i (List.replicate n 120) + 120 * n = 120 * (n * (2 * i + n)) := by
  induction n with
  | zero =>
    intro _
    simp [weightedSum]
  | succ n ih =>
    intro i
    have h := ih (i + 1)
    simp only [List.replicate_succ, weightedSum]
    nlinarith [h]

theorem range_map_tail (len : Nat) (hlen : 1 ≤ len) (t0 : Nat) :
    ((List.range len).map (fun i => t0 + 120 * i)).headD 0 = t0 ∧
      ((List.range len).map (fun i => t0 + 120 * i)).tail =
        (List.range (len - 1)).map (fun i => t0 + 120 * (i + 1)) := by
  obtain ⟨n, rfl⟩ : ∃ n, len = n + 1 := ⟨len - 1, by omega⟩
  rw [List.range_succ_eq_map, List.map_cons, List.map_map]
  exact ⟨rfl, rfl⟩

theorem range_map_getD (len k : Nat) (hk : k < len) (g : Nat → Nat) :
    ((List.range len).map g).getD k 0 = g k := by
  rw [List.getD_eq_getElem?_getD, List.getElem?_map, List.getElem?_range hk]
  rfl

/-- C27: steady state.  For every length `len` in 11..61 (`N = len - 1`), every
start `t0` whose last timestamp `t0 + 120 * N` is a `uint64_t`, every `c0` and
every per-block difficulty `D` with `N * D * 120 * (N + 1) * 99 < 2^64`, on
`timestamps[i] = t0 + 120 * i` and `cumulativeDifficulties[i] = c0 + i * D`
(as 64-bit values) the function returns `floor(99 * D / 100)`. -/
theorem LWMA3Difficulty_steady_state (len t0 c0 D : Nat)
    (hlen : 11 ≤ len) (hlen2 : len ≤ 61) (ht : t0 + 120 * (len - 1) < 2 ^ 64)
    (hfit : (len - 1) * D * 120 * (len - 1 + 1) * 99 < 2 ^ 64) :
    LWMA3Difficulty ((List.range len).map (fun i => t0 + 120 * i))
        ((List.range len).map (fun i => (c0 + i * D) % 2 ^ 64)) =
      some (99 * D / 100) := by
  have hl1 : ((List.range len).map (fun i => t0 + 120 * i)).length = len := by
    rw [List.length_map, List.length_range]
  have hl2 : ((List.range len).map (fun i => (c0 + i * D) % 2 ^ 64)).length =
      ((List.range len).map (fun i => t0 + 120 * i)).length := by
    simp only [List.length_map]
  have hts : ∀ t ∈ (List.range len).map (fun i => t0 + 120 * i), t < 2 ^ 64 := by
    intro t hmem
    obtain ⟨i, hi, rfl⟩ := List.mem_map.mp hmem
    have := List.mem_range.mp hi
    omega
  obtain ⟨s, _, hsL, hsS, hL1, hL2, hres⟩ :=
    LWMA3Difficulty_eq_finish _ _ (by rw [hl1]; exact hlen) (by rw [hl1]; exact hlen2) hl2 hts
  obtain ⟨hhead, htail⟩ := range_map_tail len (by omega) t0
  rw [hl1] at hsS hL1 hL2 hres
  rw [hhead, htail, solveTimes_steady (len - 1) t0 ht] at hsL hsS
  have hW := weightedSum_replicate (len - 1) 1
  rw [← hsL] at hW
  have hS : s.sum_3_ST = 360 := by
    rw [hsS, tailSum_eq_drop (len - 1) (by omega), List.drop_replicate, List.sum_replicate]
    have : len - 1 - (len - 1 - 2 - 1) = 3 := by omega
    rw [this]
    rfl
  obtain ⟨hdiv, hfin⟩ := lwmaFinish_eq (len - 1) s
    (((List.range len).map (fun i => (c0 + i * D) % 2 ^ 64)).getD (len - 1) 0)
    (((List.range len).map (fun i => (c0 + i * D) % 2 ^ 64)).getD 0 0)
    (((List.range len).map (fun i => (c0 + i * D) % 2 ^ 64)).getD (len - 1 - 1) 0)
    (by omega) (by omega)
  rw [hres, hfin, range_map_getD len (len - 1) (by omega), range_map_getD len 0 (by omega),
    range_map_getD len (len - 1 - 1) (by omega)]
  simp only [rawNextD, hdiv]
  -- the products of the numerator, none of which wraps
  generalize hN : len - 1 = N at *
  have hN10 : 10 ≤ N := by omega
  have hN60 : N ≤ 60 := by omega
  have hstep : (N - 1) * D + D = N * D := by
    have : N = (N - 1) + 1 := by omega
    nth_rewrite 2 [this]
    ring
  have hp1 : N * D * 120 * (N + 1) ≤ N * D * 120 * (N + 1) * 99 :=
    Nat.le_mul_of_pos_right _ (by decide)
  have hp2 : N * D * 120 ≤ N * D * 120 * (N + 1) := Nat.le_mul_of_pos_right _ (by omega)
  have hp3 : N * D ≤ N * D * 120 := Nat.le_mul_of_pos_right _ (by decide)
  have hp4 : 10 * D ≤ N * D := Nat.mul_le_mul_right D hN10
  have hsub0 : sub64 ((c0 + N * D) % 2 ^ 64) ((c0 + 0 * D) % 2 ^ 64) = N * D := by
    unfold sub64
    omega
  have hsub1 : sub64 ((c0 + N * D) % 2 ^ 64) ((c0 + (N - 1) * D) % 2 ^ 64) = D := by
    unfold sub64
    omega
  have hN1 : add64 N 1 = N + 1 := by
    unfold add64
    omega
  have hm1 : mul64 (N * D) 120 = N * D * 120 := by
    unfold mul64
    exact Nat.mod_eq_of_lt (by omega)
  have hm2 : mul64 (N * D * 120) (N + 1) = N * D * 120 * (N + 1) := by
    unfold mul64
    exact Nat.mod_eq_of_lt (by omega)
  have hm3 : mul64 (N * D * 120 * (N + 1)) 99 = N * D * 120 * (N + 1) * 99 := by
    unfold mul64
    exact Nat.mod_eq_of_lt (by omega)
  have h67 : mul64 D 67 = D * 67 := by
    unfold mul64
    omega
  have h150 : mul64 D 150 = D * 150 := by
    unfold mul64
    omega
  have hL : 200 * s.L = 100 * (120 * (N * (N + 1))) := by
    have h2 : 120 * (N * (2 * 1 + N)) = 120 * (N * (N + 1)) + 120 * N := by ring
    omega
  have hnum : N * D * 120 * (N + 1) * 99 = 99 * D * (120 * (N * (N + 1))) := by ring
  have hpos : 0 < 120 * (N * (N + 1)) := by positivity
  have hquot : N * D * 120 * (N + 1) * 99 / (200 * s.L) = 99 * D / 100 := by
    rw [hL, hnum]
    exact Nat.mul_div_mul_right _ _ hpos
  rw [hsub0, hsub1, hN1, hm1, hm2, hm3, h67, h150, hquot, hS]
  have hnot : ¬ (360 < 96) := by decide
  simp only [hnot, if_false]
  congr 1
  omega

/-- Witness for C27: eleven blocks on target with a difficulty of 1000 each. -/
theorem LWMA3Difficulty_steady_state_witness :
    LWMA3Difficulty ((List.range 11).map (fun i => 1600000000 + 120 * i))
        ((List.range 11).map (fun i => (5000 + i * 1000) % 2 ^ 64)) =
      some (99 * 1000 / 100) :=
  LWMA3Difficulty_steady_state 11 1600000000 5000 1000 (by decide) (by decide) (by decide)
    (by decide)

/-! ### Shifting the inputs of LWMA-3 -/

theorem sub64_shift (a b d : Nat) :
    sub64 ((a + d) % 2 ^ 64) ((b + d) % 2 ^ 64) = sub64 a b := by
  unfold sub64
  omega

theorem lwmaLoop_shift (timestamps : List Nat) (c T N : Nat)
    (hts : ∀ t ∈ timestamps, t + c + 60 < 2 ^ 64) :
    ∀ (fuel i : Nat) (s : LoopState), fuel ≤ 61 → s.previous_timestamp + c + fuel < 2 ^ 64 →
      lwmaLoop (timestamps.map (fun t => t + c)) T N fuel i
          (LoopState.mk (s.previous_timestamp + c) s.L s.sum_3_ST) =
        (lwmaLoop timestamps T N fuel i s).map
          (fun r => LoopState.mk (r.previous_timestamp + c) r.L r.sum_3_ST) := by
  intro fuel
  induction fuel with
  | zero =>
    intro i s _ _
    rfl
  | succ fuel ih =>
    intro i s hfuel hinv
    simp only [lwmaLoop, List.getElem?_map]
    cases hget : timestamps[i]? with
    | none => rfl
    | some ti =>
      have hti := hts ti (List.getElem?_mem hget)
      have hthis : (if ti + c > s.previous_timestamp + c then ti + c
          else add64 (s.previous_timestamp + c) 1) =
          (if ti > s.previous_timestamp then ti else add64 s.previous_timestamp 1) + c := by
        by_cases hgt : ti > s.previous_timestamp
        · have hgt2 : ti + c > s.previous_timestamp + c := by omega
          simp only [hgt, hgt2, if_true]
        · have hgt2 : ¬ ti + c > s.previous_timestamp + c := by omega
          simp only [hgt, hgt2, if_false]
          unfold add64
          omega
      have hbound : (if ti > s.previous_timestamp then ti else add64 s.previous_timestamp 1) +
          c + fuel < 2 ^ 64 := by
        by_cases hgt : ti > s.previous_timestamp
        · simp only [hgt, if_true]
          omega
        · simp only [hgt, if_false]
          unfold add64
          omega
      simp only [Option.map_some', hthis]
      generalize (if ti > s.previous_timestamp then ti else add64 s.previous_timestamp 1) =
        this_ts at hbound
      have hsub : sub64 (this_ts + c) (s.previous_timestamp + c) =
          sub64 this_ts s.previous_timestamp := by
        unfold sub64
        omega
      rw [hsub]
      exact ih (i + 1) (LoopState.mk this_ts _ _) (by omega) hbound

theorem lwmaFinish_shift (T N : Nat) (s : LoopState) (cdN cd0 cdN1 d : Nat) :
    lwmaFinish T N s ((cdN + d) % 2 ^ 64) ((cd0 + d) % 2 ^ 64) ((cdN1 + d) % 2 ^ 64) =
      lwmaFinish T N s cdN cd0 cdN1 := by
  simp only [lwmaFinish, sub64_shift]

/-- C26 (amended): for every input whose timestamps stay at least 61 below
`2^64` after the shift (`t + c + 60 < 2^64`), adding `c` to every timestamp and
`d` to every cumulative difficulty modulo `2^64` leaves the result of
`LWMA3Difficulty` unchanged. -/
theorem LWMA3Difficulty_shift (timestamps cumulative_difficulties : List Nat) (c d : Nat)
    (hts : ∀ t ∈ timestamps, t + c + 60 < 2 ^ 64) :
    LWMA3Difficulty (timestamps.map (fun t => t + c))
        (cumulative_difficulties.map (fun x => (x + d) % 2 ^ 64)) =
      LWMA3Difficulty timestamps cumulative_difficulties := by
  simp only [LWMA3Difficulty, List.length_map, List.getElem?_map]
  split_ifs with h1 h2 h3
  · rfl
  · rfl
  · cases h0 : timestamps[0]? with
    | none => rfl
    | some t0 =>
      have ht0 := hts t0 (List.getElem?_mem h0)
      simp only [Option.map_some']
      rw [lwmaLoop_shift timestamps c 120 (timestamps.length - 1) hts (timestamps.length - 1) 1
        (LoopState.mk t0 0 0) (by omega) (by simp only; omega)]
      cases lwmaLoop timestamps 120 (timestamps.length - 1) (timestamps.length - 1) 1
          (LoopState.mk t0 0 0) with
      | none => rfl
      | some s =>
        simp only [Option.map_some']
        cases cumulative_difficulties[timestamps.length - 1]? <;>
          cases cumulative_difficulties[0]? <;>
          cases cumulative_difficulties[timestamps.length - 1 - 1]? <;>
          simp only [Option.map_some', Option.map_none']
        exact (lwmaFinish_shift 120 _ _ _ _ _ d).trans rfl
  · cases h0 : timestamps[0]? with
    | none => rfl
    | some t0 =>
      have ht0 := hts t0 (List.getElem?_mem h0)
      simp only [Option.map_some']
      rw [lwmaLoop_shift timestamps c 120 60 hts 60 1
        (LoopState.mk t0 0 0) (by omega) (by simp only; omega)]
      cases lwmaLoop timestamps 120 60 60 1 (LoopState.mk t0 0 0) with
      | none => rfl
      | some s =>
        simp only [Option.map_some']
        cases cumulative_difficulties[60]? <;>
          cases cumulative_difficulties[0]? <;>
          cases cumulative_difficulties[60 - 1]? <;>
          simp only [Option.map_some', Option.map_none']
        exact (lwmaFinish_shift 120 _ _ _ _ _ d).trans rfl

/-- Witness for C26 (amended): the on-target history moved by 1000 seconds and
by a difficulty offset of 777. -/
theorem LWMA3Difficulty_shift_witness :
    LWMA3Difficulty (steadyTimestamps.map (fun t => t + 1000))
        (sampleCumulativeDifficulties.map (fun x => (x + 777) % 2 ^ 64)) =
      LWMA3Difficulty steadyTimestamps sampleCumulativeDifficulties :=
  LWMA3Difficulty_shift steadyTimestamps sampleCumulativeDifficulties 1000 777 (by decide)

/-- C26, counterexample: eleven timestamps equal to 5 and `c = 2^64 - 6`.  No
sum `t + c` overflows (each is `2^64 - 1`), but the running adjusted timestamp
`previous_timestamp + 1` now wraps to 0, so the solve times become
1, 720, 1, 720, ... instead of all 1 and the result drops from 1500 to 670. -/
theorem LWMA3Difficulty_shift_changes_result :
    (∀ t ∈ repeatedTimestamps, t + (2 ^ 64 - 6) < 2 ^ 64) ∧
    LWMA3Difficulty repeatedTimestamps sampleCumulativeDifficulties = some 1500 ∧
    LWMA3Difficulty (repeatedTimestamps.map (fun t => t + (2 ^ 64 - 6)))
        (sampleCumulativeDifficulties.map (fun x => (x + 0) % 2 ^ 64)) = some 670 ∧
    LWMA3Difficulty (repeatedTimestamps.map (fun t => t + (2 ^ 64 - 6)))
        (sampleCumulativeDifficulties.map (fun x => (x + 0) % 2 ^ 64)) ≠
      LWMA3Difficulty repeatedTimestamps sampleCumulativeDifficulties := by
  decide

/-! ### Deposit interest -/

theorem totalInterest_foldl_lt (f : Nat → Nat → Nat) (l : List TransactionInput) :
    ∀ acc, acc < 2 ^ 64 →
      l.foldl
        (fun interest input =>
          match input with
          | TransactionInput.MultisignatureInput amount term =>
            if term ≠ 0 then add64 interest (f amount term) else interest
          | _ => interest) acc < 2 ^ 64 := by
  induction l with
  | nil =>
    intro acc h
    exact h
  | cons input rest ih =>
    intro acc h
    rw [List.foldl_cons]
    apply ih
    cases input with
    | BaseInput => exact h
    | KeyInput amount => exact h
    | MultisignatureInput amount term =>
      by_cases hterm : term = 0
      · simp only [hterm, ne_eq, not_true_eq_false, if_false]
        exact h
      · simp only [hterm, ne_eq, not_false_eq_true, if_true]
        exact add64_lt _ _

theorem calculateInterest_of_term_lt (fe : FloatEnv) (amount term : Nat)
    (hzero : fe.toFloat 0 = 0) (hterm : term < 21900) :
    calculateInterest fe amount term = some 0 := by
  have hdiv : term / 21900 = 0 := Nat.div_eq_of_lt hterm
  have hnot : ¬ ((0 : ℚ) > 12) := by norm_num
  have hcast : toUint64 0 = some 0 := by
    have h : (-1 : ℚ) < 0 ∧ (0 : ℚ) < 2 ^ 64 := by norm_num
    simp only [toUint64, h, and_self, if_true, Int.floor_zero, Int.toNat_zero]
  simp only [calculateInterest, hdiv, Nat.cast_zero, hzero, hnot, if_false, mul_zero, hcast]

/-- C25: for every rounding of the floating-point environment that keeps 0 at
0, every `uint64_t` amount and every term below 21900, `calculateInterest`
returns 0 (the month count `term / 21900` is 0 and so is the period rate); the
deposit input then counts for exactly its amount in
`getTransactionInputAmount`, and taking it out of a transaction does not
change `calculateTotalTransactionInterest`. -/
theorem calculateInterest_short_term (fe : FloatEnv) (amount term height : Nat)
    (before after : List TransactionInput) (outputs : List TransactionOutput)
    (hzero : fe.toFloat 0 = 0) (hamount : amount < 2 ^ 64) (hterm : term < 21900) :
    term / 21900 = 0 ∧
    calculateInterest fe amount term = some 0 ∧
    getTransactionInputAmount (interestValue fe)
      (TransactionInput.MultisignatureInput amount term) height = amount ∧
    calculateTotalTransactionInterest (interestValue fe)
        (Transaction.mk (before ++ TransactionInput.MultisignatureInput amount term :: after)
          outputs) =
      calculateTotalTransactionInterest (interestValue fe)
        (Transaction.mk (before ++ after) outputs) := by
  have hci := calculateInterest_of_term_lt fe amount term hzero hterm
  have hval : interestValue fe amount term = 0 := by
    simp only [interestValue, hci, Option.getD_some]
  have hadd : add64 amount 0 = amount := by
    unfold add64
    omega
  refine ⟨Nat.div_eq_of_lt hterm, hci, ?_, ?_⟩
  · by_cases h0 : term = 0
    · simp only [getTransactionInputAmount, h0, if_true]
    · simp only [getTransactionInputAmount, h0, if_false, hval, hadd]
  · simp only [calculateTotalTransactionInterest, List.foldl_append, List.foldl_cons]
    have hacc := totalInterest_foldl_lt (interestValue fe) before 0 (by decide)
    generalize List.foldl _ 0 before = acc at hacc
    have hstep : (if term ≠ 0 then add64 acc (interestValue fe amount term) else acc) = acc := by
      by_cases h0 : term = 0
      · simp only [h0, ne_eq, not_true_eq_false, if_false]
      · simp only [h0, ne_eq, not_false_eq_true, if_true, hval]
        unfold add64
        omega
    rw [hstep]

/-- Witness for C25: a deposit of 123456789 atomic units for 21899 blocks in the
IEEE 754 environment, between a key input and a one-month deposit. -/
theorem calculateInterest_short_term_witness :
    21899 / 21900 = 0 ∧
    calculateInterest ieeeEnv 123456789 21899 = some 0 ∧
    getTransactionInputAmount (interestValue ieeeEnv)
      (TransactionInput.MultisignatureInput 123456789 21899) 7 = 123456789 ∧
    calculateTotalTransactionInterest (interestValue ieeeEnv)
        (Transaction.mk ([TransactionInput.KeyInput 500] ++
          TransactionInput.MultisignatureInput 123456789 21899 ::
            [TransactionInput.MultisignatureInput 1200000 21900])
          [TransactionOutput.mk 100]) =
      calculateTotalTransactionInterest (interestValue ieeeEnv)
        (Transaction.mk ([TransactionInput.KeyInput 500] ++
          [TransactionInput.MultisignatureInput 1200000 21900])
          [TransactionOutput.mk 100]) :=
  calculateInterest_short_term ieeeEnv 123456789 21899 7 [TransactionInput.KeyInput 500]
    [TransactionInput.MultisignatureInput 1200000 21900] [TransactionOutput.mk 100]
    (by simp [ieeeEnv, roundBinary]) (by decide) (by decide)

/-! ### Rounding in `calculateInterest` -/

theorem roundNearestEven_err (q : ℚ) : |(roundNearestEven q : ℚ) - q| ≤ 1 / 2 := by
  have h1 : ((Int.floor q : Int) : ℚ) ≤ q := Int.floor_le q
  have h2 : q < (Int.floor q : Int) + 1 := Int.lt_floor_add_one q
  unfold roundNearestEven
  simp only
  rw [abs_le]
  split_ifs with ha hb hc
  · constructor <;> linarith
  · push_cast
    constructor <;> linarith
  · constructor <;> linarith
  · push_cast
    constructor <;> linarith

theorem natLog2_spec : ∀ (fuel n : Nat), 1 ≤ n → n ≤ fuel →
    2 ^ natLog2 fuel n ≤ n ∧ n < 2 ^ (natLog2 fuel n + 1) := by
  intro fuel
  induction fuel with
  | zero =>
    intro n h1 h2
    omega
  | succ fuel ih =>
    intro n h1 h2
    by_cases hn : n < 2
    · have h : n = 1 := by omega
      subst h
      simp [natLog2]
    · obtain ⟨ih1, ih2⟩ := ih (n / 2) (by omega) (by omega)
      simp only [natLog2, hn, if_false]
      have e1 : 2 ^ (natLog2 fuel (n / 2) + 1) = 2 * 2 ^ natLog2 fuel (n / 2) := by ring
      have e2 : 2 ^ (natLog2 fuel (n / 2) + 1 + 1) = 2 * 2 ^ (natLog2 fuel (n / 2) + 1) := by ring
      constructor
      · omega
      · omega

theorem floorLog2_le (q : ℚ) (hq : q ≠ 0) : (2 : ℚ) ^ floorLog2 q ≤ |q| := by
  unfold floorLog2
  simp only
  split_ifs with h
  · exact h
  · have hnum : 1 ≤ q.num.natAbs := Nat.pos_of_ne_zero (by
      rw [Ne, Int.natAbs_eq_zero]
      exact Rat.num_ne_zero.mpr hq)
    have hden : 1 ≤ q.den := q.den_pos
    obtain ⟨hn1, _⟩ := natLog2_spec q.num.natAbs q.num.natAbs hnum (le_refl _)
    obtain ⟨_, hd2⟩ := natLog2_spec q.den q.den hden (le_refl _)
    generalize natLog2 q.num.natAbs q.num.natAbs = a at hn1
    generalize natLog2 q.den q.den = b at hd2
    have habs : |q| = (q.num.natAbs : ℚ) / (q.den : ℚ) := by
      nth_rewrite 1 [← Rat.num_div_den q]
      rw [abs_div, Nat.abs_cast, Nat.cast_natAbs, Int.cast_abs]
    have hn1q : (2 : ℚ) ^ a ≤ (q.num.natAbs : ℚ) := by exact_mod_cast hn1
    have hd2q : (q.den : ℚ) ≤ 2 ^ (b + 1) := by exact_mod_cast hd2.le
    have hdpos : (0 : ℚ) < q.den := by exact_mod_cast hden
    have hexp : (2 : ℚ) ^ ((a : Int) - (b : Int) - 1) = 2 ^ a / 2 ^ (b + 1) := by
      have : (a : Int) - (b : Int) - 1 = (a : Int) - ((b + 1 : Nat) : Int) := by push_cast; ring
      rw [this, zpow_sub₀ (by norm_num), zpow_natCast, zpow_natCast]
    rw [hexp, habs]
    exact div_le_div₀ (by positivity) hn1q hdpos hd2q

theorem roundBinary_err (p : Nat) (emin : Int) (q : ℚ) (hq : (2 : ℚ) ^ emin ≤ |q|) :
    |roundBinary p emin q - q| ≤ |q| / 2 ^ p := by
  have hpos : (0 : ℚ) < |q| := lt_of_lt_of_le (zpow_pos (by norm_num) emin) hq
  have hne : q ≠ 0 := abs_pos.mp hpos
  have hle : (2 : ℚ) ^ max (floorLog2 q) emin ≤ |q| := by
    rcases max_choice (floorLog2 q) emin with h | h
    · rw [h]
      exact floorLog2_le q hne
    · rw [h]
      exact hq
  unfold roundBinary
  simp only [hne, if_false]
  generalize max (floorLog2 q) emin = e at hle
  have hulp : (0 : ℚ) < 2 ^ (e - ((p : Int) - 1)) := zpow_pos (by norm_num) _
  generalize hu : (2 : ℚ) ^ (e - ((p : Int) - 1)) = ulp at hulp
  have herr := roundNearestEven_err (q / ulp)
  have heq : (roundNearestEven (q / ulp) : ℚ) * ulp - q =
      ((roundNearestEven (q / ulp) : ℚ) - q / ulp) * ulp := by
    field_simp
  rw [heq, abs_mul, abs_of_pos hulp]
  have hhalf : ulp / 2 = (2 : ℚ) ^ e / 2 ^ p := by
    rw [← hu, zpow_sub₀ (by norm_num), zpow_sub₀ (by norm_num), zpow_natCast, zpow_one]
    field_simp
    ring
  calc |(roundNearestEven (q / ulp) : ℚ) - q / ulp| * ulp ≤ 1 / 2 * ulp :=
        mul_le_mul_of_nonneg_right herr hulp.le
    _ = ulp / 2 := by ring
    _ = (2 : ℚ) ^ e / 2 ^ p := hhalf
    _ ≤ |q| / 2 ^ p := div_le_div_of_nonneg_right hle (by positivity)

theorem roundBinary_faithful (p : Nat) (emin : Int) (hemin : emin ≤ -13) (x : ℚ)
    (hx : x = 0 ∨ (1 / 2 ^ 13 ≤ |x| ∧ |x| ≤ 2 ^ 65)) :
    |roundBinary p emin x - x| ≤ |x| * (1 / 2 ^ p) := by
  rcases hx with rfl | ⟨hlo, _⟩
  · simp [roundBinary]
  · have h13 : (2 : ℚ) ^ emin ≤ 2 ^ (-13 : Int) := zpow_le_zpow_right₀ (by norm_num) hemin
    have h13b : (2 : ℚ) ^ (-13 : Int) = 1 / 2 ^ 13 := by
      norm_num [zpow_neg]
    have := roundBinary_err p emin x (by rw [h13b] at h13; exact le_trans h13 hlo)
    rw [div_eq_mul_one_div] at this
    exact this

theorem ieeeEnv_faithful : faithfulRounding ieeeEnv := by
  refine ⟨fun x hx => ?_, fun x hx => ?_, fun z h1 h2 => ?_⟩
  · exact roundBinary_faithful 24 (-126) (by norm_num) x hx
  · exact roundBinary_faithful 53 (-1022) (by norm_num) x hx
  · show roundBinary 24 (-126) (z : ℚ) = z
    interval_cases z <;> decide!

theorem round_within (F : ℚ → ℚ) (u : ℚ) (hu0 : 0 ≤ u) (hu1 : u ≤ 1)
    (hF : ∀ x : ℚ, x = 0 ∨ (1 / 2 ^ 13 ≤ |x| ∧ |x| ≤ 2 ^ 65) → |F x - x| ≤ |x| * u)
    (x y L U : ℚ) (hL : 1 / 2 ≤ L) (hU : U ≤ 2) (h1 : x * L ≤ y) (h2 : y ≤ x * U)
    (hr : x = 0 ∨ (1 / 2 ^ 12 ≤ x ∧ x ≤ 2 ^ 64)) :
    x * (L * (1 - u)) ≤ F y ∧ F y ≤ x * (U * (1 + u)) := by
  rcases hr with rfl | ⟨hx1, hx2⟩
  · have hy : y = 0 := by linarith
    have h0 := hF 0 (Or.inl rfl)
    simp only [abs_zero, zero_mul, sub_zero] at h0
    have hF0 : F 0 = 0 := abs_nonpos_iff.mp h0
    rw [hy, hF0]
    simp
  · have hxpos : 0 < x := lt_of_lt_of_le (by norm_num) hx1
    have hylo : 1 / 2 ^ 13 ≤ y := by nlinarith
    have hyhi : y ≤ 2 ^ 65 := by nlinarith
    have hypos : 0 < y := lt_of_lt_of_le (by norm_num) hylo
    have habs : |y| = y := abs_of_pos hypos
    have h := hF y (Or.inr ⟨by rw [habs]; exact hylo, by rw [habs]; exact hyhi⟩)
    rw [habs, abs_le] at h
    have ha : x * L * (1 - u) ≤ y * (1 - u) := mul_le_mul_of_nonneg_right h1 (by linarith)
    have hb : y * (1 + u) ≤ x * U * (1 + u) := mul_le_mul_of_nonneg_right h2 (by linarith)
    constructor
    · linarith [h.1]
    · linarith [h.2]

theorem round_step (F : ℚ → ℚ) (u : ℚ) (hu0 : 0 ≤ u) (hu1 : u ≤ 1 / 2 ^ 24)
    (hF : ∀ x : ℚ, x = 0 ∨ (1 / 2 ^ 13 ≤ |x| ∧ |x| ≤ 2 ^ 65) → |F x - x| ≤ |x| * u)
    (x y k k' : ℚ) (hk' : k' = k + 1) (hk0 : 0 ≤ k) (hk1 : k ≤ 16)
    (h1 : x * (1 - k / 2 ^ 24) ≤ y) (h2 : y ≤ x * (1 + k / 2 ^ 24 + k / 2 ^ 40))
    (hr : x = 0 ∨ (1 / 2 ^ 12 ≤ x ∧ x ≤ 2 ^ 64)) :
    x * (1 - k' / 2 ^ 24) ≤ F y ∧ F y ≤ x * (1 + k' / 2 ^ 24 + k' / 2 ^ 40) := by
  subst hk'
  have hx : 0 ≤ x := by
    rcases hr with rfl | ⟨h, _⟩
    · exact le_refl 0
    · exact le_trans (by norm_num) h
  have hku0 : 0 ≤ k * u := mul_nonneg hk0 hu0
  have hku : k * u ≤ 16 * (1 / 2 ^ 24) := mul_le_mul hk1 hu1 hu0 (by norm_num)
  obtain ⟨hlo, hhi⟩ := round_within F u hu0 (le_trans hu1 (by norm_num)) hF x y
    (1 - k / 2 ^ 24) (1 + k / 2 ^ 24 + k / 2 ^ 40) (by linarith) (by linarith) h1 h2 hr
  have hL : 1 - (k + 1) / 2 ^ 24 ≤ (1 - k / 2 ^ 24) * (1 - u) := by nlinarith
  have hU : (1 + k / 2 ^ 24 + k / 2 ^ 40) * (1 + u) ≤
      1 + (k + 1) / 2 ^ 24 + (k + 1) / 2 ^ 40 := by nlinarith
  exact ⟨le_trans (mul_le_mul_of_nonneg_left hL hx) hlo,
    le_trans hhi (mul_le_mul_of_nonneg_left hU hx)⟩

theorem eir_within (fe : FloatEnv) (hfe : faithfulRounding fe) (b : ℚ) (n : Nat)
    (hb1 : 49 / 1000 ≤ b) (hb2 : b ≤ 69 / 1000) (hn1 : 1 ≤ n) (hn2 : n ≤ 12) :
    (b + ((n : ℚ) - 1) * (1 / 1000)) / 12 * n * (1 - 6 / 2 ^ 24) ≤
      fe.toFloat (fe.toFloat (fe.toFloat (fe.toDouble
        (fe.toFloat (fe.toDouble b) +
          fe.toDouble (fe.toFloat ((n : ℚ) - 1) * fe.toDouble (1 / 1000)))) /
            fe.toFloat 12) * n) ∧
    fe.toFloat (fe.toFloat (fe.toFloat (fe.toDouble
        (fe.toFloat (fe.toDouble b) +
          fe.toDouble (fe.toFloat ((n : ℚ) - 1) * fe.toDouble (1 / 1000)))) /
            fe.toFloat 12) * n) ≤
      (b + ((n : ℚ) - 1) * (1 / 1000)) / 12 * n * (1 + 6 / 2 ^ 24 + 6 / 2 ^ 40) := by
  obtain ⟨hF, hD, hZ⟩ := hfe
  have hu : (0 : ℚ) ≤ 1 / 2 ^ 24 := by norm_num
  have hv : (0 : ℚ) ≤ 1 / 2 ^ 53 := by norm_num
  have hvu : (1 : ℚ) / 2 ^ 53 ≤ 1 / 2 ^ 24 := by norm_num
  have h12 : fe.toFloat 12 = 12 := by
    have := hZ 12 (by norm_num) (by norm_num)
    exact_mod_cast this
  have hw : fe.toFloat ((n : ℚ) - 1) = (n : ℚ) - 1 := by
    have := hZ ((n : Int) - 1) (by omega) (by omega)
    push_cast at this
    exact this
  have hn1q : (1 : ℚ) ≤ n := by exact_mod_cast hn1
  have hn2q : (n : ℚ) ≤ 12 := by exact_mod_cast hn2
  have hrange : ((n : ℚ) - 1) * (1 / 1000) = 0 ∨
      (1 / 2 ^ 12 ≤ ((n : ℚ) - 1) * (1 / 1000) ∧ ((n : ℚ) - 1) * (1 / 1000) ≤ 2 ^ 64) := by
    rcases Nat.eq_or_lt_of_le hn1 with h | h
    · left
      rw [← h]
      norm_num
    · right
      have h2 : (2 : ℚ) ≤ n := by exact_mod_cast h
      constructor <;> linarith only [h2, hn2q]
  rw [h12, hw]
  generalize (n : ℚ) = m at hn1q hn2q hrange
  -- the base rate: double, then float
  have s1 := round_step fe.toDouble (1 / 2 ^ 53) hv hvu hD b b 0 1 (by norm_num) (by norm_num)
    (by norm_num) (by linarith only []) (by linarith only [])
    (Or.inr ⟨by linarith only [hb1], by linarith only [hb2]⟩)
  have s2 := round_step fe.toFloat (1 / 2 ^ 24) hu (le_refl _) hF b _ 1 2 (by norm_num)
    (by norm_num) (by norm_num) s1.1 s1.2
    (Or.inr ⟨by linarith only [hb1], by linarith only [hb2]⟩)
  -- the literal 0.001 and its product with `months - 1`
  have c1 := round_step fe.toDouble (1 / 2 ^ 53) hv hvu hD (1 / 1000) (1 / 1000) 0 1
    (by norm_num) (by norm_num) (by norm_num) (by norm_num) (by norm_num)
    (Or.inr ⟨by norm_num, by norm_num⟩)
  have hm0 : (0 : ℚ) ≤ m - 1 := by linarith only [hn1q]
  have p1 : (m - 1) * (1 / 1000) * (1 - 1 / 2 ^ 24) ≤ (m - 1) * fe.toDouble (1 / 1000) := by
    have := mul_le_mul_of_nonneg_left c1.1 hm0
    linarith only [this]
  have p2 : (m - 1) * fe.toDouble (1 / 1000) ≤
      (m - 1) * (1 / 1000) * (1 + 1 / 2 ^ 24 + 1 / 2 ^ 40) := by
    have := mul_le_mul_of_nonneg_left c1.2 hm0
    linarith only [this]
  have c2 := round_step fe.toDouble (1 / 2 ^ 53) hv hvu hD _ _ 1 2 (by norm_num) (by norm_num)
    (by norm_num) p1 p2 hrange
  -- the sum, as a double, stored in a float
  have a1 : (b + (m - 1) * (1 / 1000)) * (1 - 2 / 2 ^ 24) ≤
      fe.toFloat (fe.toDouble b) + fe.toDouble ((m - 1) * fe.toDouble (1 / 1000)) := by
    rw [add_mul]
    exact add_le_add s2.1 c2.1
  have a2 : fe.toFloat (fe.toDouble b) + fe.toDouble ((m - 1) * fe.toDouble (1 / 1000)) ≤
      (b + (m - 1) * (1 / 1000)) * (1 + 2 / 2 ^ 24 + 2 / 2 ^ 40) := by
    rw [add_mul]
    exact add_le_add s2.2 c2.2
  have s3 := round_step fe.toDouble (1 / 2 ^ 53) hv hvu hD _ _ 2 3 (by norm_num) (by norm_num)
    (by norm_num) a1 a2
    (Or.inr ⟨by linarith only [hb1, hn1q], by linarith only [hb2, hn2q]⟩)
  have s4 := round_step fe.toFloat (1 / 2 ^ 24) hu (le_refl _) hF _ _ 3 4 (by norm_num)
    (by norm_num) (by norm_num) s3.1 s3.2
    (Or.inr ⟨by linarith only [hb1, hn1q], by linarith only [hb2, hn2q]⟩)
  -- the division by 12 and the product with `months`
  have d1 : (b + (m - 1) * (1 / 1000)) / 12 * (1 - 4 / 2 ^ 24) ≤
      fe.toFloat (fe.toDouble (fe.toFloat (fe.toDouble b) +
        fe.toDouble ((m - 1) * fe.toDouble (1 / 1000)))) / 12 := by
    linarith only [s4.1]
  have d2 : fe.toFloat (fe.toDouble (fe.toFloat (fe.toDouble b) +
        fe.toDouble ((m - 1) * fe.toDouble (1 / 1000)))) / 12 ≤
      (b + (m - 1) * (1 / 1000)) / 12 * (1 + 4 / 2 ^ 24 + 4 / 2 ^ 40) := by
    linarith only [s4.2]
  have s5 := round_step fe.toFloat (1 / 2 ^ 24) hu (le_refl _) hF _ _ 4 5 (by norm_num)
    (by norm_num) (by norm_num) d1 d2
    (Or.inr ⟨by linarith only [hb1, hn1q], by linarith only [hb2, hn2q]⟩)
  have hmpos : (0 : ℚ) ≤ m := by linarith only [hn1q]
  have e1 : (b + (m - 1) * (1 / 1000)) / 12 * m * (1 - 5 / 2 ^ 24) ≤
      fe.toFloat (fe.toFloat (fe.toDouble (fe.toFloat (fe.toDouble b) +
        fe.toDouble ((m - 1) * fe.toDouble (1 / 1000)))) / 12) * m := by
    have := mul_le_mul_of_nonneg_right s5.1 hmpos
    linarith only [this]
  have e2 : fe.toFloat (fe.toFloat (fe.toDouble (fe.toFloat (fe.toDouble b) +
        fe.toDouble ((m - 1) * fe.toDouble (1 / 1000)))) / 12) * m ≤
      (b + (m - 1) * (1 / 1000)) / 12 * m * (1 + 5 / 2 ^ 24 + 5 / 2 ^ 40) := by
    have := mul_le_mul_of_nonneg_right s5.2 hmpos
    linarith only [this]
  have hq1 : 49 / 12000 ≤ (b + (m - 1) * (1 / 1000)) / 12 := by linarith only [hb1, hn1q]
  have hq2 : (b + (m - 1) * (1 / 1000)) / 12 ≤ 80 / 12000 := by linarith only [hb2, hn2q]
  have hE1 : 1 / 2 ^ 12 ≤ (b + (m - 1) * (1 / 1000)) / 12 * m := by
    have := mul_le_mul hq1 hn1q (by norm_num) (by linarith only [hq1])
    linarith only [this]
  have hE2 : (b + (m - 1) * (1 / 1000)) / 12 * m ≤ 2 ^ 64 := by
    have := mul_le_mul hq2 hn2q (by linarith only [hn1q]) (by norm_num)
    linarith only [this]
  exact round_step fe.toFloat (1 / 2 ^ 24) hu (le_refl _) hF _ _ 5 6 (by norm_num)
    (by norm_num) (by norm_num) e1 e2 (Or.inr ⟨hE1, hE2⟩)

theorem specBaseRate_range (amount : Nat) :
    49 / 1000 ≤ specBaseRate amount ∧ specBaseRate amount ≤ 69 / 1000 := by
  unfold specBaseRate
  simp only
  split_ifs <;> norm_num

theorem calculateInterest_base (fe : FloatEnv) (amount : Nat) :
    (if amount / 100000 ≥ 20000 then fe.toFloat (fe.toDouble (69 / 1000))
      else if amount / 100000 ≥ 15000 ∧ amount / 100000 < 20000
        then fe.toFloat (fe.toDouble (64 / 1000))
      else if amount / 100000 ≥ 10000 ∧ amount / 100000 < 15000
        then fe.toFloat (fe.toDouble (59 / 1000))
      else if amount / 100000 ≥ 5000 ∧ amount / 100000 < 10000
        then fe.toFloat (fe.toDouble (54 / 1000))
      else fe.toFloat (fe.toDouble (49 / 1000))) =
    fe.toFloat (fe.toDouble (specBaseRate amount)) := by
  unfold specBaseRate
  simp only
  generalize amount / 100000 = h
  by_cases h1 : h < 5000
  · have a1 : ¬ h ≥ 20000 := by omega
    have a2 : ¬ h ≥ 15000 := by omega
    have a3 : ¬ h ≥ 10000 := by omega
    have a4 : ¬ h ≥ 5000 := by omega
    simp only [h1, a1, a2, a3, a4, if_true, if_false, false_and]
  · by_cases h2 : h < 10000
    · have a1 : ¬ h ≥ 20000 := by omega
      have a2 : ¬ h ≥ 15000 := by omega
      have a3 : ¬ h ≥ 10000 := by omega
      have a4 : h ≥ 5000 := by omega
      simp only [h1, h2, a1, a2, a3, a4, if_true, if_false, false_and, and_self]
    · by_cases h3 : h < 15000
      · have a1 : ¬ h ≥ 20000 := by omega
        have a2 : ¬ h ≥ 15000 := by omega
        have a3 : h ≥ 10000 := by omega
        simp only [h1, h2, h3, a1, a2, a3, if_true, if_false, false_and, and_self]
      · by_cases h4 : h < 20000
        · have a1 : ¬ h ≥ 20000 := by omega
          have a2 : h ≥ 15000 := by omega
          simp only [h1, h2, h3, h4, a1, a2, if_true, if_false, and_self]
        · have a1 : h ≥ 20000 := by omega
          simp only [h1, h2, h3, h4, a1, if_true, if_false]

theorem calculateInterest_months (fe : FloatEnv) (hfe : faithfulRounding fe) (term : Nat)
    (hterm : term < 2 ^ 32) :
    (if fe.toFloat ((term / 21900 : Nat) : ℚ) > 12 then fe.toFloat 12
      else fe.toFloat ((term / 21900 : Nat) : ℚ)) = ((min (term / 21900) 12 : Nat) : ℚ) := by
  obtain ⟨hF, _, hZ⟩ := hfe
  have h12 : fe.toFloat 12 = 12 := by
    have := hZ 12 (by norm_num) (by norm_num)
    exact_mod_cast this
  have hk : term / 21900 < 2 ^ 32 := lt_of_le_of_lt (Nat.div_le_self _ _) hterm
  generalize term / 21900 = k at hk
  by_cases hle : k ≤ 12
  · have hexact : fe.toFloat (k : ℚ) = k := by
      have := hZ (k : Int) (by omega) (by omega)
      exact_mod_cast this
    have hkq : (k : ℚ) ≤ 12 := by exact_mod_cast hle
    rw [hexact, if_neg (by linarith), Nat.min_eq_left hle]
  · have hk13 : (13 : ℚ) ≤ k := by
      have : 13 ≤ k := by omega
      exact_mod_cast this
    have hk32 : (k : ℚ) ≤ 2 ^ 32 := by
      have : k ≤ 2 ^ 32 := by omega
      exact_mod_cast this
    have habs : |(k : ℚ)| = k := abs_of_nonneg (by linarith)
    have h := hF (k : ℚ) (Or.inr ⟨by rw [habs]; linarith, by rw [habs]; linarith⟩)
    rw [habs, abs_le] at h
    have hgt : fe.toFloat (k : ℚ) > 12 := by
      have : (k : ℚ) * (1 / 2 ^ 24) ≤ k * (1 / 13) :=
        mul_le_mul_of_nonneg_left (by norm_num) (by linarith)
      linarith [h.1]
    rw [if_pos hgt, h12, Nat.min_eq_right (by omega)]
    norm_num

theorem toUint64_of_range (q : ℚ) (h0 : 0 ≤ q) (h1 : q < 2 ^ 64) :
    toUint64 q = some (Int.toNat (Int.floor q)) ∧
      ((Int.toNat (Int.floor q) : Nat) : ℚ) ≤ q ∧ q < ((Int.toNat (Int.floor q) : Nat) : ℚ) + 1 := by
  have hcond : -1 < q ∧ q < 2 ^ 64 := ⟨by linarith only [h0], h1⟩
  have hfloor : (0 : Int) ≤ Int.floor q := Int.floor_nonneg.mpr h0
  have hcast : ((Int.toNat (Int.floor q) : Nat) : ℚ) = ((Int.floor q : Int) : ℚ) := by
    have := Int.toNat_of_nonneg hfloor
    exact_mod_cast congrArg (fun (z : Int) => (z : ℚ)) this
  refine ⟨by rw [toUint64, if_pos hcond], ?_, ?_⟩
  · rw [hcast]
    exact Int.floor_le q
  · rw [hcast]
    exact Int.lt_floor_add_one q

/-- C21 (amended): in every floating-point environment with faithful rounding
(relative error at most `2^-24` for `float` and `2^-53` for `double`, small
integers exact), for every `uint64_t` amount and `uint32_t` term,
`calculateInterest` returns a defined value `r` that differs from the
specified `floor(amount * eir)` by at most `1 + amount * eir / 2^20`. -/
theorem calculateInterest_near_specInterest (fe : FloatEnv) (amount term : Nat)
    (hfe : faithfulRounding fe) (hamount : amount < 2 ^ 64) (hterm : term < 2 ^ 32) :
    ∃ r, calculateInterest fe amount term = some r ∧
      |(r : ℚ) - (specInterest amount term : ℚ)| ≤
        1 + (amount : ℚ) * specEir amount term / 2 ^ 20 := by
  have hmonths := calculateInterest_months fe hfe term hterm
  have hbase := calculateInterest_base fe amount
  obtain ⟨hb1, hb2⟩ := specBaseRate_range amount
  have hF := hfe.1
  have hZ := hfe.2.2
  have hF0 : fe.toFloat 0 = 0 := by
    have := hZ 0 (by norm_num) (by norm_num)
    exact_mod_cast this
  have hu : (0 : ℚ) ≤ 1 / 2 ^ 24 := by norm_num
  simp only [calculateInterest, hbase, hmonths, specInterest, specEir]
  have hn12 : min (term / 21900) 12 ≤ 12 := Nat.min_le_right _ _
  generalize min (term / 21900) 12 = n at hn12
  generalize specBaseRate amount = b at hb1 hb2
  have hA0 : (0 : ℚ) ≤ amount := Nat.cast_nonneg _
  have hA64 : (amount : ℚ) ≤ 2 ^ 64 := by
    have : amount ≤ 2 ^ 64 := by omega
    exact_mod_cast this
  rcases Nat.eq_zero_or_pos n with h0 | hpos
  · subst h0
    obtain ⟨hc, _, _⟩ := toUint64_of_range 0 (le_refl 0) (by norm_num)
    simp only [Nat.cast_zero, mul_zero, hF0, hc]
    refine ⟨_, rfl, ?_⟩
    simp
  · obtain ⟨he1, he2⟩ := eir_within fe hfe b n hb1 hb2 hpos hn12
    have hn1q : (1 : ℚ) ≤ n := by exact_mod_cast hpos
    have hn2q : (n : ℚ) ≤ 12 := by exact_mod_cast hn12
    have hq1 : 49 / 12000 ≤ (b + ((n : ℚ) - 1) * (1 / 1000)) / 12 := by
      linarith only [hb1, hn1q]
    have hq2 : (b + ((n : ℚ) - 1) * (1 / 1000)) / 12 ≤ 80 / 12000 := by
      linarith only [hb2, hn2q]
    have hE1 : 49 / 12000 ≤ (b + ((n : ℚ) - 1) * (1 / 1000)) / 12 * n := by
      have := mul_le_mul hq1 hn1q (by norm_num) (by linarith only [hq1])
      linarith only [this]
    have hE2 : (b + ((n : ℚ) - 1) * (1 / 1000)) / 12 * n ≤ 80 / 1000 := by
      have := mul_le_mul hq2 hn2q (by linarith only [hn1q]) (by norm_num)
      linarith only [this]
    generalize (b + ((n : ℚ) - 1) * (1 / 1000)) / 12 * n = E at he1 he2 hE1 hE2
    generalize fe.toFloat (fe.toFloat (fe.toFloat (fe.toDouble
        (fe.toFloat (fe.toDouble b) +
          fe.toDouble (fe.toFloat ((n : ℚ) - 1) * fe.toDouble (1 / 1000)))) /
            fe.toFloat 12) * n) = eir at he1 he2
    have hE0 : (0 : ℚ) ≤ E := by linarith only [hE1]
    have hEL0 : 0 ≤ E * (1 - 6 / 2 ^ 24) := mul_nonneg hE0 (by norm_num)
    have heir0 : 0 ≤ eir := le_trans hEL0 he1
    have heir1 : eir < 2 ^ 64 := by
      have := mul_le_mul_of_nonneg_right hE2
        (by norm_num : (0 : ℚ) ≤ 1 + 6 / 2 ^ 24 + 6 / 2 ^ 40)
      linarith only [this, he2]
    obtain ⟨hc1, _, _⟩ := toUint64_of_range eir heir0 heir1
    simp only [hc1]
    -- the amount as a float, and its product with the period rate
    have hAr : (amount : ℚ) = 0 ∨ (1 / 2 ^ 12 ≤ (amount : ℚ) ∧ (amount : ℚ) ≤ 2 ^ 64) := by
      rcases Nat.eq_zero_or_pos amount with h | h
      · left
        exact_mod_cast h
      · right
        have : (1 : ℚ) ≤ amount := by exact_mod_cast h
        exact ⟨by linarith only [this], hA64⟩
    obtain ⟨ha1, ha2⟩ := round_within fe.toFloat (1 / 2 ^ 24) hu (by norm_num) hF amount amount
      1 1 (by norm_num) (by norm_num) (by linarith only []) (by linarith only []) hAr
    have hAE0 : 0 ≤ (amount : ℚ) * E := mul_nonneg hA0 hE0
    have hFA0 : 0 ≤ fe.toFloat amount := le_trans (by positivity) ha1
    have p1 : (amount : ℚ) * E * (1 - 7 / 2 ^ 24) ≤ fe.toFloat amount * eir := by
      have h1 := mul_le_mul ha1 he1 hEL0 hFA0
      have h2 : (amount : ℚ) * E * (1 - 7 / 2 ^ 24) ≤
          (amount : ℚ) * E * ((1 * (1 - 1 / 2 ^ 24)) * (1 - 6 / 2 ^ 24)) :=
        mul_le_mul_of_nonneg_left (by norm_num) hAE0
      linarith only [h1, h2]
    have p2 : fe.toFloat amount * eir ≤
        (amount : ℚ) * E * (1 + 7 / 2 ^ 24 + 7 / 2 ^ 40) := by
      have h1 := mul_le_mul ha2 he2 heir0 (by positivity)
      have h2 : (amount : ℚ) * E * ((1 * (1 + 1 / 2 ^ 24)) * (1 + 6 / 2 ^ 24 + 6 / 2 ^ 40)) ≤
          (amount : ℚ) * E * (1 + 7 / 2 ^ 24 + 7 / 2 ^ 40) :=
        mul_le_mul_of_nonneg_left (by norm_num) hAE0
      linarith only [h1, h2]
    have hXr : (amount : ℚ) * E = 0 ∨
        (1 / 2 ^ 12 ≤ (amount : ℚ) * E ∧ (amount : ℚ) * E ≤ 2 ^ 64) := by
      rcases hAr with h | ⟨h1, h2⟩
      · left
        rw [h, zero_mul]
      · right
        have hA1 : (1 : ℚ) ≤ amount := by
          rcases Nat.eq_zero_or_pos amount with h | h
          · rw [h] at h1
            norm_num at h1
          · exact_mod_cast h
        constructor
        · have := mul_le_mul hA1 hE1 (by norm_num) hA0
          linarith only [this]
        · have := mul_le_mul h2 hE2 hE0 (by norm_num)
          linarith only [this]
    obtain ⟨hi1, hi2⟩ := round_step fe.toFloat (1 / 2 ^ 24) hu (le_refl _) hF _ _ 7 8
      (by norm_num) (by norm_num) (by norm_num) p1 p2 hXr
    generalize fe.toFloat (fe.toFloat amount * eir) = interest at hi1 hi2
    have hX64 : (amount : ℚ) * E ≤ 2 ^ 64 * (80 / 1000) := mul_le_mul hA64 hE2 hE0
      (by norm_num)
    generalize (amount : ℚ) * E = X at hi1 hi2 hAE0 hX64
    have hI0 : 0 ≤ interest := le_trans (mul_nonneg hAE0 (by norm_num)) hi1
    have hI1 : interest < 2 ^ 64 := by linarith only [hi2, hX64]
    obtain ⟨hc2, hr1, hr2⟩ := toUint64_of_range interest hI0 hI1
    refine ⟨_, hc2, ?_⟩
    have hs1 : ((Int.floor X : Int) : ℚ) ≤ X := Int.floor_le X
    have hs2 : X < (Int.floor X : Int) + 1 := Int.lt_floor_add_one X
    rw [abs_le]
    constructor <;> linarith only [hi1, hi2, hr1, hr2, hs1, hs2, hAE0]

/-- Witness for C21 (amended): 1200000 atomic units for one month in the IEEE
754 environment. -/
theorem calculateInterest_near_specInterest_witness :
    ∃ r, calculateInterest ieeeEnv 1200000 21900 = some r ∧
      |(r : ℚ) - (specInterest 1200000 21900 : ℚ)| ≤
        1 + ((1200000 : Nat) : ℚ) * specEir 1200000 21900 / 2 ^ 20 :=
  calculateInterest_near_specInterest ieeeEnv 1200000 21900 ieeeEnv_faithful (by decide)
    (by decide)

/-- C21, counterexample: 1200000 atomic units (12 human units, rate 4.9%) for
one month.  Exact arithmetic gives `1200000 * 0.049 / 12 = 4900`.  In IEEE 754
arithmetic `float(0.049) = 13153337 / 2^28` lies below 0.049, `ear / 12`
rounds to `8768891 / 2^31`, the product with 1200000 rounds to
`10035199 / 2^11 = 4899.99951...`, and the conversion to `uint64_t` gives
4899. -/
theorem calculateInterest_differs_from_specInterest :
    calculateInterest ieeeEnv 1200000 21900 = some 4899 ∧
    specInterest 1200000 21900 = 4900 ∧
    ieeeEnv.toFloat (ieeeEnv.toDouble (49 / 1000)) = 13153337 / 2 ^ 28 ∧
    ieeeEnv.toFloat (13153337 / 2 ^ 28 / 12) = 8768891 / 2 ^ 31 ∧
    ieeeEnv.toFloat (1200000 * (8768891 / 2 ^ 31)) = 10035199 / 2 ^ 11 := by
  decide!

end CryptoNote
